import Mathlib

/-!
Verification development for the ASN.1 formatter of the obsidian-asn1-syntax
plugin.  The TypeScript source is shallowly embedded over `List Char`:
JavaScript strings become `List Char`, the regular expressions used by the
formatter are embedded as deterministic scanners (each regex used by the code
admits no backtracking beyond maximal munch, as argued in the comments at each
matcher), and the `-1` sentinel of `findMatchingBrace` becomes `Option Nat`.
The numeric depth counters of the source are embedded as `Int` because the
JavaScript counters can go negative.
-/

namespace ASN1

/-- Word character class of the JavaScript regex `\w`: `[A-Za-z0-9_]`. -/
def wordChar (c : Char) : Bool :=
  (('a' ≤ c) && (c ≤ 'z')) || (('A' ≤ c) && (c ≤ 'Z')) ||
  (('0' ≤ c) && (c ≤ '9')) || (c = '_')

/-- Whitespace class of the JavaScript regex `\s` (also the set trimmed by
`String.prototype.trim`): tab, line feed, vertical tab, form feed, carriage
return, space, and the Unicode space separators. -/
def jsSpace (c : Char) : Bool :=
  (c = ' ') || (c = '\t') || (c = '\n') || (c = '\r') ||
  (c = '\x0b') || (c = '\x0c') || (c = '\u00A0') ||
  (c = '\u1680') || (('\u2000' ≤ c) && (c ≤ '\u200A')) ||
  (c = '\u2028') || (c = '\u2029') || (c = '\u202F') ||
  (c = '\u205F') || (c = '\u3000') || (c = '\uFEFF')

/-- Embedding of JavaScript `String.prototype.trim`. -/
def jsTrim (s : List Char) : List Char :=
  ((s.dropWhile jsSpace).reverse.dropWhile jsSpace).reverse

/-- Embedding of JavaScript `String.prototype.trimEnd` (the source calls it
as `prefix.trimEnd()`). -/
def jsTrimEnd (s : List Char) : List Char :=
  (s.reverse.dropWhile jsSpace).reverse

/-- Embedding of `s.substring(a, b)` for non-negative JavaScript indices:
the arguments are swapped when `a > b` and clamped to the string length. -/
def jsSubstring (s : List Char) (a b : Nat) : List Char :=
  (s.take (max a b)).drop (min a b)

/-- Embedding of `s.split('\n')`: worker carrying the current chunk reversed. -/
def splitNLGo : List Char → List Char → List (List Char)
  | [], cur => [cur.reverse]
  | c :: rest, cur =>
      if c = '\n' then cur.reverse :: splitNLGo rest []
      else splitNLGo rest (c :: cur)

/-- Embedding of `s.split('\n')`. -/
def splitNL (s : List Char) : List (List Char) := splitNLGo s []

/-- Embedding of `arr.join('\n')`. -/
def joinNL : List (List Char) → List Char
  | [] => []
  | [l] => l
  | l :: rest => l ++ '\n' :: joinNL rest

/-- Worker for `collapseWs`: the flag records whether the scanner is inside a
whitespace run whose single replacement space has already been emitted. -/
def collapseWsGo : Bool → List Char → List Char
  | _, [] => []
  | inRun, c :: rest =>
      if jsSpace c then
        if inRun then collapseWsGo true rest
        else ' ' :: collapseWsGo true rest
      else c :: collapseWsGo false rest

/-- Embedding of `s.replace(/\s+/g, ' ')`: every maximal whitespace run
becomes a single space. -/
def collapseWs (s : List Char) : List Char := collapseWsGo false s

/-- Embedding of `s.replace(/,\s*$/, '')`: one trailing comma, together with
the whitespace following it, is removed from the end. -/
def stripTrailComma (s : List Char) : List Char :=
  match (s.reverse.dropWhile jsSpace) with
  | ',' :: r2 => r2.reverse
  | _ => s

/-- Embedding of `normalizeFieldContent` (src part_003, lines 1993-2000):
trim, strip a trailing comma, collapse whitespace runs to one space. -/
def normalizeFieldContent (raw : List Char) : List Char :=
  collapseWs (stripTrailComma (jsTrim raw))

/-- Scanner state of `splitTopLevelByComma`: the three depth counters and the
in-string flag.  The counters are `Int` because the JavaScript counters can
go below zero on unbalanced input. -/
structure SplitSt where
  brace : Int
  paren : Int
  bracket : Int
  inString : Bool
deriving DecidableEq, Repr

/-- Initial scanner state of `splitTopLevelByComma`. -/
def splitSt0 : SplitSt := ⟨0, 0, 0, false⟩

/-- In-string toggle shared by the scanners: an unescaped double quote
flips the in-string flag (`input[i-1]` is the empty string at `i = 0` in
the source; the initial `prev` is the NUL character, which like the empty
string is not `'\\'`). -/
def quoteToggle (ch prev : Char) (st : SplitSt) : SplitSt :=
  if ch = '"' && prev ≠ '\\' then { st with inString := !st.inString } else st

/-- Worker for `splitTopLevelByComma`: `prev` is the previous character,
`cur` is the current segment reversed, `acc` the emitted parts reversed. -/
def splitGo : List Char → Char → SplitSt → List Char → List (List Char) →
    List (List Char)
  | [], _, _, cur, acc =>
      if jsTrim cur.reverse ≠ [] then
        (normalizeFieldContent cur.reverse :: acc).reverse
      else acc.reverse
  | ch :: rest, prev, st, cur, acc =>
      let st1 : SplitSt := quoteToggle ch prev st
      if st1.inString then splitGo rest ch st1 (ch :: cur) acc
      else if ch = '{' then
        splitGo rest ch { st1 with brace := st1.brace + 1 } (ch :: cur) acc
      else if ch = '}' then
        splitGo rest ch { st1 with brace := st1.brace - 1 } (ch :: cur) acc
      else if ch = '(' then
        splitGo rest ch { st1 with paren := st1.paren + 1 } (ch :: cur) acc
      else if ch = ')' then
        splitGo rest ch { st1 with paren := st1.paren - 1 } (ch :: cur) acc
      else if ch = '[' then
        splitGo rest ch { st1 with bracket := st1.bracket + 1 } (ch :: cur) acc
      else if ch = ']' then
        splitGo rest ch { st1 with bracket := st1.bracket - 1 } (ch :: cur) acc
      else if ch = ',' && st1.brace = 0 && st1.paren = 0 && st1.bracket = 0 then
        splitGo rest ch st1 [] (normalizeFieldContent cur.reverse :: acc)
      else splitGo rest ch st1 (ch :: cur) acc

/-- Embedding of `splitTopLevelByComma` (src part_003, lines 2003-2033):
split on commas at brace/paren/bracket depth zero outside string literals,
normalizing every emitted part; the final part is emitted only when its
trimmed content is non-empty. -/
def splitTopLevelByComma (input : List Char) : List (List Char) :=
  splitGo input '\x00' splitSt0 [] []

/-- Worker for `findMatchingBrace`: scans the suffix with the previous
character, the absolute index of the head, the running brace count, and the
in-string flag. -/
def findBraceGo : List Char → Char → Nat → Int → Bool → Option Nat
  | [], _, _, _, _ => none
  | c :: rest, _prev, i, depth, inString =>
      let inS := if c = '"' && _prev ≠ '\\' then !inString else inString
      if inS then findBraceGo rest c (i + 1) depth inS
      else if c = '{' then findBraceGo rest c (i + 1) (depth + 1) inS
      else if c = '}' then
        if depth - 1 = 0 then some i
        else findBraceGo rest c (i + 1) (depth - 1) inS
      else findBraceGo rest c (i + 1) depth inS

/-- Embedding of `findMatchingBrace` (src part_003, lines 917-942).  The
source returns `-1` when no matching close brace exists; the embedding
returns `none` instead. -/
def findMatchingBrace (code : List Char) (openBracePos : Nat) : Option Nat :=
  findBraceGo (code.drop openBracePos)
    (if openBracePos = 0 then '\x00' else code.getD (openBracePos - 1) '\x00')
    openBracePos 0 false

/-- Matcher for the regex `/\\}\\s*(\\w+\\s*::=)/` of `simpleFormatASN1`
step 1 at the head of the given suffix.  The regex is deterministic: `\\s*`
and `\\w+` range over disjoint character classes and the following literal
`::=` starts with a character in neither class, so maximal munch coincides
with the backtracking semantics.  Returns the matched length together with
the text of capture group 1. -/
def matchStep1 : List Char → Option (Nat × List Char)
  | '}' :: rest =>
      let ws1 := rest.takeWhile jsSpace
      let r1 := rest.dropWhile jsSpace
      let w := r1.takeWhile wordChar
      if w = [] then none
      else
        let r2 := r1.dropWhile wordChar
        let ws2 := r2.takeWhile jsSpace
        match r2.dropWhile jsSpace with
        | ':' :: ':' :: '=' :: _ =>
            some (1 + ws1.length + w.length + ws2.length + 3,
                  w ++ ws2 ++ [':', ':', '='])
        | _ => none
  | _ => none

/-- Worker for `replaceStep1` with explicit fuel (every step consumes at
least one character, so fuel `s.length` is always sufficient). -/
def replaceStep1Go : Nat → List Char → List Char
  | 0, s => s
  | _, [] => []
  | fuel + 1, c :: rest =>
      match matchStep1 (c :: rest) with
      | some (len, cap) =>
          '}' :: '\n' :: '\n' :: '\n' ::
            (cap ++ replaceStep1Go fuel ((c :: rest).drop len))
      | none => c :: replaceStep1Go fuel rest

/-- Embedding of step 1 of `simpleFormatASN1` (src part_003, line 869):
`result.replace(/\\}\\s*(\\w+\\s*::=)/g, '}\\n\\n\\n$1')`. -/
def replaceStep1 (s : List Char) : List Char := replaceStep1Go s.length s

/-- Keyword alternatives of the structured-type regex, in source order. -/
def kwList : List (List Char) :=
  ["SEQUENCE".data, "SET".data, "CHOICE".data, "ENUMERATED".data]

/-- Alternation `(?:SEQUENCE|SET|CHOICE|ENUMERATED)\\s*\\{` tried in order:
when a keyword literal matches but `\\s*\\{` fails afterwards, the engine
backtracks to the next alternative (no two alternatives can match the same
text since none is a prefix of another).  Returns the consumed length up to
and including the opening brace. -/
def tryKw : List (List Char) → List Char → Option Nat
  | [], _ => none
  | kw :: kws, s =>
      if kw.isPrefixOf s then
        let r := s.drop kw.length
        let ws := r.takeWhile jsSpace
        match r.dropWhile jsSpace with
        | '{' :: _ => some (kw.length + ws.length + 1)
        | _ => tryKw kws s
      else tryKw kws s

/-- Matcher for the regex
`/(\\w+\\s*::=\\s*(?:SEQUENCE|SET|CHOICE|ENUMERATED)\\s*\\{)/` of
`formatTypeDefinitionsWithNestedBraces` at the head of the suffix.  As for
`matchStep1`, the character classes make maximal munch coincide with the
backtracking semantics.  Returns the length of the match (the whole match is
capture group 1, ending at the opening brace). -/
def matchStep2 (s : List Char) : Option Nat :=
  let w := s.takeWhile wordChar
  if w = [] then none
  else
    let r1 := s.dropWhile wordChar
    let ws1 := r1.takeWhile jsSpace
    match r1.dropWhile jsSpace with
    | ':' :: ':' :: '=' :: r2 =>
        let ws2 := r2.takeWhile jsSpace
        match tryKw kwList (r2.dropWhile jsSpace) with
        | some klen => some (w.length + ws1.length + 3 + ws2.length + klen)
        | none => none
    | _ => none

/-- Worker enumerating the matches found by the `regex.exec` loop of
`formatTypeDefinitionsWithNestedBraces`: scanning restarts one character
later after a failure and immediately after the matched text after a
success (every match is non-empty).  Fuel `s.length` is sufficient. -/
def findMatchesGo : Nat → List Char → Nat → List (Nat × Nat)
  | 0, _, _ => []
  | _, [], _ => []
  | fuel + 1, c :: rest, pos =>
      match matchStep2 (c :: rest) with
      | some len =>
          (pos, len) :: findMatchesGo fuel ((c :: rest).drop len) (pos + len)
      | none => findMatchesGo fuel rest (pos + 1)

/-- All matches of the structured-type regex, as (start, length) pairs. -/
def findMatches (s : List Char) : List (Nat × Nat) :=
  findMatchesGo s.length s 0

/-- First index of a character, embedding `s.indexOf(c)` (found case). -/
def indexOfChar (c : Char) : List Char → Option Nat
  | [] => none
  | x :: rest =>
      if x = c then some 0
      else (indexOfChar c rest).map (· + 1)

/-- Last index of a character, embedding `s.lastIndexOf(c)` (found case). -/
def lastIndexOfChar (c : Char) (s : List Char) : Option Nat :=
  (indexOfChar c s.reverse).map (fun i => s.length - 1 - i)

/-- Renders the numbered field lines of `formatSingleTypeDefinition`: two
fixed spaces of indentation, a comma after every field except the last. -/
def renderFieldLines : List (List Char) → List (List Char)
  | [] => []
  | [f] => [' ' :: ' ' :: normalizeFieldContent f]
  | f :: rest =>
      (' ' :: ' ' :: (normalizeFieldContent f ++ [','])) :: renderFieldLines rest

/-- Embedding of `formatSingleTypeDefinition` (src part_003, lines 945-981).
The indentation is the source's fixed two-space string (the source comment
says "use fixed 2-space indent"); `this.settings.indentSize` is not read. -/
def formatSingleTypeDefinition (original pfx : List Char) : List Char :=
  match indexOfChar '{' original, lastIndexOfChar '}' original with
  | some op, some cp =>
      let fieldContent := jsTrim (jsSubstring original (op + 1) cp)
      if fieldContent = [] then jsTrimEnd pfx ++ ['\n', '}']
      else
        let segs := splitTopLevelByComma fieldContent
        if segs.length ≤ 1 then
          jsTrimEnd pfx ++ '\n' :: ' ' :: ' ' ::
            (normalizeFieldContent fieldContent ++ ['\n', '}'])
        else joinNL (jsTrimEnd pfx :: (renderFieldLines segs ++ [['}']]))
  | _, _ => original

/-- Matches of step 2 paired with the index of their matching close brace;
matches without a matching close brace are discarded (`endPos !== -1`). -/
def withEnds (code : List Char) (ms : List (Nat × Nat)) :
    List (Nat × Nat × Nat) :=
  ms.filterMap (fun m =>
    match findMatchingBrace code (m.1 + m.2 - 1) with
    | some e => some (m.1, m.2, e)
    | none => none)

/-- One replacement step of the back-to-front loop of
`formatTypeDefinitionsWithNestedBraces`: `original` and the captured text
are extracted from `code` (the function's input) while the splice happens
on the accumulator `result`. -/
def applyOne (code : List Char) (acc : List Char) (m : Nat × Nat × Nat) :
    List Char :=
  let original := jsSubstring code m.1 (m.2.2 + 1)
  let pfx := jsSubstring code m.1 (m.1 + m.2.1)
  acc.take m.1 ++ formatSingleTypeDefinition original pfx ++ acc.drop (m.2.2 + 1)

/-- Embedding of `formatTypeDefinitionsWithNestedBraces` (src part_003,
lines 882-914): collect all structured-type matches with their close
braces, then replace from the last match to the first. -/
def formatTypeDefinitionsWithNestedBraces (code : List Char) : List Char :=
  ((withEnds code (findMatches code)).reverse).foldl (applyOne code) code

/-- Worker for the `/\\n{3,}/g` collapse: `k` counts the pending newline
run; a run of `k` newlines is emitted as `min k 3` newlines. -/
def collapseNLGo : Nat → List Char → List Char
  | k, [] => List.replicate (min k 3) '\n'
  | k, c :: rest =>
      if c = '\n' then collapseNLGo (k + 1) rest
      else List.replicate (min k 3) '\n' ++ c :: collapseNLGo 0 rest

/-- Embedding of `code.replace(/\\n{3,}/g, '\\n\\n\\n')`. -/
def collapseNL (s : List Char) : List Char := collapseNLGo 0 s

/-- Embedding of `code.replace(/^\\n+/, '')`. -/
def dropLeadNL (s : List Char) : List Char := s.dropWhile (· = '\n')

/-- Embedding of `code.replace(/\\n+$/, '\\n')`: when the string ends in at
least one newline the whole trailing newline run becomes a single newline. -/
def collapseTrailNL (s : List Char) : List Char :=
  let r := s.reverse
  let r1 := r.dropWhile (· = '\n')
  if r1.length = r.length then s else ('\n' :: r1).reverse

/-- Embedding of `cleanupSpacing` (src part_003, lines 984-990). -/
def cleanupSpacing (s : List Char) : List Char :=
  collapseTrailNL (dropLeadNL (collapseNL s))

/-- Embedding of `simpleFormatASN1` (src part_003, lines 865-879): trim,
separate adjacent definitions (step 1), format the structured definitions,
clean up the blank lines. -/
def simpleFormatASN1 (code : List Char) : List Char :=
  cleanupSpacing (formatTypeDefinitionsWithNestedBraces (replaceStep1 (jsTrim code)))

/-- Embedding of `formatASN1Code` (src part_003, lines 847-862).  The
source wraps `simpleFormatASN1` in try/catch and falls back to
`fallbackFormat` on an exception; every operation in `simpleFormatASN1`
is total (plain string and regex operations), so the catch branch is dead
and the embedding is the straight-line path.  `w` is
`this.settings.indentSize`, which the reachable path never reads. -/
def formatASN1Code (_w : Nat) (code : List Char) : List Char :=
  if jsTrim code = [] then [] else simpleFormatASN1 code

/-- Worker for `fallbackFormat`: the running indent level is a `Nat`, and
the source's `Math.max(0, indentLevel - 1)` is truncated subtraction. -/
def fallbackGo (w : Nat) : List (List Char) → Nat → List (List Char)
  | [], _ => []
  | line :: rest, level =>
      let t := jsTrim line
      if t = [] then fallbackGo w rest level
      else
        let lvl1 := if t.head? = some '}' then level - 1 else level
        let lvl2 := if t.contains '{' && !t.contains '}' then lvl1 + 1 else lvl1
        (List.replicate (lvl1 * w) ' ' ++ t) :: fallbackGo w rest lvl2

/-- Embedding of `fallbackFormat` (src part_003, lines 1589-1617): split
into lines, skip blank lines, decrement the level at a line starting with a
close brace, emit the trimmed line at `level * indentSize` spaces, increment
the level after a line containing `{` but no `}`. -/
def fallbackFormat (w : Nat) (code : List Char) : List Char :=
  joinNL (fallbackGo w (splitNL code) 0)

/-!
### Specification-side models and auxiliary predicates

The following definitions are written from the specification's words, for
comparison against the source embeddings above, together with decidable
predicates used to state the claims.
-/

/-- Bracket matcher written from the spec's words (section 4.1): scanning
starts just past the opening brace with the depth counter already at 1, the
in-string flag toggled by each unescaped double quote, braces counted only
outside strings, the current index returned when the depth reaches 0, and
not-found returned at end of text.  The per-character transition is shared
with the source scanner (the spec describes the identical transition); what
the spec fixes differently is the initialisation. -/
def findMatchingBraceSpec (code : List Char) (openIndex : Nat) : Option Nat :=
  findBraceGo (code.drop (openIndex + 1)) '{' (openIndex + 1) 1 false

/-- Splitter written from the spec's words (section 4.2): the raw
comma-delimited segments at brace/paren/bracket depth zero outside string
literals, using the same tracking discipline as the bracket matcher, with no
normalization and no dropping.  Splitting an input with `n` splitting commas
yields exactly `n + 1` raw segments. -/
def rawSplitGo : List Char → Char → SplitSt → List Char → List (List Char)
  | [], _, _, cur => [cur.reverse]
  | ch :: rest, prev, st, cur =>
      let st1 : SplitSt := quoteToggle ch prev st
      if st1.inString then rawSplitGo rest ch st1 (ch :: cur)
      else if ch = '{' then
        rawSplitGo rest ch { st1 with brace := st1.brace + 1 } (ch :: cur)
      else if ch = '}' then
        rawSplitGo rest ch { st1 with brace := st1.brace - 1 } (ch :: cur)
      else if ch = '(' then
        rawSplitGo rest ch { st1 with paren := st1.paren + 1 } (ch :: cur)
      else if ch = ')' then
        rawSplitGo rest ch { st1 with paren := st1.paren - 1 } (ch :: cur)
      else if ch = '[' then
        rawSplitGo rest ch { st1 with bracket := st1.bracket + 1 } (ch :: cur)
      else if ch = ']' then
        rawSplitGo rest ch { st1 with bracket := st1.bracket - 1 } (ch :: cur)
      else if ch = ',' && st1.brace = 0 && st1.paren = 0 && st1.bracket = 0 then
        cur.reverse :: rawSplitGo rest ch st1 []
      else rawSplitGo rest ch st1 (ch :: cur)

/-- Raw top-level comma segments of the input (spec section 4.2). -/
def rawSplit (s : List Char) : List (List Char) :=
  rawSplitGo s '\x00' splitSt0 []

/-- Fallback re-indenter written from the spec's words (section 4.7), on the
non-blank trimmed lines: the depth is decremented at a line that is or
starts with a closing brace, each line is emitted behind `depth * w` spaces,
and the depth is incremented after a line containing an opening brace but no
closing brace. -/
def reindentLines (w : Nat) : Nat → List (List Char) → List (List Char)
  | _, [] => []
  | level, t :: rest =>
      let lvl1 := if t.head? = some '}' then level - 1 else level
      let lvl2 := if t.contains '{' && !t.contains '}' then lvl1 + 1 else lvl1
      (List.replicate (lvl1 * w) ' ' ++ t) :: reindentLines w lvl2 rest

/-- Decides whether the text starts with the three characters `::=`. -/
def cceAt : List Char → Bool
  | ':' :: ':' :: '=' :: _ => true
  | _ => false

/-- Decides whether the text contains the three-character sequence `::=`. -/
def hasCCE : List Char → Bool
  | [] => false
  | c :: rest => cceAt (c :: rest) || hasCCE rest

/-- Newline-run check: `nlOk run s` holds when, starting from a current run
of `run` consecutive newlines, no run of the text ever reaches four
newlines (four consecutive newlines are three consecutive blank lines). -/
def nlOk : Nat → List Char → Bool
  | _, [] => true
  | run, c :: rest =>
      if c = '\n' then decide (run + 1 ≤ 3) && nlOk (run + 1) rest
      else nlOk 0 rest

/-- No four consecutive newlines anywhere, i.e. never more than two
consecutive blank lines. -/
def noNLRun4 (s : List Char) : Bool := nlOk 0 s

/-- Whether the text ends with at least two newlines, i.e. with more than
one trailing newline. -/
def endsTwoNL (s : List Char) : Bool :=
  match s.reverse with
  | '\n' :: '\n' :: _ => true
  | _ => false

/-!
### Well-formed input grammar for the idempotence claim

The spec quantifies idempotence over "well-formed" input without defining
it.  We formalise well-formed input as the rendering of a non-empty list
of ASN.1 definitions: each definition is either a primitive alias
`name ::= type` or a structured definition
`name ::= KEYWORD {` followed by one comma-terminated field line per
field and a closing brace; names and tokens are non-empty words, every
field line carries arbitrary indentation, and consecutive definitions are
separated by one to three newlines.  This covers the spec's own examples
(section 8) up to the pre-normalised single spacing of `::=` and of the
tokens inside a field.
-/

/-- The four structured-type keywords. -/
inductive StKw
  | seq
  | set
  | choice
  | enum
deriving DecidableEq, Repr

/-- Characters of a structured-type keyword. -/
def kwChars : StKw → List Char
  | .seq => "SEQUENCE".data
  | .set => "SET".data
  | .choice => "CHOICE".data
  | .enum => "ENUMERATED".data

/-- A well-formed definition: a primitive alias, or a structured type
with its fields; each field is a leading indent width paired with its
non-empty list of word tokens. -/
inductive WfDef
  | prim (name ty : List Char)
  | str (name : List Char) (kw : StKw) (fields : List (Nat × List (List Char)))
deriving DecidableEq, Repr

/-- A token is a non-empty list of word characters. -/
def tokenOk (t : List Char) : Bool := !t.isEmpty && t.all wordChar

/-- A field holds at least one valid token. -/
def fieldOk (f : Nat × List (List Char)) : Bool :=
  !f.2.isEmpty && f.2.all tokenOk

/-- Validity of one definition. -/
def defOk : WfDef → Bool
  | .prim n ty => tokenOk n && tokenOk ty
  | .str n _ fs => tokenOk n && !fs.isEmpty && fs.all fieldOk

/-- Validity of a rendered program: a head definition and the following
definitions, each preceded by one to three separator newlines. -/
def progOk (d : WfDef) (rest : List (Nat × WfDef)) : Bool :=
  defOk d && rest.all (fun p => 1 ≤ p.1 && p.1 ≤ 3 && defOk p.2)

/-- Tokens of a field joined by single spaces. -/
def renderField : List (List Char) → List Char
  | [] => []
  | [t] => t
  | t :: rest => t ++ ' ' :: renderField rest

/-- One field line: its indent followed by its tokens. -/
def renderFieldLine (f : Nat × List (List Char)) : List Char :=
  List.replicate f.1 ' ' ++ renderField f.2

/-- Field lines joined by a comma and a newline. -/
def renderBody : List (Nat × List (List Char)) → List Char
  | [] => []
  | [f] => renderFieldLine f
  | f :: rest => renderFieldLine f ++ ',' :: '\n' :: renderBody rest

/-- Text of one definition. -/
def renderDef : WfDef → List Char
  | .prim n ty => n ++ ' ' :: ':' :: ':' :: '=' :: ' ' :: ty
  | .str n kw fs =>
      n ++ ' ' :: ':' :: ':' :: '=' :: ' ' ::
        (kwChars kw ++ ' ' :: '{' :: '\n' :: (renderBody fs ++ ['\n', '}']))

/-- Whether a definition is structured (its text ends in a brace). -/
def isStr : WfDef → Bool
  | .prim _ _ => false
  | .str _ _ _ => true

/-- Text of the definitions after the head, each behind its separator. -/
def tailRender : List (Nat × WfDef) → List Char
  | [] => []
  | (k, d') :: rest =>
      List.replicate k '\n' ++ (renderDef d' ++ tailRender rest)

/-- Text of the whole program. -/
def renderProg (d : WfDef) (rest : List (Nat × WfDef)) : List Char :=
  renderDef d ++ tailRender rest

/-- The canonical form of one definition: fields at the formatter's fixed
two-space indent. -/
def canonDef : WfDef → WfDef
  | .prim n ty => .prim n ty
  | .str n kw fs => .str n kw (fs.map (fun f => (2, f.2)))

/-- The separator the formatter produces after a definition: step 1
rewrites the separator after a closing brace to exactly three newlines
and leaves other separators alone. -/
def sepAfter (d : WfDef) (k : Nat) : Nat := if isStr d then 3 else k

/-- Canonical form of the definitions after the head. -/
def canonRest : WfDef → List (Nat × WfDef) → List (Nat × WfDef)
  | _, [] => []
  | dp, (k, d') :: rest => (sepAfter dp k, canonDef d') :: canonRest d' rest

/-- The step-1 output: original definitions behind canonical separators.
The flag says whether the preceding definition was structured. -/
def tailSep3 : Bool → List (Nat × WfDef) → List Char
  | _, [] => []
  | b, (k, d') :: rest =>
      List.replicate (if b then 3 else k) '\n' ++
        (renderDef d' ++ tailSep3 (isStr d') rest)

/-- Name of a definition. -/
def defName : WfDef → List Char
  | .prim n _ => n
  | .str n _ _ => n

/-- Text of a definition after its name and `::=`. -/
def renderDefAfter : WfDef → List Char
  | .prim _ ty => ' ' :: ty
  | .str _ kw fs =>
      ' ' :: (kwChars kw ++ ' ' :: '{' :: '\n' :: (renderBody fs ++ ['\n', '}']))

/-- Length of the structured-type match at the head of a structured
definition's text: the name, one space, `::=`, one space, the keyword, one
space and the opening brace. -/
def matchLen : WfDef → Nat
  | .prim _ _ => 0
  | .str n kw _ => n.length + (kwChars kw).length + 7

/-- The matches the step-2 scan finds along the step-1 output, with their
absolute start positions: one match at each structured definition. -/
def expMatches : Nat → WfDef → List (Nat × WfDef) → List (Nat × Nat)
  | pos, d, [] => if isStr d then [(pos, matchLen d)] else []
  | pos, d, (k, d') :: rest =>
      (if isStr d then [(pos, matchLen d)] else []) ++
        expMatches (pos + (renderDef d).length + sepAfter d k) d' rest

/-- The matches paired with their matching close-brace positions: the close
brace of a structured definition is the last character of its text. -/
def expWE : Nat → WfDef → List (Nat × WfDef) → List (Nat × Nat × Nat)
  | pos, d, [] =>
      if isStr d then [(pos, matchLen d, pos + (renderDef d).length - 1)] else []
  | pos, d, (k, d') :: rest =>
      (if isStr d then [(pos, matchLen d, pos + (renderDef d).length - 1)]
       else []) ++
        expWE (pos + (renderDef d).length + sepAfter d k) d' rest

/-- Shape of the text after one definition in the rendered stream: either
nothing, or at least one separator newline followed by nothing or by text
starting with a word character. -/
def SepShape (U : List Char) : Prop :=
  U = [] ∨ ∃ m T, U = List.replicate (m + 1) '\n' ++ T ∧
    (T = [] ∨ ∃ c, T.head? = some c ∧ wordChar c = true)

/-- Well-formed input: the rendering of a valid program. -/
def WellFormed (s : List Char) : Prop :=
  ∃ d rest, progOk d rest = true ∧ s = renderProg d rest

/-! ### Theorems -/

section BraceLemmas

/-- Worker soundness: a returned index points at a closing brace inside the
scanned suffix, at or after the starting index. -/
theorem findBraceGo_some (s : List Char) : ∀ prev i depth inS j,
    findBraceGo s prev i depth inS = some j →
    i ≤ j ∧ j - i < s.length ∧ s.getD (j - i) '\x00' = '}' := by
  induction s with
  | nil => intro prev i depth inS j h; simp [findBraceGo] at h
  | cons c rest ih =>
      intro prev i depth inS j h
      simp only [findBraceGo] at h
      by_cases hq : (if c = '"' && prev ≠ '\\' then !inS else inS) = true
      · rw [if_pos hq] at h
        obtain ⟨h1, h2, h3⟩ := ih c (i + 1) depth _ j h
        refine ⟨by omega, by simp; omega, ?_⟩
        have : j - i = (j - (i + 1)) + 1 := by omega
        rw [this]; simpa using h3
      · rw [if_neg hq] at h
        by_cases hob : c = '{'
        · rw [if_pos hob] at h
          obtain ⟨h1, h2, h3⟩ := ih c (i + 1) _ _ j h
          refine ⟨by omega, by simp; omega, ?_⟩
          have : j - i = (j - (i + 1)) + 1 := by omega
          rw [this]; simpa using h3
        · rw [if_neg hob] at h
          by_cases hcb : c = '}'
          · rw [if_pos hcb] at h
            by_cases hz : depth - 1 = 0
            · rw [if_pos hz] at h
              obtain rfl : i = j := by simpa using h
              simp [hcb]
            · rw [if_neg hz] at h
              obtain ⟨h1, h2, h3⟩ := ih c (i + 1) _ _ j h
              refine ⟨by omega, by simp; omega, ?_⟩
              have : j - i = (j - (i + 1)) + 1 := by omega
              rw [this]; simpa using h3
          · rw [if_neg hcb] at h
            obtain ⟨h1, h2, h3⟩ := ih c (i + 1) _ _ j h
            refine ⟨by omega, by simp; omega, ?_⟩
            have : j - i = (j - (i + 1)) + 1 := by omega
            rw [this]; simpa using h3

end BraceLemmas

/-- Claim C6, confirmed: for every text and every position holding an
opening brace, `findMatchingBrace` behaves exactly as the spec's bracket
matcher: it scans forward with the depth at 1 once the opening brace is
consumed and the in-string flag toggled by each unescaped double quote,
counts braces only outside strings, returns the index at which the depth
reaches 0 (that index holds a closing brace), and returns the not-found
value (the source's `-1`, embedded as `none`) when the end of the text is
reached first. -/
theorem c6_find_matching_brace_spec (code : List Char) (openPos : Nat)
    (hlt : openPos < code.length) (hc : code.getD openPos '\x00' = '{') :
    findMatchingBrace code openPos = findMatchingBraceSpec code openPos ∧
    ∀ j, findMatchingBrace code openPos = some j →
      j < code.length ∧ code.getD j '\x00' = '}' := by
  have hdrop : code.drop openPos = '{' :: code.drop (openPos + 1) := by
    rw [List.drop_eq_getElem_cons hlt]
    congr 1
    have := List.getD_eq_getElem code '\x00' hlt
    rw [← hc, this]
  constructor
  · show findBraceGo (code.drop openPos) _ openPos 0 false = _
    rw [hdrop]
    simp [findBraceGo, findMatchingBraceSpec]
  · intro j hj
    unfold findMatchingBrace at hj
    obtain ⟨h1, h2, h3⟩ := findBraceGo_some _ _ _ _ _ _ hj
    have hlen : (code.drop openPos).length = code.length - openPos := by simp
    constructor
    · omega
    · have : (code.drop openPos).getD (j - openPos) '\x00'
          = code.getD (openPos + (j - openPos)) '\x00' := by
        simp [List.getD, List.getElem?_drop]
      rw [this] at h3
      have : openPos + (j - openPos) = j := by omega
      rwa [this] at h3

/-- Witness for C6 at a concrete input. -/
theorem c6_find_matching_brace_spec_witness :
    (0 < ("{a{b}c}".data).length ∧ ("{a{b}c}".data).getD 0 '\x00' = '{') ∧
    findMatchingBrace "{a{b}c}".data 0 = findMatchingBraceSpec "{a{b}c}".data 0 ∧
    ∀ j, findMatchingBrace "{a{b}c}".data 0 = some j →
      j < ("{a{b}c}".data).length ∧ ("{a{b}c}".data).getD j '\x00' = '}' :=
  ⟨⟨by decide, by decide⟩,
    c6_find_matching_brace_spec "{a{b}c}".data 0 (by decide) (by decide)⟩

/-- Claim C3 (the claim is right, the code is wrong): the formatter's field
indentation is the source's hardcoded two-space string, not the configured
indent width.  At the spec's own example with indent width 4 the output
fields are indented two spaces, not four; the repository's test
`should format with different indent sizes` asserts four. -/
theorem c3_indent_width_ignored :
    formatASN1Code 4 "Person ::= SEQUENCE \x7b\nname UTF8String,\nage INTEGER\n\x7d".data
      = "Person ::= SEQUENCE \x7b\n  name UTF8String,\n  age INTEGER\n\x7d".data ∧
    formatASN1Code 4 "Person ::= SEQUENCE \x7b\nname UTF8String,\nage INTEGER\n\x7d".data
      ≠ "Person ::= SEQUENCE \x7b\n    name UTF8String,\n    age INTEGER\n\x7d".data := by
  constructor
  · decide
  · decide

/-- Claim C9 (the claim is right, the code is wrong): formatting
`Person::=SEQUENCE{name UTF8String}` never normalizes the definition
operator: the matched prefix is copied verbatim, so the output contains
`::=` with no surrounding spaces and the sequence `' ::= '` occurs nowhere,
although the repository's test `should clean up operator spacing` asserts
that it does. -/
theorem c9_operator_spacing_not_normalized :
    formatASN1Code 2 "Person::=SEQUENCE{name UTF8String}".data
      = "Person::=SEQUENCE\x7b\n  name UTF8String\n\x7d".data ∧
    ¬ (" ::= ".data <:+:
      formatASN1Code 2 "Person::=SEQUENCE{name UTF8String}".data) ∧
    ("::=".data <:+:
      formatASN1Code 2 "Person::=SEQUENCE{name UTF8String}".data) := by
  refine ⟨by decide, by decide, by decide⟩

/-- Counterexample to claim C4 as stated: the fallback indenter drops blank
lines, so it does not preserve the input's line count (input `a\n\nb` has
three lines, the output has two). -/
theorem c4_line_count_not_preserved :
    (splitNL (fallbackFormat 2 "a\n\nb".data)).length = 2 ∧
    (splitNL "a\n\nb".data).length = 3 := by
  constructor
  · decide
  · decide

/-- Counterexample to claim C5 as stated: the splitter keeps empty leading
segments (a depth-zero comma pushes the normalized current segment even
when it is empty), so the returned sequence can begin with an empty
segment. -/
theorem c5_leading_empty_segment_kept :
    splitTopLevelByComma ",a".data = [[], ['a']] := by decide

/-- Counterexample to claim C7 as stated: the field normalizer is not
idempotent: stripping the trailing comma of `"a ,"` exposes a trailing
space that only a second application removes. -/
theorem c7_normalize_not_idempotent :
    normalizeFieldContent "a ,".data = "a ".data ∧
    normalizeFieldContent (normalizeFieldContent "a ,".data)
      ≠ normalizeFieldContent "a ,".data := by
  constructor
  · decide
  · decide

/-- Counterexample to claim C8 as stated: `formatASN1Code` never appends a
trailing newline (the editor-integration caller does); on the non-empty
input `Person ::= INTEGER` the output ends with no newline at all. -/
theorem c8_no_trailing_newline_appended :
    formatASN1Code 2 "Person ::= INTEGER".data = "Person ::= INTEGER".data ∧
    (formatASN1Code 2 "Person ::= INTEGER".data).getLast? ≠ some '\n' := by
  constructor
  · decide
  · decide

section NormalizeLemmas

/-- Every whitespace character emitted by the collapse worker is a plain
space. -/
theorem collapseWsGo_space_mem : ∀ (b : Bool) (s : List Char) (c : Char),
    c ∈ collapseWsGo b s → jsSpace c = true → c = ' ' := by
  intro b s
  induction s generalizing b with
  | nil => intro c h; simp [collapseWsGo] at h
  | cons d rest ih =>
      intro c h hc
      simp only [collapseWsGo] at h
      by_cases hd : jsSpace d = true
      · rw [if_pos hd] at h
        by_cases hb : b = true
        · subst hb; rw [if_pos rfl] at h; exact ih true c h hc
        · simp only [Bool.not_eq_true] at hb; subst hb
          simp only [Bool.false_eq_true, if_false, List.mem_cons] at h
          rcases h with rfl | h
          · rfl
          · exact ih true c h hc
      · rw [if_neg hd] at h
        rcases List.mem_cons.mp h with rfl | h
        · exact absurd hc (by simp [hd])
        · exact ih false c h hc

/-- The head of the collapse worker's output in in-run state is never
whitespace. -/
theorem collapseWsGo_true_head : ∀ (s : List Char) (c : Char),
    (collapseWsGo true s).head? = some c → jsSpace c = false := by
  intro s
  induction s with
  | nil => intro c h; simp [collapseWsGo] at h
  | cons d rest ih =>
      intro c h
      simp only [collapseWsGo] at h
      by_cases hd : jsSpace d = true
      · rw [if_pos hd] at h; exact ih c (by simpa using h)
      · rw [if_neg hd] at h
        simp only [List.head?_cons, Option.some.injEq] at h
        subst h; simpa using hd

/-- The collapse worker never emits two adjacent whitespace characters. -/
theorem collapseWsGo_chain : ∀ (b : Bool) (s : List Char),
    List.Chain' (fun a c => ¬(jsSpace a = true ∧ jsSpace c = true))
      (collapseWsGo b s) := by
  intro b s
  induction s generalizing b with
  | nil => simp [collapseWsGo]
  | cons d rest ih =>
      simp only [collapseWsGo]
      by_cases hd : jsSpace d = true
      · rw [if_pos hd]
        by_cases hb : b = true
        · subst hb; simpa using ih true
        · simp only [Bool.not_eq_true] at hb; subst hb
          simp only [Bool.false_eq_true, if_false]
          rw [List.chain'_cons']
          exact ⟨fun c hc => by
            have := collapseWsGo_true_head rest c hc
            simp [this], ih true⟩
      · rw [if_neg hd]
        rw [List.chain'_cons']
        exact ⟨fun c _ => by simp [hd], ih false⟩

/-- On a string whose whitespace characters are all plain spaces and
already collapsed (no two adjacent whitespace characters), the collapse
worker is the identity; in in-run state it is the identity when
additionally the head is not whitespace. -/
theorem collapseWsGo_id : ∀ (n : Nat) (s : List Char), s.length ≤ n →
    (∀ c ∈ s, jsSpace c = true → c = ' ') →
    List.Chain' (fun a c => ¬(jsSpace a = true ∧ jsSpace c = true)) s →
    (collapseWsGo false s = s ∧
      ((∀ c, s.head? = some c → jsSpace c = false) → collapseWsGo true s = s)) := by
  intro n
  induction n with
  | zero =>
      intro s hs _ _
      have : s = [] := List.length_eq_zero.mp (Nat.le_zero.mp hs)
      subst this; exact ⟨rfl, fun _ => rfl⟩
  | succ n ih =>
      intro s hs hall hchain
      cases s with
      | nil => exact ⟨rfl, fun _ => rfl⟩
      | cons d rest =>
          have hrest : rest.length ≤ n := by simpa using hs
          have hall' : ∀ c ∈ rest, jsSpace c = true → c = ' ' :=
            fun c hc => hall c (List.mem_cons_of_mem d hc)
          have hchain' : List.Chain' _ rest := (List.chain'_cons'.mp hchain).2
          have hrel := (List.chain'_cons'.mp hchain).1
          constructor
          · by_cases hd : jsSpace d = true
            · have hdd : d = ' ' := hall d (List.mem_cons_self d rest) hd
              simp only [collapseWsGo, if_pos hd, Bool.false_eq_true, if_false]
              have hresthead : ∀ c, rest.head? = some c → jsSpace c = false := by
                intro c hc
                have := hrel c hc
                by_contra hcs
                simp only [Bool.not_eq_false] at hcs
                exact this ⟨hd, hcs⟩
              rw [(ih rest hrest hall' hchain').2 hresthead, hdd]
            · simp only [collapseWsGo, if_neg hd]
              rw [(ih rest hrest hall' hchain').1]
          · intro hhead
            by_cases hd : jsSpace d = true
            · exact absurd (hhead d rfl) (by simp [hd])
            · simp only [collapseWsGo, if_neg hd]
              rw [(ih rest hrest hall' hchain').1]

end NormalizeLemmas

/-- The head surviving `dropWhile` fails the predicate. -/
theorem dropWhile_head_false {α : Type} (p : α → Bool) (l : List α) (c : α)
    (h : (l.dropWhile p).head? = some c) : p c = false := by
  induction l with
  | nil => simp [List.dropWhile] at h
  | cons d rest ih =>
      rw [List.dropWhile_cons] at h
      by_cases hd : p d = true
      · rw [if_pos hd] at h; exact ih h
      · rw [if_neg hd] at h
        simp only [List.head?_cons, Option.some.injEq] at h
        subst h; simpa using hd

/-- `jsTrimEnd` produces a prefix of its argument; the removed tail is all
whitespace. -/
theorem jsTrimEnd_append (w : List Char) :
    ∃ t, w = jsTrimEnd w ++ t ∧ ∀ c ∈ t, jsSpace c = true := by
  refine ⟨(w.reverse.takeWhile jsSpace).reverse, ?_, ?_⟩
  · have h1 : jsTrimEnd w ++ (w.reverse.takeWhile jsSpace).reverse
        = (w.reverse.takeWhile jsSpace ++ w.reverse.dropWhile jsSpace).reverse := by
      rw [List.reverse_append]; rfl
    rw [h1, List.takeWhile_append_dropWhile, List.reverse_reverse]
  · intro c hc
    rw [List.mem_reverse] at hc
    exact List.mem_takeWhile_imp hc

/-- Unfolding: full trim is trim-end after the leading whitespace drop. -/
theorem jsTrim_eq_trimEnd (s : List Char) :
    jsTrim s = jsTrimEnd (s.dropWhile jsSpace) := rfl

/-- The first character of a trimmed string is not whitespace. -/
theorem jsTrim_head_false (s : List Char) (c : Char)
    (h : (jsTrim s).head? = some c) : jsSpace c = false := by
  rw [jsTrim_eq_trimEnd] at h
  obtain ⟨t, ht, -⟩ := jsTrimEnd_append (s.dropWhile jsSpace)
  have : (s.dropWhile jsSpace).head? = some c := by
    rw [ht, List.head?_append_of_ne_nil]
    · exact h
    · intro hnil; rw [hnil] at h; simp at h
  exact dropWhile_head_false jsSpace s c this

/-- Trimming fixes a string whose first and last characters are not
whitespace. -/
theorem jsTrim_id (y : List Char)
    (hh : ∀ c, y.head? = some c → jsSpace c = false)
    (hl : ∀ c, y.getLast? = some c → jsSpace c = false) :
    jsTrim y = y := by
  have h1 : y.dropWhile jsSpace = y := by
    cases y with
    | nil => rfl
    | cons d rest =>
        rw [List.dropWhile_cons, if_neg]
        simp [hh d rfl]
  have h2 : y.reverse.dropWhile jsSpace = y.reverse := by
    cases hrev : y.reverse with
    | nil => rfl
    | cons d rest =>
        rw [List.dropWhile_cons, if_neg]
        have : y.getLast? = some d := by
          rw [← List.head?_reverse, hrev]; rfl
        simp [hl d this]
  unfold jsTrim
  rw [h1, h2, List.reverse_reverse]

/-- The comma strip fixes a string whose last character is neither a comma
nor whitespace. -/
theorem stripTrailComma_id (y : List Char)
    (hl : ∀ c, y.getLast? = some c → jsSpace c = false)
    (hc : y.getLast? ≠ some ',') :
    stripTrailComma y = y := by
  have h2 : y.reverse.dropWhile jsSpace = y.reverse := by
    cases hrev : y.reverse with
    | nil => rfl
    | cons d rest =>
        rw [List.dropWhile_cons, if_neg]
        have : y.getLast? = some d := by
          rw [← List.head?_reverse, hrev]; rfl
        simp [hl d this]
  unfold stripTrailComma
  rw [h2]
  split
  · next r2 heq =>
      exfalso
      apply hc
      rw [← List.head?_reverse, heq]
      rfl
  · rfl

/-- The comma strip produces a prefix of its argument. -/
theorem stripTrailComma_append (y : List Char) :
    ∃ t, y = stripTrailComma y ++ t := by
  unfold stripTrailComma
  split
  · next r2 heq =>
      refine ⟨[','] ++ (y.reverse.takeWhile jsSpace).reverse, ?_⟩
      conv_lhs =>
        rw [← y.reverse_reverse,
          ← List.takeWhile_append_dropWhile (p := jsSpace) (l := y.reverse),
          heq]
      rw [List.reverse_append, List.reverse_cons]
      simp
  · exact ⟨[], by simp⟩

/-- The first character of a normalized field is not whitespace. -/
theorem normalizeFieldContent_head_false (x : List Char) (c : Char)
    (h : (normalizeFieldContent x).head? = some c) : jsSpace c = false := by
  have hzhead : ∀ d, (stripTrailComma (jsTrim x)).head? = some d →
      jsSpace d = false := by
    intro d hd
    obtain ⟨t, ht⟩ := stripTrailComma_append (jsTrim x)
    have hne : stripTrailComma (jsTrim x) ≠ [] := by
      intro hnil; rw [hnil] at hd; simp at hd
    have hh : (jsTrim x).head? = some d := by
      rw [ht, List.head?_append_of_ne_nil]
      · exact hd
      · exact hne
    exact jsTrim_head_false x d hh
  unfold normalizeFieldContent collapseWs at h
  cases hzc : stripTrailComma (jsTrim x) with
  | nil => rw [hzc] at h; simp [collapseWsGo] at h
  | cons d rest =>
      have hd : jsSpace d = false := hzhead d (by rw [hzc]; rfl)
      rw [hzc] at h
      simp only [collapseWsGo, hd, Bool.false_eq_true, if_false,
        List.head?_cons, Option.some.injEq] at h
      subst h; exact hd

/-- Claim C7 as amended: the field normalizer trims, strips one trailing
comma, and collapses whitespace runs to one space; it is pure and it is
idempotent at every input whose normalized form ends in neither a space
nor a comma (the counterexample forces this proviso: stripping the
trailing comma may expose trailing whitespace or another comma). -/
theorem c7_normalize_conditionally_idempotent (x : List Char)
    (h1 : (normalizeFieldContent x).getLast? ≠ some ' ')
    (h2 : (normalizeFieldContent x).getLast? ≠ some ',') :
    normalizeFieldContent (normalizeFieldContent x) = normalizeFieldContent x := by
  have hylast : ∀ c, (normalizeFieldContent x).getLast? = some c →
      jsSpace c = false := by
    intro c hc
    by_contra hcs
    simp only [Bool.not_eq_false] at hcs
    have hmem : c ∈ normalizeFieldContent x := by
      have : c ∈ (normalizeFieldContent x).reverse.head? := by
        rw [List.head?_reverse]; exact Option.mem_def.mpr hc
      have := List.mem_of_mem_head? this
      exact List.mem_reverse.mp this
    have hsp : c = ' ' := collapseWsGo_space_mem false _ c hmem hcs
    exact h1 (hsp ▸ hc)
  have hyhead : ∀ c, (normalizeFieldContent x).head? = some c →
      jsSpace c = false := fun c hc => normalizeFieldContent_head_false x c hc
  have hall : ∀ c ∈ normalizeFieldContent x, jsSpace c = true → c = ' ' :=
    fun c hc => collapseWsGo_space_mem false _ c hc
  have hchain : List.Chain'
      (fun a c => ¬(jsSpace a = true ∧ jsSpace c = true))
      (normalizeFieldContent x) := collapseWsGo_chain false _
  show collapseWs (stripTrailComma (jsTrim (normalizeFieldContent x)))
      = normalizeFieldContent x
  rw [jsTrim_id _ hyhead hylast, stripTrailComma_id _ hylast h2]
  exact (collapseWsGo_id _ _ le_rfl hall hchain).1

/-- Witness for the amended C7 at a concrete input. -/
theorem c7_normalize_conditionally_idempotent_witness :
    ((normalizeFieldContent "name   UTF8String".data).getLast? ≠ some ' ' ∧
     (normalizeFieldContent "name   UTF8String".data).getLast? ≠ some ',') ∧
    normalizeFieldContent (normalizeFieldContent "name   UTF8String".data)
      = normalizeFieldContent "name   UTF8String".data :=
  ⟨⟨by decide, by decide⟩,
    c7_normalize_conditionally_idempotent "name   UTF8String".data
      (by decide) (by decide)⟩

section FallbackLemmas

/-- The fallback worker computes the spec-side pipeline: drop the blank
lines of the trimmed line list, then re-indent with the running depth. -/
theorem fallbackGo_eq_reindent (w : Nat) : ∀ (lines : List (List Char)) (level : Nat),
    fallbackGo w lines level =
      reindentLines w level ((lines.map jsTrim).filter (fun l => !l.isEmpty)) := by
  intro lines
  induction lines with
  | nil => intro level; rfl
  | cons line rest ih =>
      intro level
      simp only [fallbackGo, List.map_cons, List.filter_cons]
      by_cases ht : jsTrim line = []
      · rw [if_pos ht]
        simp only [ht, List.isEmpty_nil, Bool.not_true, Bool.false_eq_true,
          if_false]
        exact ih level
      · rw [if_neg ht]
        have hne : (jsTrim line).isEmpty = false := by
          simpa [List.isEmpty_iff] using ht
        simp only [hne, Bool.not_false, if_true, reindentLines]
        rw [ih]

end FallbackLemmas

/-- Claim C4 as amended: the fallback indenter re-indents each non-blank
line by `depth * indentWidth` spaces, performs no field splitting, no
reordering and no blank-line insertion, and preserves the order and count
of the non-blank lines exactly, while dropping blank lines (the
counterexample shows the raw line count is not preserved): the output is
exactly the spec-side re-indentation of the non-blank trimmed lines. -/
theorem c4_fallback_reindents_nonblank_lines (w : Nat) (code : List Char) :
    fallbackFormat w code =
      joinNL (reindentLines w 0
        (((splitNL code).map jsTrim).filter (fun l => !l.isEmpty))) := by
  unfold fallbackFormat
  rw [fallbackGo_eq_reindent]

section SplitLemmas

/-- The raw splitter always returns at least one segment. -/
theorem rawSplitGo_ne_nil : ∀ (rest : List Char) (prev : Char) (st : SplitSt)
    (cur : List Char), rawSplitGo rest prev st cur ≠ [] := by
  intro rest
  induction rest with
  | nil => intro prev st cur; simp [rawSplitGo]
  | cons ch rest' ih =>
      intro prev st cur
      simp only [rawSplitGo]
      split_ifs <;> first
        | exact ih _ _ _
        | exact List.cons_ne_nil _ _

/-- A cons onto a non-empty list does not change `getLastD`. -/
theorem getLastD_cons_of_ne_nil {α : Type} (l : List α) (a d : α)
    (h : l ≠ []) : (a :: l).getLastD d = l.getLastD d := by
  cases l with
  | nil => exact absurd rfl h
  | cons b t => simp [List.getLastD_cons]

/-- The splitter worker is the raw spec-side splitter followed by
normalization of every segment and the blank-trailing-segment drop. -/
theorem splitGo_spec : ∀ (rest : List Char) (prev : Char) (st : SplitSt)
    (cur : List Char) (acc : List (List Char)),
    splitGo rest prev st cur acc =
      acc.reverse ++
        (if jsTrim ((rawSplitGo rest prev st cur).getLastD []) ≠ [] then
          (rawSplitGo rest prev st cur).map normalizeFieldContent
        else ((rawSplitGo rest prev st cur).map normalizeFieldContent).dropLast) := by
  intro rest
  induction rest with
  | nil =>
      intro prev st cur acc
      simp only [splitGo, rawSplitGo, List.getLastD_cons, List.getLastD_nil,
        List.map_cons, List.map_nil]
      by_cases h : jsTrim cur.reverse = []
      · simp [h]
      · simp [h]
  | cons ch rest' ih =>
      intro prev st cur acc
      by_cases h1 : (quoteToggle ch prev st).inString = true
      · have e1 : splitGo (ch :: rest') prev st cur acc
            = splitGo rest' ch (quoteToggle ch prev st) (ch :: cur) acc := by
          simp only [splitGo]; rw [if_pos h1]
        have e2 : rawSplitGo (ch :: rest') prev st cur
            = rawSplitGo rest' ch (quoteToggle ch prev st) (ch :: cur) := by
          simp only [rawSplitGo]; rw [if_pos h1]
        rw [e1, e2]; exact ih _ _ _ _
      · by_cases h2 : ch = '{'
        · have e1 : splitGo (ch :: rest') prev st cur acc
              = splitGo rest' ch
                  { quoteToggle ch prev st with
                    brace := (quoteToggle ch prev st).brace + 1 } (ch :: cur) acc := by
            simp only [splitGo]; rw [if_neg h1, if_pos h2]
          have e2 : rawSplitGo (ch :: rest') prev st cur
              = rawSplitGo rest' ch
                  { quoteToggle ch prev st with
                    brace := (quoteToggle ch prev st).brace + 1 } (ch :: cur) := by
            simp only [rawSplitGo]; rw [if_neg h1, if_pos h2]
          rw [e1, e2]; exact ih _ _ _ _
        · by_cases h3 : ch = '}'
          · have e1 : splitGo (ch :: rest') prev st cur acc
                = splitGo rest' ch
                    { quoteToggle ch prev st with
                      brace := (quoteToggle ch prev st).brace - 1 } (ch :: cur) acc := by
              simp only [splitGo]; rw [if_neg h1, if_neg h2, if_pos h3]
            have e2 : rawSplitGo (ch :: rest') prev st cur
                = rawSplitGo rest' ch
                    { quoteToggle ch prev st with
                      brace := (quoteToggle ch prev st).brace - 1 } (ch :: cur) := by
              simp only [rawSplitGo]; rw [if_neg h1, if_neg h2, if_pos h3]
            rw [e1, e2]; exact ih _ _ _ _
          · by_cases h4 : ch = '('
            · have e1 : splitGo (ch :: rest') prev st cur acc
                  = splitGo rest' ch
                      { quoteToggle ch prev st with
                        paren := (quoteToggle ch prev st).paren + 1 } (ch :: cur) acc := by
                simp only [splitGo]; rw [if_neg h1, if_neg h2, if_neg h3, if_pos h4]
              have e2 : rawSplitGo (ch :: rest') prev st cur
                  = rawSplitGo rest' ch
                      { quoteToggle ch prev st with
                        paren := (quoteToggle ch prev st).paren + 1 } (ch :: cur) := by
                simp only [rawSplitGo]; rw [if_neg h1, if_neg h2, if_neg h3, if_pos h4]
              rw [e1, e2]; exact ih _ _ _ _
            · by_cases h5 : ch = ')'
              · have e1 : splitGo (ch :: rest') prev st cur acc
                    = splitGo rest' ch
                        { quoteToggle ch prev st with
                          paren := (quoteToggle ch prev st).paren - 1 } (ch :: cur) acc := by
                  simp only [splitGo]; rw [if_neg h1, if_neg h2, if_neg h3, if_neg h4, if_pos h5]
                have e2 : rawSplitGo (ch :: rest') prev st cur
                    = rawSplitGo rest' ch
                        { quoteToggle ch prev st with
                          paren := (quoteToggle ch prev st).paren - 1 } (ch :: cur) := by
                  simp only [rawSplitGo]; rw [if_neg h1, if_neg h2, if_neg h3, if_neg h4, if_pos h5]
                rw [e1, e2]; exact ih _ _ _ _
              · by_cases h6 : ch = '['
                · have e1 : splitGo (ch :: rest') prev st cur acc
                      = splitGo rest' ch
                          { quoteToggle ch prev st with
                            bracket := (quoteToggle ch prev st).bracket + 1 } (ch :: cur) acc := by
                    simp only [splitGo]; rw [if_neg h1, if_neg h2, if_neg h3, if_neg h4, if_neg h5, if_pos h6]
                  have e2 : rawSplitGo (ch :: rest') prev st cur
                      = rawSplitGo rest' ch
                          { quoteToggle ch prev st with
                            bracket := (quoteToggle ch prev st).bracket + 1 } (ch :: cur) := by
                    simp only [rawSplitGo]; rw [if_neg h1, if_neg h2, if_neg h3, if_neg h4, if_neg h5, if_pos h6]
                  rw [e1, e2]; exact ih _ _ _ _
                · by_cases h7 : ch = ']'
                  · have e1 : splitGo (ch :: rest') prev st cur acc
                        = splitGo rest' ch
                            { quoteToggle ch prev st with
                              bracket := (quoteToggle ch prev st).bracket - 1 } (ch :: cur) acc := by
                      simp only [splitGo]; rw [if_neg h1, if_neg h2, if_neg h3, if_neg h4, if_neg h5, if_neg h6, if_pos h7]
                    have e2 : rawSplitGo (ch :: rest') prev st cur
                        = rawSplitGo rest' ch
                            { quoteToggle ch prev st with
                              bracket := (quoteToggle ch prev st).bracket - 1 } (ch :: cur) := by
                      simp only [rawSplitGo]; rw [if_neg h1, if_neg h2, if_neg h3, if_neg h4, if_neg h5, if_neg h6, if_pos h7]
                    rw [e1, e2]; exact ih _ _ _ _
                  · by_cases h8 : (ch = ',' && (quoteToggle ch prev st).brace = 0 &&
                        (quoteToggle ch prev st).paren = 0 &&
                        (quoteToggle ch prev st).bracket = 0) = true
                    · have e1 : splitGo (ch :: rest') prev st cur acc
                          = splitGo rest' ch (quoteToggle ch prev st) []
                              (normalizeFieldContent cur.reverse :: acc) := by
                        simp only [splitGo]; rw [if_neg h1, if_neg h2, if_neg h3, if_neg h4, if_neg h5, if_neg h6, if_neg h7, if_pos h8]
                      have e2 : rawSplitGo (ch :: rest') prev st cur
                          = cur.reverse :: rawSplitGo rest' ch (quoteToggle ch prev st) [] := by
                        simp only [rawSplitGo]; rw [if_neg h1, if_neg h2, if_neg h3, if_neg h4, if_neg h5, if_neg h6, if_neg h7, if_pos h8]
                      rw [e1, e2, ih]
                      have hne := rawSplitGo_ne_nil rest' ch (quoteToggle ch prev st) []
                      rw [getLastD_cons_of_ne_nil _ _ _ hne]
                      by_cases hc : jsTrim ((rawSplitGo rest' ch
                          (quoteToggle ch prev st) []).getLastD []) = []
                      · simp only [hc, ne_eq, not_true_eq_false, if_false, List.map_cons]
                        rw [List.dropLast_cons_of_ne_nil (by simpa using hne)]
                        simp
                      · simp only [hc, ne_eq, not_false_eq_true, if_true, List.map_cons]
                        simp
                    · have e1 : splitGo (ch :: rest') prev st cur acc
                          = splitGo rest' ch (quoteToggle ch prev st) (ch :: cur) acc := by
                        simp only [splitGo]; rw [if_neg h1, if_neg h2, if_neg h3, if_neg h4, if_neg h5, if_neg h6, if_neg h7, if_neg h8]
                      have e2 : rawSplitGo (ch :: rest') prev st cur
                          = rawSplitGo rest' ch (quoteToggle ch prev st) (ch :: cur) := by
                        simp only [rawSplitGo]; rw [if_neg h1, if_neg h2, if_neg h3, if_neg h4, if_neg h5, if_neg h6, if_neg h7, if_neg h8]
                      rw [e1, e2]; exact ih _ _ _ _

end SplitLemmas

/-- Claim C5 as amended: the top-level splitter splits exactly on the
commas at brace/paren/bracket depth zero outside string literals (the raw
spec-side segments), passes every segment through the field normalizer,
and drops the trailing segment exactly when its trimmed content is empty;
empty leading and interior segments are kept. -/
theorem c5_split_normalizes_and_drops_blank_tail (input : List Char) :
    splitTopLevelByComma input =
      (if jsTrim ((rawSplit input).getLastD []) ≠ [] then
        (rawSplit input).map normalizeFieldContent
      else ((rawSplit input).map normalizeFieldContent).dropLast) := by
  unfold splitTopLevelByComma rawSplit
  rw [splitGo_spec]
  rfl

section CleanupLemmas

/-- Weakening the current run preserves the newline-run bound. -/
theorem nlOk_mono : ∀ (s : List Char) (r r' : Nat), r' ≤ r →
    nlOk r s = true → nlOk r' s = true := by
  intro s
  induction s with
  | nil => intro r r' _ _; rfl
  | cons c t ih =>
      intro r r' hle h
      simp only [nlOk] at h ⊢
      by_cases hc : c = '\n'
      · rw [if_pos hc] at h ⊢
        simp only [Bool.and_eq_true, decide_eq_true_eq] at h ⊢
        exact ⟨by omega, ih (r + 1) (r' + 1) (by omega) h.2⟩
      · rw [if_neg hc] at h ⊢
        exact h

/-- The newline-run bound restricts to prefixes. -/
theorem nlOk_append_left : ∀ (A B : List Char) (r : Nat),
    nlOk r (A ++ B) = true → nlOk r A = true := by
  intro A
  induction A with
  | nil => intro B r _; rfl
  | cons c t ih =>
      intro B r h
      simp only [List.cons_append, nlOk] at h ⊢
      by_cases hc : c = '\n'
      · rw [if_pos hc] at h ⊢
        simp only [Bool.and_eq_true] at h ⊢
        exact ⟨h.1, ih B (r + 1) h.2⟩
      · rw [if_neg hc] at h ⊢
        exact ih B 0 h

/-- Up to three leading newlines before a non-newline head keep the bound. -/
theorem nlOk_replicate_cons (m : Nat) (c : Char) (T : List Char)
    (hm : m ≤ 3) (hc : c ≠ '\n') (hT : nlOk 0 (c :: T) = true) :
    nlOk 0 (List.replicate m '\n' ++ c :: T) = true := by
  interval_cases m <;> simp_all [nlOk, hc]

/-- A bounded pure newline run keeps the bound. -/
theorem nlOk_replicate (m : Nat) (hm : m ≤ 3) :
    nlOk 0 (List.replicate m '\n') = true := by
  interval_cases m <;> decide

/-- The newline collapse establishes the run bound. -/
theorem collapseNLGo_ok : ∀ (s : List Char) (k : Nat),
    nlOk 0 (collapseNLGo k s) = true := by
  intro s
  induction s with
  | nil => intro k; exact nlOk_replicate _ (Nat.min_le_right _ _)
  | cons c rest ih =>
      intro k
      simp only [collapseNLGo]
      by_cases hc : c = '\n'
      · rw [if_pos hc]; exact ih (k + 1)
      · rw [if_neg hc]
        refine nlOk_replicate_cons _ _ _ (Nat.min_le_right _ _) hc ?_
        show nlOk 0 (c :: collapseNLGo 0 rest) = true
        simp only [nlOk, if_neg hc]
        exact ih 0

/-- Dropping the leading newlines keeps the run bound. -/
theorem nlOk_dropLead : ∀ (s : List Char), nlOk 0 s = true →
    nlOk 0 (dropLeadNL s) = true := by
  intro s
  induction s with
  | nil => intro _; rfl
  | cons c t ih =>
      intro h
      unfold dropLeadNL
      rw [List.dropWhile_cons]
      by_cases hc : c = '\n'
      · rw [if_pos (by simp [hc])]
        simp only [nlOk, if_pos hc, Bool.and_eq_true] at h
        exact ih (nlOk_mono t 1 0 (by omega) h.2)
      · rw [if_neg (by simp [hc])]
        exact h

/-- Appending one newline to a non-empty bounded text not ending in a
newline keeps the bound. -/
theorem nlOk_append_one_nl : ∀ (A : List Char) (r : Nat), A ≠ [] →
    nlOk r A = true →
    (∀ c, A.getLast? = some c → c ≠ '\n') → nlOk r (A ++ ['\n']) = true := by
  intro A
  induction A with
  | nil => intro r h; exact absurd rfl h
  | cons c t ih =>
      intro r _ h hlast
      simp only [List.cons_append, nlOk] at h ⊢
      by_cases hc : c = '\n'
      · rw [if_pos hc] at h ⊢
        simp only [Bool.and_eq_true] at h ⊢
        refine ⟨h.1, ?_⟩
        cases t with
        | nil => exact absurd hc (hlast c rfl)
        | cons d t' =>
            exact ih (r + 1) (List.cons_ne_nil d t') h.2
              (fun e he => hlast e (by rw [List.getLast?_cons_cons]; exact he))
      · rw [if_neg hc] at h ⊢
        cases t with
        | nil => simp [nlOk]
        | cons d t' =>
            exact ih 0 (List.cons_ne_nil d t') h
              (fun e he => hlast e (by rw [List.getLast?_cons_cons]; exact he))

/-- A non-empty `dropWhile` keeps the last element. -/
theorem dropWhile_getLast {α : Type} (p : α → Bool) : ∀ (l : List α),
    l.dropWhile p ≠ [] → (l.dropWhile p).getLast? = l.getLast? := by
  intro l
  induction l with
  | nil => intro h; exact absurd rfl h
  | cons c t ih =>
      intro h
      rw [List.dropWhile_cons]
      rw [List.dropWhile_cons] at h
      by_cases hc : p c = true
      · rw [if_pos hc] at h ⊢
        rw [ih h]
        cases t with
        | nil => rw [List.dropWhile_nil] at h; exact absurd rfl h
        | cons d t' => rw [List.getLast?_cons_cons]
      · rw [if_neg hc]

/-- The trailing-newline collapse keeps the newline-run bound. -/
theorem collapseTrailNL_ok (s : List Char) (h : nlOk 0 s = true) :
    nlOk 0 (collapseTrailNL s) = true := by
  unfold collapseTrailNL
  by_cases hlen : (s.reverse.dropWhile (· = '\n')).length = s.reverse.length
  · rw [if_pos hlen]; exact h
  · rw [if_neg hlen]
    have hsplit : s = (s.reverse.dropWhile (· = '\n')).reverse ++
        (s.reverse.takeWhile (· = '\n')).reverse := by
      conv_lhs => rw [← s.reverse_reverse,
        ← List.takeWhile_append_dropWhile (p := (· = '\n')) (l := s.reverse)]
      rw [List.reverse_append]
    have hok : nlOk 0 (s.reverse.dropWhile (· = '\n')).reverse = true := by
      rw [hsplit] at h
      exact nlOk_append_left _ _ _ h
    cases hr1 : s.reverse.dropWhile (· = '\n') with
    | nil => simp [hr1, nlOk]
    | cons d t =>
        rw [List.reverse_cons]
        rw [hr1] at hok
        refine nlOk_append_one_nl _ _ (by simp) hok ?_
        intro c hc
        rw [List.getLast?_reverse] at hc
        simp only [List.head?_cons, Option.some.injEq] at hc
        subst hc
        have hd : (s.reverse.dropWhile (· = '\n')).head? = some d := by
          rw [hr1]; rfl
        have hdn := dropWhile_head_false (· = '\n') s.reverse d hd
        simpa using hdn

/-- The trailing-newline collapse does not create a leading newline. -/
theorem collapseTrailNL_head (s : List Char) (h : s.head? ≠ some '\n') :
    (collapseTrailNL s).head? ≠ some '\n' := by
  unfold collapseTrailNL
  by_cases hlen : (s.reverse.dropWhile (· = '\n')).length = s.reverse.length
  · rw [if_pos hlen]; exact h
  · rw [if_neg hlen]
    cases hr1 : s.reverse.dropWhile (· = '\n') with
    | nil =>
        exfalso
        have hall : ∀ c ∈ s.reverse, (fun c => decide (c = '\n')) c = true := by
          rw [← List.dropWhile_eq_nil_iff]
          exact hr1
        cases hs : s with
        | nil => rw [hs] at hlen hr1; simp at hlen
        | cons c t =>
            have hcmem : c ∈ s.reverse := by rw [hs]; simp
            have := hall c hcmem
            simp only [decide_eq_true_eq] at this
            rw [hs] at h
            exact h (by simp [this])
    | cons d t =>
        rw [List.reverse_cons]
        have hne2 : (d :: t).reverse ≠ [] := by simp
        rw [List.head?_append_of_ne_nil _ hne2]
        have hd : (s.reverse.dropWhile (· = '\n')).head? = some d := by
          rw [hr1]; rfl
        have hdn := dropWhile_head_false (· = '\n') s.reverse d hd
        have hne : s.reverse.dropWhile (· = '\n') ≠ [] := by simp [hr1]
        have hlast : (s.reverse.dropWhile (· = '\n')).getLast? = s.reverse.getLast? :=
          dropWhile_getLast _ _ hne
        rw [hr1] at hlast
        rw [List.head?_reverse, hlast, List.getLast?_reverse]
        exact h

/-- The trailing-newline collapse never leaves two trailing newlines. -/
theorem collapseTrailNL_endsTwo (s : List Char) :
    endsTwoNL (collapseTrailNL s) = false := by
  unfold collapseTrailNL
  by_cases hlen : (s.reverse.dropWhile (· = '\n')).length = s.reverse.length
  · rw [if_pos hlen]
    have htk : s.reverse.takeWhile (· = '\n') = [] := by
      have := List.takeWhile_append_dropWhile (p := (· = '\n')) (l := s.reverse)
      have hlen2 := congrArg List.length this
      rw [List.length_append] at hlen2
      have : (s.reverse.takeWhile (· = '\n')).length = 0 := by omega
      exact List.length_eq_zero.mp this
    unfold endsTwoNL
    split
    · next xs heq =>
        exfalso
        rw [heq] at htk
        simp [List.takeWhile_cons] at htk
    · rfl
  · rw [if_neg hlen]
    unfold endsTwoNL
    rw [List.reverse_reverse]
    split
    · next xs heq =>
        exfalso
        cases hr1 : s.reverse.dropWhile (· = '\n') with
        | nil => rw [hr1] at heq; simp at heq
        | cons d t =>
            rw [hr1] at heq
            simp only [List.cons.injEq] at heq
            have hd : (s.reverse.dropWhile (· = '\n')).head? = some d := by
              rw [hr1]; rfl
            have := dropWhile_head_false (· = '\n') s.reverse d hd
            rw [heq.2.1] at this
            simp at this
    · rfl

/-- The blank-line cleanup never leaves four consecutive newlines. -/
theorem cleanupSpacing_ok (z : List Char) :
    nlOk 0 (cleanupSpacing z) = true := by
  unfold cleanupSpacing
  exact collapseTrailNL_ok _ (nlOk_dropLead _ (collapseNLGo_ok z 0))

/-- The blank-line cleanup never leaves a leading newline. -/
theorem cleanupSpacing_head (z : List Char) :
    (cleanupSpacing z).head? ≠ some '\n' := by
  unfold cleanupSpacing
  refine collapseTrailNL_head _ ?_
  intro h
  have := dropWhile_head_false (· = '\n') (collapseNL z) '\n' h
  simp at this

/-- The blank-line cleanup never leaves two trailing newlines. -/
theorem cleanupSpacing_endsTwo (z : List Char) :
    endsTwoNL (cleanupSpacing z) = false := collapseTrailNL_endsTwo _

end CleanupLemmas

/-- Claim C8 as amended: for every input, the output of `formatASN1Code`
never contains more than two consecutive blank lines (no run of four
newlines), never begins with a blank line, and ends with at most one
trailing newline; the exactly-one-trailing-newline guarantee fails because
`formatASN1Code` itself never appends a newline (the counterexample
exhibits an output with none; the caller appends it). -/
theorem c8_blank_line_policy (w : Nat) (code : List Char) (_h : code ≠ []) :
    noNLRun4 (formatASN1Code w code) = true ∧
    (formatASN1Code w code).head? ≠ some '\n' ∧
    endsTwoNL (formatASN1Code w code) = false := by
  unfold formatASN1Code
  by_cases hb : jsTrim code = []
  · rw [if_pos hb]
    refine ⟨rfl, by simp, rfl⟩
  · rw [if_neg hb]
    unfold simpleFormatASN1
    exact ⟨cleanupSpacing_ok _, cleanupSpacing_head _, cleanupSpacing_endsTwo _⟩

/-- Witness for the amended C8 at a concrete input. -/
theorem c8_blank_line_policy_witness :
    ("A ::= SEQUENCE { x }\n\n\n\n\nB ::= INTEGER".data ≠ []) ∧
    (noNLRun4 (formatASN1Code 2 "A ::= SEQUENCE { x }\n\n\n\n\nB ::= INTEGER".data) = true ∧
     (formatASN1Code 2 "A ::= SEQUENCE { x }\n\n\n\n\nB ::= INTEGER".data).head? ≠ some '\n' ∧
     endsTwoNL (formatASN1Code 2 "A ::= SEQUENCE { x }\n\n\n\n\nB ::= INTEGER".data) = false) :=
  ⟨by decide,
    c8_blank_line_policy 2 "A ::= SEQUENCE { x }\n\n\n\n\nB ::= INTEGER".data (by decide)⟩



section CCELemmas

/-- A `::=` head survives appending on the right. -/
theorem cceAt_append (x B : List Char) (h : cceAt x = true) :
    cceAt (x ++ B) = true := by
  unfold cceAt at h
  split at h
  · next tail => simp [cceAt]
  · exact absurd h (by simp)

/-- A `::=` occurrence survives extension on the right. -/
theorem hasCCE_append_right_of_left : ∀ (A B : List Char),
    hasCCE A = true → hasCCE (A ++ B) = true := by
  intro A
  induction A with
  | nil => intro B h; simp [hasCCE] at h
  | cons c t ih =>
      intro B h
      simp only [hasCCE, Bool.or_eq_true] at h
      rcases h with h | h
      · simp only [List.cons_append, hasCCE, Bool.or_eq_true]
        exact Or.inl (by simpa using cceAt_append (c :: t) B h)
      · simp only [List.cons_append, hasCCE, Bool.or_eq_true]
        exact Or.inr (ih B h)

/-- A `::=` occurrence survives extension on the left. -/
theorem hasCCE_append_left_of_right : ∀ (A B : List Char),
    hasCCE B = true → hasCCE (A ++ B) = true := by
  intro A
  induction A with
  | nil => intro B h; simpa using h
  | cons c t ih =>
      intro B h
      simp only [List.cons_append, hasCCE, Bool.or_eq_true]
      exact Or.inr (ih B h)

/-- An explicit occurrence witnesses `hasCCE`. -/
theorem hasCCE_of_decomp (A B : List Char) :
    hasCCE (A ++ ':' :: ':' :: '=' :: B) = true :=
  hasCCE_append_left_of_right A _ (by simp [hasCCE, cceAt])

/-- Without `::=` in the whole text there is none in a `dropWhile` suffix. -/
theorem hasCCE_dropWhile_false (p : Char → Bool) (l : List Char)
    (h : hasCCE l = false) : hasCCE (l.dropWhile p) = false := by
  by_contra hx
  simp only [Bool.not_eq_false] at hx
  have := hasCCE_append_left_of_right (l.takeWhile p) _ hx
  rw [List.takeWhile_append_dropWhile] at this
  rw [this] at h
  exact absurd h (by simp)

/-- Without `::=` in the whole text there is none in a prefix. -/
theorem hasCCE_prefix_false (A B : List Char)
    (h : hasCCE (A ++ B) = false) : hasCCE A = false := by
  by_contra hx
  simp only [Bool.not_eq_false] at hx
  rw [hasCCE_append_right_of_left A B hx] at h
  exact absurd h (by simp)

/-- Without `::=` in the text the trimmed text has none either. -/
theorem hasCCE_jsTrim_false (code : List Char) (h : hasCCE code = false) :
    hasCCE (jsTrim code) = false := by
  rw [jsTrim_eq_trimEnd]
  obtain ⟨t, ht, -⟩ := jsTrimEnd_append (code.dropWhile jsSpace)
  have h1 : hasCCE (code.dropWhile jsSpace) = false :=
    hasCCE_dropWhile_false _ _ h
  rw [ht] at h1
  exact hasCCE_prefix_false _ _ h1

/-- A step-1 match exhibits a `::=` occurrence. -/
theorem matchStep1_hasCCE (s : List Char) (x : Nat × List Char)
    (h : matchStep1 s = some x) : hasCCE s = true := by
  unfold matchStep1 at h
  split at h
  · next rest =>
      by_cases hw : (rest.dropWhile jsSpace).takeWhile wordChar = []
      · rw [if_pos hw] at h; exact absurd h (by simp)
      · rw [if_neg hw] at h
        dsimp only at h
        split at h
        · next tail heq =>
            have hs : '}' :: rest
                = '}' :: (rest.takeWhile jsSpace ++
                    (((rest.dropWhile jsSpace).takeWhile wordChar) ++
                      (((rest.dropWhile jsSpace).dropWhile wordChar).takeWhile jsSpace ++
                        (':' :: ':' :: '=' :: tail)))) := by
              rw [← heq]
              rw [List.takeWhile_append_dropWhile, List.takeWhile_append_dropWhile,
                List.takeWhile_append_dropWhile]
            rw [hs]
            have := hasCCE_of_decomp
              ('}' :: (rest.takeWhile jsSpace ++
                (((rest.dropWhile jsSpace).takeWhile wordChar) ++
                  ((rest.dropWhile jsSpace).dropWhile wordChar).takeWhile jsSpace)))
              tail
            simpa using this
        · exact absurd h (by simp)
  · exact absurd h (by simp)

/-- A step-2 match exhibits a `::=` occurrence. -/
theorem matchStep2_hasCCE (s : List Char) (len : Nat)
    (h : matchStep2 s = some len) : hasCCE s = true := by
  unfold matchStep2 at h
  by_cases hw : s.takeWhile wordChar = []
  · rw [if_pos hw] at h; exact absurd h (by simp)
  · rw [if_neg hw] at h
    dsimp only at h
    split at h
    · next r2 heq =>
        have hs : s = s.takeWhile wordChar ++
            ((s.dropWhile wordChar).takeWhile jsSpace ++
              (':' :: ':' :: '=' :: r2)) := by
          rw [← heq]
          rw [List.takeWhile_append_dropWhile, List.takeWhile_append_dropWhile]
        rw [hs]
        have := hasCCE_of_decomp
          (s.takeWhile wordChar ++ (s.dropWhile wordChar).takeWhile jsSpace) r2
        simpa using this
    · exact absurd h (by simp)

/-- Without `::=`, step 1 changes nothing. -/
theorem replaceStep1Go_id : ∀ (fuel : Nat) (s : List Char),
    hasCCE s = false → replaceStep1Go fuel s = s := by
  intro fuel
  induction fuel with
  | zero => intro s _; cases s <;> rfl
  | succ fuel ih =>
      intro s h
      cases s with
      | nil => rfl
      | cons c rest =>
          simp only [replaceStep1Go]
          cases hm : matchStep1 (c :: rest) with
          | some x => rw [matchStep1_hasCCE _ _ hm] at h; exact absurd h (by simp)
          | none =>
              have hrest : hasCCE rest = false := by
                simp only [hasCCE, Bool.or_eq_false_iff] at h
                exact h.2
              rw [ih rest hrest]

/-- Without `::=`, step 2 finds no matches. -/
theorem findMatchesGo_nil : ∀ (fuel : Nat) (s : List Char) (pos : Nat),
    hasCCE s = false → findMatchesGo fuel s pos = [] := by
  intro fuel
  induction fuel with
  | zero => intro s pos _; cases s <;> rfl
  | succ fuel ih =>
      intro s pos h
      cases s with
      | nil => rfl
      | cons c rest =>
          simp only [findMatchesGo]
          cases hm : matchStep2 (c :: rest) with
          | some len => rw [matchStep2_hasCCE _ _ hm] at h; exact absurd h (by simp)
          | none =>
              have hrest : hasCCE rest = false := by
                simp only [hasCCE, Bool.or_eq_false_iff] at h
                exact h.2
              exact ih rest (pos + 1) hrest

end CCELemmas

/-- Claim C10, confirmed: on every non-blank input containing no
occurrence of `::=`, `formatASN1Code` performs only the whitespace
cleanup on the trimmed input: step 1 and the structured-definition
formatter find nothing to match (both regexes require `::=`), so the
output is exactly `cleanupSpacing (jsTrim code)` — the trimmed input with
newline runs of three or more collapsed to three, leading newlines
removed and trailing newlines collapsed to one; no other character is
added, removed or reordered. -/
theorem c10_no_typedef_whitespace_cleanup_only (w : Nat) (code : List Char)
    (hnb : jsTrim code ≠ []) (hcce : hasCCE code = false) :
    formatASN1Code w code = cleanupSpacing (jsTrim code) := by
  unfold formatASN1Code
  rw [if_neg hnb]
  unfold simpleFormatASN1
  have h1 : hasCCE (jsTrim code) = false := hasCCE_jsTrim_false code hcce
  rw [show replaceStep1 (jsTrim code) = jsTrim code from
    replaceStep1Go_id _ _ h1]
  unfold formatTypeDefinitionsWithNestedBraces
  rw [show findMatches (jsTrim code) = [] from findMatchesGo_nil _ _ _ h1]
  rfl

/-- Witness for C10 at a concrete input. -/
theorem c10_no_typedef_whitespace_cleanup_only_witness :
    (jsTrim "hello \x7b\n\n\n\n\nworld \x7d  ".data ≠ [] ∧
     hasCCE "hello \x7b\n\n\n\n\nworld \x7d  ".data = false) ∧
    formatASN1Code 2 "hello \x7b\n\n\n\n\nworld \x7d  ".data
      = cleanupSpacing (jsTrim "hello \x7b\n\n\n\n\nworld \x7d  ".data) :=
  ⟨⟨by decide, by decide⟩,
    c10_no_typedef_whitespace_cleanup_only 2 "hello \x7b\n\n\n\n\nworld \x7d  ".data
      (by decide) (by decide)⟩

section TotalityLemmas

/-- Word characters are never whitespace. -/
theorem wordChar_not_space (c : Char) (h : wordChar c = true) :
    jsSpace c = false := by
  by_contra hs
  simp only [Bool.not_eq_false] at hs
  simp only [jsSpace, Bool.or_eq_true, Bool.and_eq_true,
    decide_eq_true_eq] at hs
  rcases hs with ((((((((((((((rfl|rfl)|rfl)|rfl)|rfl)|rfl)|rfl)|rfl)|⟨h1,h2⟩)|rfl)|rfl)|rfl)|rfl)|rfl)|rfl)
  · exact absurd h (by decide)
  · exact absurd h (by decide)
  · exact absurd h (by decide)
  · exact absurd h (by decide)
  · exact absurd h (by decide)
  · exact absurd h (by decide)
  · exact absurd h (by decide)
  · exact absurd h (by decide)
  · simp only [wordChar, Bool.or_eq_true, Bool.and_eq_true,
      decide_eq_true_eq] at h
    rcases h with ((⟨ha,hb⟩|⟨ha,hb⟩)|⟨ha,hb⟩)|rfl
    · exact absurd (le_trans h1 hb) (by decide)
    · exact absurd (le_trans h1 hb) (by decide)
    · exact absurd (le_trans h1 hb) (by decide)
    · exact absurd h1 (by decide)
  · exact absurd h (by decide)
  · exact absurd h (by decide)
  · exact absurd h (by decide)
  · exact absurd h (by decide)
  · exact absurd h (by decide)
  · exact absurd h (by decide)

/-- Full decomposition of a successful step-1 match: the matched text is
the closing brace, a whitespace run, a non-empty word run, a second
whitespace run and the literal `::=`; the scan resumes at `tail`. -/
theorem matchStep1_decomp (s : List Char) (len : Nat) (cap : List Char)
    (h : matchStep1 s = some (len, cap)) :
    ∃ ws1 w ws2 tail,
      s = '}' :: (ws1 ++ (w ++ (ws2 ++ (':' :: ':' :: '=' :: tail)))) ∧
      (∀ c ∈ ws1, jsSpace c = true) ∧ (∀ c ∈ ws2, jsSpace c = true) ∧
      w ≠ [] ∧ (∀ c ∈ w, wordChar c = true) ∧
      cap = w ++ ws2 ++ [':', ':', '='] ∧
      len = 1 + ws1.length + w.length + ws2.length + 3 ∧
      s.drop len = tail := by
  unfold matchStep1 at h
  split at h
  · next rest =>
      by_cases hw : (rest.dropWhile jsSpace).takeWhile wordChar = []
      · rw [if_pos hw] at h; exact absurd h (by simp)
      · rw [if_neg hw] at h
        dsimp only at h
        split at h
        · next tail heq =>
            simp only [Option.some.injEq, Prod.mk.injEq] at h
            obtain ⟨hlen, hcap⟩ := h
            have hrest : rest = rest.takeWhile jsSpace ++
                ((rest.dropWhile jsSpace).takeWhile wordChar ++
                  (((rest.dropWhile jsSpace).dropWhile wordChar).takeWhile jsSpace ++
                    (':' :: ':' :: '=' :: tail))) := by
              conv_lhs => rw [← List.takeWhile_append_dropWhile
                (p := jsSpace) (l := rest)]
              congr 1
              conv_lhs => rw [← List.takeWhile_append_dropWhile
                (p := wordChar) (l := rest.dropWhile jsSpace)]
              congr 1
              conv_lhs => rw [← List.takeWhile_append_dropWhile
                (p := jsSpace) (l := (rest.dropWhile jsSpace).dropWhile wordChar)]
              congr 1
            refine ⟨rest.takeWhile jsSpace,
              (rest.dropWhile jsSpace).takeWhile wordChar,
              ((rest.dropWhile jsSpace).dropWhile wordChar).takeWhile jsSpace,
              tail, ?_, ?_, ?_, hw, ?_, ?_, ?_, ?_⟩
            · rw [← hrest]
            · intro c hc; exact List.mem_takeWhile_imp hc
            · intro c hc; exact List.mem_takeWhile_imp hc
            · intro c hc; exact List.mem_takeWhile_imp hc
            · rw [← hcap]
            · omega
            · have hs : '}' :: rest
                  = ('}' :: (rest.takeWhile jsSpace ++
                      (rest.dropWhile jsSpace).takeWhile wordChar ++
                      ((rest.dropWhile jsSpace).dropWhile wordChar).takeWhile jsSpace
                      ++ [':', ':', '='])) ++ tail := by
                conv_lhs => rw [hrest]
                simp [List.append_assoc]
              rw [hs]
              have hlenA : len = ('}' :: (rest.takeWhile jsSpace ++
                  (rest.dropWhile jsSpace).takeWhile wordChar ++
                  ((rest.dropWhile jsSpace).dropWhile wordChar).takeWhile jsSpace
                  ++ [':', ':', '='])).length := by
                simp only [List.length_cons, List.length_append, List.length_cons,
                  List.length_nil]
                omega
              rw [hlenA, List.drop_left]
        · exact absurd h (by simp)
  · exact absurd h (by simp)

/-- Step 1 never loses every non-whitespace character. -/
theorem replaceStep1Go_nonspace : ∀ (fuel : Nat) (s : List Char) (c : Char),
    c ∈ s → jsSpace c = false →
    ∃ d ∈ replaceStep1Go fuel s, jsSpace d = false := by
  intro fuel
  induction fuel with
  | zero =>
      intro s c hc hcs
      cases s with
      | nil => simp at hc
      | cons a rest => exact ⟨c, hc, hcs⟩
  | succ fuel ih =>
      intro s c hc hcs
      cases s with
      | nil => simp at hc
      | cons a rest =>
          simp only [replaceStep1Go]
          cases hm : matchStep1 (a :: rest) with
          | none =>
              rcases List.mem_cons.mp hc with rfl | hc'
              · exact ⟨c, List.mem_cons_self _ _, hcs⟩
              · obtain ⟨d, hd, hds⟩ := ih rest c hc' hcs
                exact ⟨d, List.mem_cons_of_mem a hd, hds⟩
          | some x =>
              obtain ⟨len, cap⟩ := x
              obtain ⟨ws1, w, ws2, tail, hseq, hws1, hws2, hwne, hword,
                hcap, hlen, hdrop⟩ := matchStep1_decomp _ _ _ hm
              obtain ⟨w0, hw0⟩ := List.exists_mem_of_ne_nil w hwne
              refine ⟨w0, ?_, ?_⟩
              · simp only [List.mem_cons, List.mem_append, hcap]
                right; right
                simp [hw0]
              · exact wordChar_not_space w0 (hword w0 hw0)

/-- A step-2 match has positive length. -/
theorem matchStep2_pos (s : List Char) (len : Nat)
    (h : matchStep2 s = some len) : 1 ≤ len := by
  unfold matchStep2 at h
  by_cases hw : s.takeWhile wordChar = []
  · rw [if_pos hw] at h; exact absurd h (by simp)
  · rw [if_neg hw] at h
    dsimp only at h
    split at h
    · next r2 heq =>
        split at h
        · next klen hk =>
            simp only [Option.some.injEq] at h
            omega
        · exact absurd h (by simp)
    · exact absurd h (by simp)

/-- Every recorded match has positive length. -/
theorem findMatchesGo_len_pos : ∀ (fuel : Nat) (s : List Char) (pos : Nat)
    (m : Nat × Nat), m ∈ findMatchesGo fuel s pos → 1 ≤ m.2 := by
  intro fuel
  induction fuel with
  | zero => intro s pos m hm; cases s <;> simp [findMatchesGo] at hm
  | succ fuel ih =>
      intro s pos m hm
      cases s with
      | nil => simp [findMatchesGo] at hm
      | cons c rest =>
          simp only [findMatchesGo] at hm
          cases hmt : matchStep2 (c :: rest) with
          | some len =>
              rw [hmt] at hm
              rcases List.mem_cons.mp hm with rfl | hm'
              · exact matchStep2_pos _ _ hmt
              · exact ih _ _ m hm'
          | none =>
              rw [hmt] at hm
              exact ih _ _ m hm

/-- Every entry produced by `withEnds` points at a real closing brace at
or after the match start. -/
theorem withEnds_good (code : List Char) (ms : List (Nat × Nat))
    (hlen : ∀ m ∈ ms, 1 ≤ m.2) :
    ∀ m ∈ withEnds code ms,
      m.1 ≤ m.2.2 ∧ m.2.2 < code.length ∧ code.getD m.2.2 '\x00' = '}' := by
  intro m hm
  unfold withEnds at hm
  obtain ⟨a, ha, hf⟩ := List.mem_filterMap.mp hm
  cases hb : findMatchingBrace code (a.1 + a.2 - 1) with
  | none => rw [hb] at hf; exact absurd hf (by simp)
  | some e =>
      rw [hb] at hf
      simp only [Option.some.injEq] at hf
      subst hf
      dsimp only
      obtain ⟨h1, h2, h3⟩ := findBraceGo_some _ _ _ _ _ _ hb
      have hplen := hlen a ha
      have h2' : e - (a.1 + a.2 - 1) < code.length - (a.1 + a.2 - 1) := by
        simpa using h2
      refine ⟨by omega, by omega, ?_⟩
      have hgd : (code.drop (a.1 + a.2 - 1)).getD (e - (a.1 + a.2 - 1)) '\x00'
          = code.getD ((a.1 + a.2 - 1) + (e - (a.1 + a.2 - 1))) '\x00' := by
        simp [List.getD, List.getElem?_drop]
      rw [hgd] at h3
      have heq2 : (a.1 + a.2 - 1) + (e - (a.1 + a.2 - 1)) = e := by omega
      rwa [heq2] at h3

/-- Membership in the emitted join. -/
theorem mem_joinNL_of_mem : ∀ (xs : List (List Char)) (l : List Char)
    (c : Char), l ∈ xs → c ∈ l → c ∈ joinNL xs := by
  intro xs
  induction xs with
  | nil => intro l c hl _; simp at hl
  | cons a rest ih =>
      intro l c hl hc
      cases rest with
      | nil =>
          simp only [List.mem_singleton] at hl
          subst hl
          simpa [joinNL] using hc
      | cons b rest' =>
          show c ∈ a ++ '\n' :: joinNL (b :: rest')
          rcases List.mem_cons.mp hl with rfl | hl'
          · exact List.mem_append_left _ hc
          · exact List.mem_append_right _
              (List.mem_cons_of_mem _ (ih l c hl' hc))

/-- The single-definition formatter always emits a closing brace whenever
its input contains one. -/
theorem formatSingle_close_mem (original pfx : List Char)
    (h : '}' ∈ original) :
    '}' ∈ formatSingleTypeDefinition original pfx := by
  unfold formatSingleTypeDefinition
  cases h1 : indexOfChar '{' original with
  | none => exact h
  | some op =>
      cases h2 : lastIndexOfChar '}' original with
      | none => exact h
      | some cp =>
          dsimp only
          by_cases hfc : jsTrim (jsSubstring original (op + 1) cp) = []
          · rw [if_pos hfc]; simp
          · rw [if_neg hfc]
            by_cases hn : (splitTopLevelByComma
                (jsTrim (jsSubstring original (op + 1) cp))).length ≤ 1
            · rw [if_pos hn]; simp
            · rw [if_neg hn]
              refine mem_joinNL_of_mem _ ['}'] '}' ?_ (by simp)
              simp

/-- One back-to-front replacement step always leaves a closing brace in
the accumulator. -/
theorem applyOne_close_mem (code acc : List Char) (m : Nat × Nat × Nat)
    (h1 : m.1 ≤ m.2.2) (h2 : m.2.2 < code.length)
    (h3 : code.getD m.2.2 '\x00' = '}') :
    '}' ∈ applyOne code acc m := by
  unfold applyOne
  refine List.mem_append_left _ (List.mem_append_right _ ?_)
  refine formatSingle_close_mem _ _ ?_
  unfold jsSubstring
  have hmax : max m.1 (m.2.2 + 1) = m.2.2 + 1 := by omega
  have hmin : min m.1 (m.2.2 + 1) = m.1 := by omega
  rw [hmax, hmin]
  have hel : ((code.take (m.2.2 + 1)).drop m.1)[m.2.2 - m.1]? = some '}' := by
    rw [List.getElem?_drop]
    have : m.1 + (m.2.2 - m.1) = m.2.2 := by omega
    rw [this]
    rw [List.getElem?_take_of_lt (by omega)]
    rw [List.getElem?_eq_getElem h2]
    rw [← List.getD_eq_getElem code '\x00' h2, h3]
  exact List.getElem?_mem hel

/-- Folding the replacement over a non-empty match list leaves a closing
brace in the result. -/
theorem foldl_applyOne_close (code : List Char) :
    ∀ (ms : List (Nat × Nat × Nat)) (acc : List Char), ms ≠ [] →
    (∀ m ∈ ms, m.1 ≤ m.2.2 ∧ m.2.2 < code.length ∧
      code.getD m.2.2 '\x00' = '}') →
    '}' ∈ ms.foldl (applyOne code) acc := by
  intro ms
  induction ms with
  | nil => intro acc h _; exact absurd rfl h
  | cons m rest ih =>
      intro acc _ hgood
      cases rest with
      | nil =>
          obtain ⟨g1, g2, g3⟩ := hgood m (List.mem_cons_self _ _)
          simpa [List.foldl] using applyOne_close_mem code acc m g1 g2 g3
      | cons m2 rest' =>
          show '}' ∈ List.foldl (applyOne code) (applyOne code acc m) (m2 :: rest')
          exact ih _ (List.cons_ne_nil _ _)
            (fun x hx => hgood x (List.mem_cons_of_mem _ hx))

/-- The newline collapse keeps every non-newline character. -/
theorem mem_collapseNLGo : ∀ (s : List Char) (k : Nat) (c : Char),
    c ∈ s → c ≠ '\n' → c ∈ collapseNLGo k s := by
  intro s
  induction s with
  | nil => intro k c hc _; simp at hc
  | cons a rest ih =>
      intro k c hc hcn
      simp only [collapseNLGo]
      by_cases ha : a = '\n'
      · rw [if_pos ha]
        rcases List.mem_cons.mp hc with rfl | hc'
        · exact absurd ha (by simpa using hcn)
        · exact ih (k + 1) c hc' hcn
      · rw [if_neg ha]
        rcases List.mem_cons.mp hc with rfl | hc'
        · exact List.mem_append_right _ (List.mem_cons_self _ _)
        · exact List.mem_append_right _
            (List.mem_cons_of_mem _ (ih 0 c hc' hcn))

/-- `dropWhile` keeps every element failing the predicate. -/
theorem mem_dropWhile_of_neg {α : Type} (p : α → Bool) : ∀ (s : List α)
    (c : α), c ∈ s → p c = false → c ∈ s.dropWhile p := by
  intro s
  induction s with
  | nil => intro c hc _; simp at hc
  | cons a rest ih =>
      intro c hc hcp
      rw [List.dropWhile_cons]
      by_cases ha : p a = true
      · rw [if_pos ha]
        rcases List.mem_cons.mp hc with rfl | hc'
        · rw [ha] at hcp; exact absurd hcp (by simp)
        · exact ih c hc' hcp
      · rw [if_neg ha]
        exact hc

/-- The trailing-newline collapse keeps every non-newline character. -/
theorem mem_collapseTrailNL (s : List Char) (c : Char)
    (hc : c ∈ s) (hcn : c ≠ '\n') : c ∈ collapseTrailNL s := by
  unfold collapseTrailNL
  by_cases hlen : (s.reverse.dropWhile (· = '\n')).length = s.reverse.length
  · rw [if_pos hlen]; exact hc
  · rw [if_neg hlen]
    rw [List.reverse_cons]
    refine List.mem_append_left _ ?_
    rw [List.mem_reverse]
    refine mem_dropWhile_of_neg _ _ _ (by simpa using hc) ?_
    simp [hcn]

/-- The cleanup output keeps a witness character, so it is non-empty
whenever the input holds a non-whitespace character. -/
theorem cleanupSpacing_ne_nil (z : List Char) (c : Char)
    (hc : c ∈ z) (hcs : jsSpace c = false) : cleanupSpacing z ≠ [] := by
  have hcn : c ≠ '\n' := by
    intro h; subst h; exact absurd hcs (by decide)
  unfold cleanupSpacing
  refine List.ne_nil_of_mem (a := c) ?_
  exact mem_collapseTrailNL _ _
    (mem_dropWhile_of_neg _ _ _ (mem_collapseNLGo z 0 c hc hcn)
      (by simp [hcn])) hcn

end TotalityLemmas

/-- Claim C1, confirmed: `formatASN1Code` is a total function of its
input (the embedding is a plain Lean function: every operation on the
reachable path is a total string operation, so the catch branch of the
source is dead code), and it returns the empty string exactly for empty
or whitespace-only input. -/
theorem c1_empty_iff_blank (w : Nat) (code : List Char) :
    formatASN1Code w code = [] ↔ jsTrim code = [] := by
  constructor
  · intro h
    by_contra hb
    unfold formatASN1Code at h
    rw [if_neg hb] at h
    unfold simpleFormatASN1 at h
    cases hT : jsTrim code with
    | nil => exact hb hT
    | cons c0 t0 =>
        have hc0 : jsSpace c0 = false :=
          jsTrim_head_false code c0 (by rw [hT]; rfl)
        have hc0mem : c0 ∈ jsTrim code := by rw [hT]; simp
        obtain ⟨d, hdmem, hds⟩ :=
          replaceStep1Go_nonspace (jsTrim code).length _ _ hc0mem hc0
        unfold formatTypeDefinitionsWithNestedBraces at h
        cases hW : (withEnds (replaceStep1 (jsTrim code))
            (findMatches (replaceStep1 (jsTrim code)))).reverse with
        | nil =>
            rw [hW] at h
            simp only [List.foldl_nil] at h
            exact cleanupSpacing_ne_nil _ d hdmem hds h
        | cons m rest =>
            rw [hW] at h
            have hgood : ∀ x ∈ m :: rest,
                x.1 ≤ x.2.2 ∧ x.2.2 < (replaceStep1 (jsTrim code)).length ∧
                (replaceStep1 (jsTrim code)).getD x.2.2 '\x00' = '}' := by
              intro x hx
              exact withEnds_good _
                (findMatches (replaceStep1 (jsTrim code)))
                (fun mm hmm => findMatchesGo_len_pos _ _ _ mm hmm) x
                (by rw [← List.mem_reverse, hW]; exact hx)
            have hclose := foldl_applyOne_close (replaceStep1 (jsTrim code))
              (m :: rest) (replaceStep1 (jsTrim code))
              (List.cons_ne_nil _ _) hgood
            exact cleanupSpacing_ne_nil _ '}' hclose (by decide) h
  · intro h
    unfold formatASN1Code
    rw [if_pos h]

section WfRenderLemmas

/-- A valid token is non-empty. -/
theorem tokenOk_ne_nil {t : List Char} (h : tokenOk t = true) : t ≠ [] := by
  simp only [tokenOk, Bool.and_eq_true, Bool.not_eq_true',
    List.isEmpty_eq_false] at h
  exact h.1

/-- Every character of a valid token is a word character. -/
theorem tokenOk_mem {t : List Char} (h : tokenOk t = true) :
    ∀ c ∈ t, wordChar c = true := by
  simp only [tokenOk, Bool.and_eq_true, List.all_eq_true] at h
  exact h.2

/-- Validity components of a structured definition. -/
theorem defOk_str {n : List Char} {kw : StKw}
    {fs : List (Nat × List (List Char))} (h : defOk (.str n kw fs) = true) :
    tokenOk n = true ∧ fs ≠ [] ∧ ∀ f ∈ fs, fieldOk f = true := by
  simp only [defOk, Bool.and_eq_true, Bool.not_eq_true',
    List.isEmpty_eq_false, List.all_eq_true] at h
  exact ⟨h.1.1, h.1.2, h.2⟩

/-- Validity components of a primitive definition. -/
theorem defOk_prim {n ty : List Char} (h : defOk (.prim n ty) = true) :
    tokenOk n = true ∧ tokenOk ty = true := by
  simpa [defOk, Bool.and_eq_true] using h

/-- A keyword is non-empty and all word characters. -/
theorem kwChars_ok (kw : StKw) :
    kwChars kw ≠ [] ∧ ∀ c ∈ kwChars kw, wordChar c = true := by
  cases kw <;> exact ⟨by decide, by decide⟩

/-- The text of a valid definition is non-empty. -/
theorem renderDef_ne_nil {d : WfDef} (h : defOk d = true) :
    renderDef d ≠ [] := by
  cases d with
  | prim n ty =>
      have := tokenOk_ne_nil (defOk_prim h).1
      simp [renderDef, this]
  | str n kw fs =>
      have := tokenOk_ne_nil (defOk_str h).1
      simp [renderDef, this]

/-- The text of a valid definition starts with a word character. -/
theorem renderDef_head {d : WfDef} (h : defOk d = true) (c : Char)
    (hc : (renderDef d).head? = some c) : wordChar c = true := by
  cases d with
  | prim n ty =>
      have hn := (defOk_prim h).1
      rw [renderDef, List.head?_append_of_ne_nil _ (tokenOk_ne_nil hn)] at hc
      cases n with
      | nil => exact absurd rfl (tokenOk_ne_nil hn)
      | cons a t =>
          simp only [List.head?_cons, Option.some.injEq] at hc
          exact tokenOk_mem hn c (hc ▸ List.mem_cons_self a t)
  | str n kw fs =>
      have hn := (defOk_str h).1
      rw [renderDef, List.head?_append_of_ne_nil _ (tokenOk_ne_nil hn)] at hc
      cases n with
      | nil => exact absurd rfl (tokenOk_ne_nil hn)
      | cons a t =>
          simp only [List.head?_cons, Option.some.injEq] at hc
          exact tokenOk_mem hn c (hc ▸ List.mem_cons_self a t)

/-- The text of a valid definition ends in a word character or a closing
brace. -/
theorem renderDef_getLast {d : WfDef} (h : defOk d = true) (c : Char)
    (hc : (renderDef d).getLast? = some c) :
    wordChar c = true ∨ c = '}' := by
  cases d with
  | prim n ty =>
      have hty := (defOk_prim h).2
      have hsh : renderDef (.prim n ty) = (n ++ [' ', ':', ':', '=', ' ']) ++ ty := by
        simp [renderDef]
      rw [hsh, List.getLast?_append_of_ne_nil _ (tokenOk_ne_nil hty)] at hc
      left
      have : c ∈ ty := by
        have h2 := List.mem_getLast?_eq_getLast (l := ty) (x := c)
          (Option.mem_def.mpr hc)
        obtain ⟨hne, rfl⟩ := h2
        exact List.getLast_mem hne
      exact tokenOk_mem hty c this
  | str n kw fs =>
      right
      have hsh : renderDef (.str n kw fs)
          = (n ++ ' ' :: ':' :: ':' :: '=' :: ' ' ::
              (kwChars kw ++ ' ' :: '{' :: '\n' :: renderBody fs)) ++ ['\n', '}'] := by
        simp [renderDef]
      rw [hsh, List.getLast?_append_of_ne_nil _ (by simp)] at hc
      simpa [List.getLast?] using hc.symm

/-- The text after a non-empty list of valid definitions is non-empty. -/
theorem tailRender_ne_nil (rest : List (Nat × WfDef))
    (hok : ∀ p ∈ rest, defOk p.2 = true) (hne : rest ≠ []) :
    tailRender rest ≠ [] := by
  cases rest with
  | nil => exact absurd rfl hne
  | cons p rest' =>
      simp only [tailRender]
      intro hemp
      rcases List.append_eq_nil.mp hemp with ⟨-, h2⟩
      rcases List.append_eq_nil.mp h2 with ⟨h3, -⟩
      exact renderDef_ne_nil (hok p (List.mem_cons_self _ _)) h3

/-- The text after the head definition ends in a word character or a
closing brace. -/
theorem tailRender_getLast (rest : List (Nat × WfDef))
    (hok : ∀ p ∈ rest, defOk p.2 = true) (hne : rest ≠ []) (c : Char)
    (hc : (tailRender rest).getLast? = some c) :
    wordChar c = true ∨ c = '}' := by
  induction rest with
  | nil => exact absurd rfl hne
  | cons p rest' ih =>
      cases hrest : rest' with
      | nil =>
          subst hrest
          simp only [tailRender, List.append_nil] at hc
          rw [List.getLast?_append_of_ne_nil _
            (renderDef_ne_nil (hok p (List.mem_cons_self _ _)))] at hc
          exact renderDef_getLast (hok p (List.mem_cons_self _ _)) c hc
      | cons q rest'' =>
          have hok' : ∀ x ∈ rest', defOk x.2 = true :=
            fun x hx => hok x (List.mem_cons_of_mem _ hx)
          have htne : tailRender rest' ≠ [] := by
            rw [hrest]
            exact tailRender_ne_nil _ (by rw [← hrest]; exact hok')
              (by simp)
          simp only [tailRender] at hc
          rw [List.getLast?_append_of_ne_nil _ (by
                intro hemp
                exact htne (List.append_eq_nil.mp hemp).2),
              List.getLast?_append_of_ne_nil _ htne] at hc
          exact ih hok' (by rw [hrest]; simp) hc

/-- The whole program text ends in a word character or a closing brace. -/
theorem renderProg_getLast (d : WfDef) (rest : List (Nat × WfDef))
    (hd : defOk d = true) (hok : ∀ p ∈ rest, defOk p.2 = true) (c : Char)
    (hc : (renderProg d rest).getLast? = some c) :
    wordChar c = true ∨ c = '}' := by
  unfold renderProg at hc
  cases hrest : rest with
  | nil =>
      subst hrest
      simp only [tailRender, List.append_nil] at hc
      exact renderDef_getLast hd c hc
  | cons q rest'' =>
      rw [List.getLast?_append_of_ne_nil _ (by
        rw [hrest]
        exact tailRender_ne_nil _ (by rw [← hrest]; exact hok) (by simp))] at hc
      exact tailRender_getLast rest hok (by rw [hrest]; simp) c (hrest ▸ hc)

/-- The whole program text starts with a word character. -/
theorem renderProg_head (d : WfDef) (rest : List (Nat × WfDef))
    (hd : defOk d = true) (c : Char)
    (hc : (renderProg d rest).head? = some c) : wordChar c = true := by
  unfold renderProg at hc
  rw [List.head?_append_of_ne_nil _ (renderDef_ne_nil hd)] at hc
  exact renderDef_head hd c hc

/-- Stage M1: trimming fixes a rendered program. -/
theorem jsTrim_renderProg (d : WfDef) (rest : List (Nat × WfDef))
    (hd : defOk d = true) (hok : ∀ p ∈ rest, defOk p.2 = true) :
    jsTrim (renderProg d rest) = renderProg d rest := by
  refine jsTrim_id _ ?_ ?_
  · intro c hc
    exact wordChar_not_space c (renderProg_head d rest hd c hc)
  · intro c hc
    rcases renderProg_getLast d rest hd hok c hc with hw | rfl
    · exact wordChar_not_space c hw
    · decide

end WfRenderLemmas

section Step1Lemmas

/-- Splitting a definition's text at its `::=`. -/
theorem renderDef_split (d : WfDef) :
    renderDef d = defName d ++ ' ' :: ':' :: ':' :: '=' :: renderDefAfter d := by
  cases d <;> rfl

/-- `takeWhile` passes over a fully satisfying prefix. -/
theorem takeWhile_append_all {α : Type} (p : α → Bool) (A B : List α)
    (h : ∀ c ∈ A, p c = true) :
    (A ++ B).takeWhile p = A ++ B.takeWhile p := by
  induction A with
  | nil => rfl
  | cons a A' ih =>
      simp only [List.cons_append, List.takeWhile_cons,
        h a (List.mem_cons_self _ _), if_true, List.cons.injEq, true_and]
      exact ih (fun c hc => h c (List.mem_cons_of_mem _ hc))

/-- `dropWhile` passes over a fully satisfying prefix. -/
theorem dropWhile_append_all {α : Type} (p : α → Bool) (A B : List α)
    (h : ∀ c ∈ A, p c = true) :
    (A ++ B).dropWhile p = B.dropWhile p := by
  induction A with
  | nil => rfl
  | cons a A' ih =>
      simp only [List.cons_append, List.dropWhile_cons,
        h a (List.mem_cons_self _ _), if_true]
      exact ih (fun c hc => h c (List.mem_cons_of_mem _ hc))

/-- `takeWhile` stops at a failing head. -/
theorem takeWhile_eq_nil_of_head {α : Type} (p : α → Bool) (B : List α)
    (b : α) (hb : B.head? = some b) (hp : p b = false) :
    B.takeWhile p = [] := by
  cases B with
  | nil => rfl
  | cons x B' =>
      simp only [List.head?_cons, Option.some.injEq] at hb
      subst hb
      simp [List.takeWhile_cons, hp]

/-- `dropWhile` keeps a list whose head fails. -/
theorem dropWhile_eq_self_of_head {α : Type} (p : α → Bool) (B : List α)
    (b : α) (hb : B.head? = some b) (hp : p b = false) :
    B.dropWhile p = B := by
  cases B with
  | nil => rfl
  | cons x B' =>
      simp only [List.head?_cons, Option.some.injEq] at hb
      subst hb
      simp [List.dropWhile_cons, hp]

/-- Step 1 matches nothing except at a closing brace. -/
theorem matchStep1_none_of_head (c : Char) (rest : List Char)
    (hc : c ≠ '}') : matchStep1 (c :: rest) = none := by
  unfold matchStep1
  split
  · next r heq =>
      exfalso
      simp only [List.cons.injEq] at heq
      exact hc heq.1
  · rfl

/-- Computation rule of `matchStep1` at a closing brace. -/
theorem matchStep1_cons_close (rest : List Char) :
    matchStep1 ('}' :: rest) =
      (let ws1 := rest.takeWhile jsSpace
       let r1 := rest.dropWhile jsSpace
       let w := r1.takeWhile wordChar
       if w = [] then none
       else
         let r2 := r1.dropWhile wordChar
         let ws2 := r2.takeWhile jsSpace
         match r2.dropWhile jsSpace with
         | ':' :: ':' :: '=' :: _ =>
             some (1 + ws1.length + w.length + ws2.length + 3,
                   w ++ ws2 ++ [':', ':', '='])
         | _ => none) := rfl

/-- Computation rule of the step-1 worker on a cons cell. -/
theorem replaceStep1Go_cons (f : Nat) (c : Char) (rest : List Char) :
    replaceStep1Go (f + 1) (c :: rest) =
      (match matchStep1 (c :: rest) with
       | some (len, cap) =>
           '}' :: '
' :: '
' :: '
' ::
             (cap ++ replaceStep1Go f ((c :: rest).drop len))
       | none => c :: replaceStep1Go f rest) := rfl

/-- Step 1 ignores a brace-free prefix. -/
theorem replaceStep1Go_skip : ∀ (A B : List Char) (fuel : Nat),
    '}' ∉ A → A.length ≤ fuel →
    replaceStep1Go fuel (A ++ B) = A ++ replaceStep1Go (fuel - A.length) B := by
  intro A
  induction A with
  | nil => intro B fuel _ _; simp
  | cons a A' ih =>
      intro B fuel hni hlen
      cases fuel with
      | zero => simp at hlen
      | succ f =>
          rw [List.cons_append, replaceStep1Go_cons,
            matchStep1_none_of_head a (A' ++ B)
              (fun h => hni (h ▸ List.mem_cons_self _ _))]
          have := ih B f (fun h => hni (List.mem_cons_of_mem _ h))
            (by simpa using hlen)
          rw [this]
          simp only [List.cons_append, List.cons.injEq, true_and,
            List.length_cons]
          congr 2
          omega

/-- Step 1 on the empty text. -/
theorem replaceStep1Go_nil (fuel : Nat) : replaceStep1Go fuel [] = [] := by
  cases fuel <;> rfl

/-- Step 1 leaves a lone final closing brace alone. -/
theorem replaceStep1Go_lone_close (fuel : Nat) (h : 1 ≤ fuel) :
    replaceStep1Go fuel ['}'] = ['}'] := by
  cases fuel with
  | zero => omega
  | succ f =>
      simp only [replaceStep1Go]
      rw [show matchStep1 ['}'] = none from by decide]
      rw [replaceStep1Go_nil]

/-- The step-1 seam: a closing brace, a separator run, and the next
definition's `name ::=` are matched and re-emitted behind exactly three
newlines. -/
theorem replaceStep1Go_seam (fuel k : Nat) (name B : List Char)
    (hname : tokenOk name = true)
    (hfuel : 1 ≤ fuel) :
    replaceStep1Go fuel
      ('}' :: (List.replicate k '\n' ++ (name ++ ' ' :: ':' :: ':' :: '=' :: B)))
      = '}' :: '\n' :: '\n' :: '\n' ::
          (name ++ ' ' :: ':' :: ':' :: '=' ::
            replaceStep1Go (fuel - 1) B) := by
  cases fuel with
  | zero => omega
  | succ f =>
      have hrep : ∀ c ∈ List.replicate k '\n', jsSpace c = true := by
        intro c hc
        rw [List.eq_of_mem_replicate hc]
        decide
      have hnhead : ∀ b, name.head? = some b → jsSpace b = false := by
        intro b hb
        refine wordChar_not_space b (tokenOk_mem hname b ?_)
        cases name with
        | nil => simp at hb
        | cons x t =>
            simp only [List.head?_cons, Option.some.injEq] at hb
            exact hb ▸ List.mem_cons_self _ _
      have hnword : ∀ c ∈ name, wordChar c = true := tokenOk_mem hname
      have hnne : name ≠ [] := tokenOk_ne_nil hname
      -- compute the match
      have hm : matchStep1
          ('}' :: (List.replicate k '\n' ++ (name ++ ' ' :: ':' :: ':' :: '=' :: B)))
          = some (1 + k + name.length + 1 + 3,
              name ++ [' '] ++ [':', ':', '=']) := by
        rw [matchStep1_cons_close]
        have h1 : (List.replicate k '\n' ++ (name ++ ' ' :: ':' :: ':' :: '=' :: B)).takeWhile jsSpace
            = List.replicate k '\n' := by
          rw [takeWhile_append_all _ _ _ hrep]
          rw [takeWhile_eq_nil_of_head jsSpace _ name.head!
            (by cases name with
                | nil => exact absurd rfl hnne
                | cons x t => rfl)
            (by cases name with
                | nil => exact absurd rfl hnne
                | cons x t => exact hnhead x rfl)]
          simp
        have h2 : (List.replicate k '\n' ++ (name ++ ' ' :: ':' :: ':' :: '=' :: B)).dropWhile jsSpace
            = name ++ ' ' :: ':' :: ':' :: '=' :: B := by
          rw [dropWhile_append_all _ _ _ hrep]
          exact dropWhile_eq_self_of_head jsSpace _ name.head!
            (by cases name with
                | nil => exact absurd rfl hnne
                | cons x t => rfl)
            (by cases name with
                | nil => exact absurd rfl hnne
                | cons x t => exact hnhead x rfl)
        have h3 : (name ++ ' ' :: ':' :: ':' :: '=' :: B).takeWhile wordChar = name := by
          rw [takeWhile_append_all _ _ _ hnword,
            takeWhile_eq_nil_of_head wordChar (' ' :: ':' :: ':' :: '=' :: B) ' ' rfl
              (by decide)]
          simp
        have h4 : (name ++ ' ' :: ':' :: ':' :: '=' :: B).dropWhile wordChar
            = ' ' :: ':' :: ':' :: '=' :: B := by
          rw [dropWhile_append_all _ _ _ hnword]
          exact dropWhile_eq_self_of_head wordChar (' ' :: ':' :: ':' :: '=' :: B) ' ' rfl
            (by decide)
        have h5 : (' ' :: ':' :: ':' :: '=' :: B).takeWhile jsSpace = [' '] := by
          rw [List.takeWhile_cons, if_pos (by decide),
            takeWhile_eq_nil_of_head jsSpace (':' :: ':' :: '=' :: B) ':' rfl (by decide)]
        have h6 : (' ' :: ':' :: ':' :: '=' :: B).dropWhile jsSpace
            = ':' :: ':' :: '=' :: B := by
          rw [List.dropWhile_cons, if_pos (by decide)]
          exact dropWhile_eq_self_of_head jsSpace (':' :: ':' :: '=' :: B) ':' rfl (by decide)
        simp only [h1, h2, h3, h4, h5, h6]
        rw [if_neg hnne]
        simp [List.length_replicate]
      rw [replaceStep1Go_cons, hm]
      simp only [List.cons.injEq, true_and]
      have hdrop : ('}' :: (List.replicate k '\n' ++ (name ++ ' ' :: ':' :: ':' :: '=' :: B))).drop
          (1 + k + name.length + 1 + 3) = B := by
        have hsh : '}' :: (List.replicate k '\n' ++ (name ++ ' ' :: ':' :: ':' :: '=' :: B))
            = ('}' :: (List.replicate k '\n' ++ name ++ [' ', ':', ':', '='])) ++ B := by
          simp [List.append_assoc]
        rw [hsh]
        have hlen : ('}' :: (List.replicate k '\n' ++ name ++ [' ', ':', ':', '='])).length
            = 1 + k + name.length + 1 + 3 := by
          simp [List.length_append]
          omega
        rw [← hlen, List.drop_left]
      rw [hdrop]
      simp [List.append_assoc]

/-- No closing brace occurs in a valid token. -/
theorem close_not_mem_token {t : List Char} (h : tokenOk t = true) :
    '}' ∉ t := by
  intro hm
  exact absurd (tokenOk_mem h '}' hm) (by decide)

/-- No closing brace occurs in a rendered field. -/
theorem close_not_mem_renderField : ∀ (ts : List (List Char)),
    (∀ t ∈ ts, tokenOk t = true) → '}' ∉ renderField ts := by
  intro ts
  induction ts with
  | nil => intro _; simp [renderField]
  | cons t rest ih =>
      intro hall
      cases rest with
      | nil => exact close_not_mem_token (hall t (List.mem_cons_self _ _))
      | cons u rest' =>
          intro hm
          have hm' : '}' ∈ t ++ ' ' :: renderField (u :: rest') := hm
          rcases List.mem_append.mp hm' with h1 | h1
          · exact close_not_mem_token (hall t (List.mem_cons_self _ _)) h1
          · rcases List.mem_cons.mp h1 with h2 | h2
            · exact absurd h2 (by decide)
            · exact ih (fun x hx => hall x (List.mem_cons_of_mem _ hx)) h2

/-- No closing brace occurs in a rendered field line. -/
theorem close_not_mem_renderFieldLine (f : Nat × List (List Char))
    (h : fieldOk f = true) : '}' ∉ renderFieldLine f := by
  intro hm
  have hm' : '}' ∈ List.replicate f.1 ' ' ++ renderField f.2 := hm
  rcases List.mem_append.mp hm' with h1 | h1
  · exact absurd (List.eq_of_mem_replicate h1) (by decide)
  · have hall : ∀ t ∈ f.2, tokenOk t = true := by
      simp only [fieldOk, Bool.and_eq_true, List.all_eq_true] at h
      exact h.2
    exact close_not_mem_renderField f.2 hall h1

/-- No closing brace occurs in a rendered body. -/
theorem close_not_mem_renderBody : ∀ (fs : List (Nat × List (List Char))),
    (∀ f ∈ fs, fieldOk f = true) → '}' ∉ renderBody fs := by
  intro fs
  induction fs with
  | nil => intro _; simp [renderBody]
  | cons f rest ih =>
      intro hall
      cases rest with
      | nil =>
          intro hm
          exact close_not_mem_renderFieldLine f
            (hall f (List.mem_cons_self _ _)) hm
      | cons g rest' =>
          intro hm
          have hm' : '}' ∈ renderFieldLine f ++
              ',' :: '\n' :: renderBody (g :: rest') := hm
          rcases List.mem_append.mp hm' with h1 | h1
          · exact close_not_mem_renderFieldLine f
              (hall f (List.mem_cons_self _ _)) h1
          · rcases List.mem_cons.mp h1 with h2 | h2
            · exact absurd h2 (by decide)
            · rcases List.mem_cons.mp h2 with h3 | h3
              · exact absurd h3 (by decide)
              · exact ih (fun x hx => hall x (List.mem_cons_of_mem _ hx)) h3

/-- No closing brace occurs in a structured keyword. -/
theorem close_not_mem_kwChars (kw : StKw) : '}' ∉ kwChars kw := by
  cases kw <;> decide

/-- No closing brace occurs before the final brace of a structured body. -/
theorem close_not_mem_strOpen (kw : StKw) (fs : List (Nat × List (List Char)))
    (hfs : ∀ f ∈ fs, fieldOk f = true) :
    '}' ∉ kwChars kw ++ ' ' :: '{' :: '\n' :: (renderBody fs ++ ['\n']) := by
  intro hm
  rcases List.mem_append.mp hm with h1 | h1
  · exact close_not_mem_kwChars kw h1
  · rcases List.mem_cons.mp h1 with h2 | h2
    · exact absurd h2 (by decide)
    · rcases List.mem_cons.mp h2 with h3 | h3
      · exact absurd h3 (by decide)
      · rcases List.mem_cons.mp h3 with h4 | h4
        · exact absurd h4 (by decide)
        · rcases List.mem_append.mp h4 with h5 | h5
          · exact close_not_mem_renderBody fs hfs h5
          · exact absurd h5 (by decide)

/-- A valid primitive definition renders without a closing brace. -/
theorem renderDef_prim_no_close (n ty : List Char)
    (h : defOk (.prim n ty) = true) : '}' ∉ renderDef (.prim n ty) := by
  intro hm
  have hm' : '}' ∈ n ++ ([' ', ':', ':', '=', ' '] ++ ty) := hm
  rcases List.mem_append.mp hm' with h1 | h1
  · exact close_not_mem_token (defOk_prim h).1 h1
  · rcases List.mem_append.mp h1 with h2 | h2
    · exact absurd h2 (by decide)
    · exact close_not_mem_token (defOk_prim h).2 h2

/-- A valid structured definition renders as a brace-free body followed by
one closing brace. -/
theorem renderDef_str_shape (n : List Char) (kw : StKw)
    (fs : List (Nat × List (List Char)))
    (h : defOk (.str n kw fs) = true) :
    ∃ Y, renderDef (.str n kw fs) = Y ++ ['}'] ∧ '}' ∉ Y := by
  refine ⟨(n ++ [' ', ':', ':', '=', ' ']) ++
    (kwChars kw ++ ' ' :: '{' :: '\n' :: (renderBody fs ++ ['\n'])), ?_, ?_⟩
  · simp [renderDef, List.append_assoc]
  · intro hm
    rcases List.mem_append.mp hm with h1 | h1
    · rcases List.mem_append.mp h1 with h2 | h2
      · exact close_not_mem_token (defOk_str h).1 h2
      · exact absurd h2 (by decide)
    · exact close_not_mem_strOpen kw fs (defOk_str h).2.2 h1

/-- A valid primitive right-hand side has no closing brace. -/
theorem renderDefAfter_prim_no_close (n ty : List Char)
    (h : defOk (.prim n ty) = true) : '}' ∉ renderDefAfter (.prim n ty) := by
  intro hm
  rcases List.mem_cons.mp hm with h1 | h1
  · exact absurd h1 (by decide)
  · exact close_not_mem_token (defOk_prim h).2 h1

/-- A valid structured right-hand side is a brace-free body followed by one
closing brace. -/
theorem renderDefAfter_str_shape (n : List Char) (kw : StKw)
    (fs : List (Nat × List (List Char)))
    (h : defOk (.str n kw fs) = true) :
    ∃ Y, renderDefAfter (.str n kw fs) = Y ++ ['}'] ∧ '}' ∉ Y := by
  refine ⟨' ' :: (kwChars kw ++ ' ' :: '{' :: '\n' :: (renderBody fs ++ ['\n'])),
    ?_, ?_⟩
  · simp [renderDefAfter, List.append_assoc]
  · intro hm
    rcases List.mem_cons.mp hm with h1 | h1
    · exact absurd h1 (by decide)
    · exact close_not_mem_strOpen kw fs (defOk_str h).2.2 h1

/-- The name of a valid definition is a valid token. -/
theorem defName_tokenOk {d : WfDef} (h : defOk d = true) :
    tokenOk (defName d) = true := by
  cases d with
  | prim n ty => exact (defOk_prim h).1
  | str n kw fs => exact (defOk_str h).1

/-- Splitting a definition's text followed by any continuation. -/
theorem renderDef_split_append (d : WfDef) (T : List Char) :
    renderDef d ++ T
      = defName d ++ ' ' :: ':' :: ':' :: '=' :: (renderDefAfter d ++ T) := by
  rw [renderDef_split]
  simp [List.append_assoc]

/-- Stage M2 main induction: running step 1 over a brace-shaped prefix
followed by the rendered tail rewrites the separator after every closing
brace to exactly three newlines and leaves all other text unchanged. -/
theorem step1_tail : ∀ (rest : List (Nat × WfDef)) (X : List Char) (b : Bool)
    (fuel : Nat),
    (b = true → ∃ Y, X = Y ++ ['}'] ∧ '}' ∉ Y) →
    (b = false → '}' ∉ X) →
    (∀ p ∈ rest, defOk p.2 = true) →
    (X ++ tailRender rest).length ≤ fuel →
    replaceStep1Go fuel (X ++ tailRender rest) = X ++ tailSep3 b rest := by
  intro rest
  induction rest with
  | nil =>
      intro X b fuel hT hF _ hfuel
      simp only [tailRender, tailSep3, List.append_nil] at hfuel ⊢
      cases b with
      | false =>
          have h := replaceStep1Go_skip X [] fuel (hF rfl) hfuel
          simpa [replaceStep1Go_nil] using h
      | true =>
          obtain ⟨Y, rfl, hY⟩ := hT rfl
          have hlen : Y.length + 1 ≤ fuel := by
            simpa [List.length_append] using hfuel
          rw [replaceStep1Go_skip Y ['}'] fuel hY (by omega)]
          rw [replaceStep1Go_lone_close _ (by omega)]
  | cons p rest' ih =>
      obtain ⟨k, d'⟩ := p
      intro X b fuel hT hF hall hfuel
      have hd' : defOk d' = true := hall (k, d') (List.mem_cons_self _ _)
      have hall' : ∀ q ∈ rest', defOk q.2 = true :=
        fun q hq => hall q (List.mem_cons_of_mem _ hq)
      have hlrd : (renderDef d').length
          = (defName d').length + 4 + (renderDefAfter d').length := by
        rw [renderDef_split]
        simp [List.length_append]
        omega
      have hfl : X.length + (k + ((renderDef d').length
          + (tailRender rest').length)) ≤ fuel := by
        simpa [tailRender, List.length_append] using hfuel
      cases b with
      | false =>
          have hX := hF rfl
          have hA : '}' ∉ X ++ List.replicate k '\n' := by
            intro hm
            rcases List.mem_append.mp hm with h1 | h1
            · exact hX h1
            · exact absurd (List.eq_of_mem_replicate h1) (by decide)
          have hshape : X ++ tailRender ((k, d') :: rest')
              = (X ++ List.replicate k '\n')
                  ++ (renderDef d' ++ tailRender rest') := by
            simp [tailRender, List.append_assoc]
          rw [hshape]
          rw [replaceStep1Go_skip _ _ fuel hA
            (by simp [List.length_append]; omega)]
          rw [ih (renderDef d') (isStr d') _
            (by
              intro hs
              cases d' with
              | prim n ty => simp [isStr] at hs
              | str n kw fs => exact renderDef_str_shape n kw fs hd')
            (by
              intro hs
              cases d' with
              | prim n ty => exact renderDef_prim_no_close n ty hd'
              | str n kw fs => simp [isStr] at hs)
            hall'
            (by simp [List.length_append]; omega)]
          simp [tailSep3, List.append_assoc]
      | true =>
          obtain ⟨Y, rfl, hY⟩ := hT rfl
          have hshape : (Y ++ ['}']) ++ tailRender ((k, d') :: rest')
              = Y ++ ('}' :: (List.replicate k '\n'
                  ++ (defName d' ++ ' ' :: ':' :: ':' :: '=' ::
                      (renderDefAfter d' ++ tailRender rest')))) := by
            simp only [tailRender]
            rw [show renderDef d' ++ tailRender rest'
                = defName d' ++ ' ' :: ':' :: ':' :: '=' ::
                    (renderDefAfter d' ++ tailRender rest') from
              renderDef_split_append d' (tailRender rest')]
            simp [List.append_assoc]
          have hflY : Y.length + 1 + (k + ((renderDef d').length
              + (tailRender rest').length)) ≤ fuel := by
            simpa [List.length_append] using hfl
          rw [hshape]
          rw [replaceStep1Go_skip Y _ fuel hY (by omega)]
          rw [replaceStep1Go_seam _ k (defName d') _
            (defName_tokenOk hd') (by omega)]
          rw [ih (renderDefAfter d') (isStr d') _
            (by
              intro hs
              cases d' with
              | prim n ty => simp [isStr] at hs
              | str n kw fs => exact renderDefAfter_str_shape n kw fs hd')
            (by
              intro hs
              cases d' with
              | prim n ty => exact renderDefAfter_prim_no_close n ty hd'
              | str n kw fs => simp [isStr] at hs)
            hall'
            (by simp [List.length_append]; omega)]
          simp only [tailSep3, if_pos]
          rw [renderDef_split_append d' (tailSep3 (isStr d') rest')]
          simp [List.append_assoc, List.replicate_succ]

/-- Stage M2: step 1 on a rendered program rewrites the separator after
every structured definition to exactly three newlines and leaves all other
text unchanged. -/
theorem replaceStep1_renderProg (d : WfDef) (rest : List (Nat × WfDef))
    (hd : defOk d = true) (hok : ∀ p ∈ rest, defOk p.2 = true) :
    replaceStep1 (renderProg d rest) = renderDef d ++ tailSep3 (isStr d) rest := by
  unfold replaceStep1 renderProg
  refine step1_tail rest (renderDef d) (isStr d) _
    ?_ ?_ hok (le_refl _)
  · intro hs
    cases d with
    | prim n ty => simp [isStr] at hs
    | str n kw fs => exact renderDef_str_shape n kw fs hd
  · intro hs
    cases d with
    | prim n ty => exact renderDef_prim_no_close n ty hd
    | str n kw fs => simp [isStr] at hs

end Step1Lemmas

section Step2Lemmas

/-- A suffix headed by a non-word character never matches step 2. -/
theorem matchStep2_none_head (c : Char) (s : List Char)
    (hc : wordChar c = false) : matchStep2 (c :: s) = none := by
  have hw : (c :: s).takeWhile wordChar = [] :=
    takeWhile_eq_nil_of_head wordChar (c :: s) c rfl hc
  simp [matchStep2, hw]

/-- A word run whose continuation does not lead with `::=` after optional
whitespace never matches step 2. -/
theorem matchStep2_none_noColon (A s : List Char)
    (hA : ∀ c ∈ A, wordChar c = true)
    (hs : ∀ c, s.head? = some c → wordChar c = false)
    (hcol : ∀ c, (s.dropWhile jsSpace).head? = some c → c ≠ ':') :
    matchStep2 (A ++ s) = none := by
  have hws : s.takeWhile wordChar = [] := by
    cases s with
    | nil => rfl
    | cons c s' => exact takeWhile_eq_nil_of_head wordChar _ c rfl (hs c rfl)
  have hds : s.dropWhile wordChar = s := by
    cases s with
    | nil => rfl
    | cons c s' => exact dropWhile_eq_self_of_head wordChar _ c rfl (hs c rfl)
  have hw : (A ++ s).takeWhile wordChar = A := by
    rw [takeWhile_append_all _ _ _ hA, hws, List.append_nil]
  have hr : (A ++ s).dropWhile wordChar = s := by
    rw [dropWhile_append_all _ _ _ hA, hds]
  by_cases hA0 : A = []
  · subst hA0
    rw [List.nil_append] at hw ⊢
    simp [matchStep2, hw]
  · simp only [matchStep2, hw, hr]
    rw [if_neg hA0]
    split
    · next r2 heq =>
        exfalso
        exact hcol ':' (by rw [heq]; rfl) rfl
    · rfl

/-- The head of a separator-shaped continuation is not a word character. -/
theorem sepShape_head (U : List Char) (h : SepShape U) :
    ∀ c, U.head? = some c → wordChar c = false := by
  intro c hc
  rcases h with rfl | ⟨m, T, rfl, -⟩
  · simp at hc
  · rw [List.replicate_succ, List.cons_append, List.head?_cons,
      Option.some.injEq] at hc
    subst hc; decide

/-- After dropping whitespace, a separator-shaped continuation starts with
a word character if it is non-empty. -/
theorem sepShape_dropWhile (U : List Char) (h : SepShape U) :
    ∀ c, (U.dropWhile jsSpace).head? = some c → wordChar c = true := by
  intro c hc
  rcases h with rfl | ⟨m, T, rfl, hT⟩
  · simp at hc
  · rw [dropWhile_append_all _ _ _ (fun x hx => by
      rw [List.eq_of_mem_replicate hx]; decide)] at hc
    rcases hT with rfl | ⟨b, hb, hw⟩
    · simp at hc
    · rw [dropWhile_eq_self_of_head jsSpace _ b hb
        (wordChar_not_space b hw), hb, Option.some.injEq] at hc
      subst hc; exact hw

/-- After a keyword-length drop inside a word token followed by a
separator-shaped continuation, the next non-whitespace character is never
an opening brace. -/
theorem kwdrop_not_open (kw ty U : List Char)
    (hkw : ∀ c ∈ kw, wordChar c = true)
    (hty : ∀ c ∈ ty, wordChar c = true)
    (hU : SepShape U)
    (hpre : kw.isPrefixOf (ty ++ U) = true) :
    ∀ c, (((ty ++ U).drop kw.length).dropWhile jsSpace).head? = some c →
      c ≠ '\x7b' := by
  intro c hc
  rcases Nat.lt_or_ge kw.length ty.length with hlt | hge
  · rw [List.drop_append_eq_append_drop,
      show kw.length - ty.length = 0 by omega, List.drop_zero] at hc
    have hne : ty.drop kw.length ≠ [] := by
      intro hnil
      have := congrArg List.length hnil
      simp [List.length_drop] at this
      omega
    obtain ⟨b, hb⟩ : ∃ b, (ty.drop kw.length).head? = some b := by
      cases hdrop : ty.drop kw.length with
      | nil => exact absurd hdrop hne
      | cons x xs => exact ⟨x, by simp [hdrop]⟩
    have hbw : wordChar b = true :=
      hty b (List.mem_of_mem_drop
        (List.mem_of_mem_head? (Option.mem_def.mpr hb)))
    have hHead : (ty.drop kw.length ++ U).head? = some b := by
      rw [List.head?_append_of_ne_nil _ hne]; exact hb
    rw [dropWhile_eq_self_of_head jsSpace _ b hHead
      (wordChar_not_space b hbw), hHead, Option.some.injEq] at hc
    subst hc
    intro h
    rw [h] at hbw
    exact absurd hbw (by decide)
  · rcases Nat.lt_or_ge ty.length kw.length with hgt | hle2
    · exfalso
      obtain ⟨t, ht⟩ := List.isPrefixOf_iff_prefix.mp hpre
      rcases List.append_eq_append_iff.mp ht with ⟨a, ha1, -⟩ | ⟨cz, hc1, hc2⟩
      · have := congrArg List.length ha1
        simp [List.length_append] at this
        omega
      · cases cz with
        | nil =>
            have := congrArg List.length hc1
            simp [List.length_append] at this
            omega
        | cons x cz' =>
            have hxw : wordChar x = true := by
              apply hkw
              rw [hc1]
              exact List.mem_append_right _ (List.mem_cons_self _ _)
            have hxh : U.head? = some x := by rw [hc2]; rfl
            rw [sepShape_head U hU x hxh] at hxw
            exact absurd hxw (by simp)
    · have hdropU : (ty ++ U).drop kw.length = U := by
        rw [List.drop_append_eq_append_drop,
          List.drop_eq_nil_of_le (by omega),
          show kw.length - ty.length = 0 by omega, List.drop_zero,
          List.nil_append]
      rw [hdropU] at hc
      have hcw := sepShape_dropWhile U hU c hc
      intro h
      rw [h] at hcw
      exact absurd hcw (by decide)

/-- The keyword scan fails on a word token followed by a separator-shaped
continuation. -/
theorem tryKw_none_of : ∀ (kws : List (List Char)),
    (∀ kw ∈ kws, ∀ c ∈ kw, wordChar c = true) →
    ∀ (ty U : List Char), (∀ c ∈ ty, wordChar c = true) → SepShape U →
    tryKw kws (ty ++ U) = none := by
  intro kws
  induction kws with
  | nil => intro _ ty U _ _; rfl
  | cons kw kws' ih =>
      intro hkws ty U hty hU
      have hkw : ∀ c ∈ kw, wordChar c = true :=
        hkws kw (List.mem_cons_self _ _)
      have hkws' : ∀ k ∈ kws', ∀ c ∈ k, wordChar c = true :=
        fun k hk => hkws k (List.mem_cons_of_mem _ hk)
      simp only [tryKw]
      by_cases hp : kw.isPrefixOf (ty ++ U) = true
      · rw [if_pos hp]
        split
        · next rest heq =>
            exfalso
            exact kwdrop_not_open kw ty U hkw hty hU hp '\x7b'
              (by rw [heq]; rfl) rfl
        · exact ih hkws' ty U hty hU
      · rw [if_neg hp]
        exact ih hkws' ty U hty hU

/-- The keyword scan fails on a valid type token followed by a
separator-shaped continuation. -/
theorem tryKw_none (ty U : List Char) (hty : tokenOk ty = true)
    (hU : SepShape U) : tryKw kwList (ty ++ U) = none := by
  refine tryKw_none_of kwList ?_ ty U (tokenOk_mem hty) hU
  intro kw hkw
  have : kw = "SEQUENCE".data ∨ kw = "SET".data ∨ kw = "CHOICE".data ∨
      kw = "ENUMERATED".data := by simpa [kwList] using hkw
  rcases this with rfl | rfl | rfl | rfl <;> decide

/-- A word run followed by ` ::= `, a type token, and a separator-shaped
continuation never matches step 2: the keyword scan fails. -/
theorem matchStep2_primseam (N ty U : List Char)
    (hN : ∀ c ∈ N, wordChar c = true)
    (hty : tokenOk ty = true) (hU : SepShape U) :
    matchStep2 (N ++ ' ' :: ':' :: ':' :: '=' :: ' ' :: (ty ++ U)) = none := by
  by_cases hN0 : N = []
  · subst hN0
    rw [List.nil_append]
    exact matchStep2_none_head ' ' _ (by decide)
  · have htyne : ty ≠ [] := tokenOk_ne_nil hty
    have hw : (N ++ ' ' :: ':' :: ':' :: '=' :: ' ' :: (ty ++ U)).takeWhile wordChar
        = N := by
      rw [takeWhile_append_all _ _ _ hN,
        takeWhile_eq_nil_of_head wordChar
          (' ' :: ':' :: ':' :: '=' :: ' ' :: (ty ++ U)) ' ' rfl (by decide),
        List.append_nil]
    have hr : (N ++ ' ' :: ':' :: ':' :: '=' :: ' ' :: (ty ++ U)).dropWhile wordChar
        = ' ' :: ':' :: ':' :: '=' :: ' ' :: (ty ++ U) := by
      rw [dropWhile_append_all _ _ _ hN]
      exact dropWhile_eq_self_of_head wordChar _ ' ' rfl (by decide)
    obtain ⟨b, hb⟩ : ∃ b, ty.head? = some b := by
      cases ty with
      | nil => exact absurd rfl htyne
      | cons x xs => exact ⟨x, rfl⟩
    have hbw : wordChar b = true :=
      tokenOk_mem hty b (List.mem_of_mem_head? (Option.mem_def.mpr hb))
    have htyU : (ty ++ U).head? = some b := by
      rw [List.head?_append_of_ne_nil _ htyne]; exact hb
    have h5 : (' ' :: ':' :: ':' :: '=' :: ' ' :: (ty ++ U)).takeWhile jsSpace
        = [' '] := by
      rw [List.takeWhile_cons, if_pos (by decide),
        takeWhile_eq_nil_of_head jsSpace
          (':' :: ':' :: '=' :: ' ' :: (ty ++ U)) ':' rfl (by decide)]
    have h6 : (' ' :: ':' :: ':' :: '=' :: ' ' :: (ty ++ U)).dropWhile jsSpace
        = ':' :: ':' :: '=' :: ' ' :: (ty ++ U) := by
      rw [List.dropWhile_cons, if_pos (by decide)]
      exact dropWhile_eq_self_of_head jsSpace _ ':' rfl (by decide)
    have h7 : (' ' :: (ty ++ U)).dropWhile jsSpace = ty ++ U := by
      rw [List.dropWhile_cons, if_pos (by decide)]
      exact dropWhile_eq_self_of_head jsSpace _ b htyU (wordChar_not_space b hbw)
    have htk := tryKw_none ty U hty hU
    simp only [matchStep2, hw, hr, h5, h6, h7, htk]
    rw [if_neg hN0]

/-- The keyword scan succeeds exactly on the keyword heading a structured
body. -/
theorem tryKw_at_kw (kw : StKw) (r : List Char) :
    tryKw kwList (kwChars kw ++ ' ' :: '{' :: r)
      = some ((kwChars kw).length + 2) := by
  cases kw <;> rfl

/-- Step 2 matches the header of a structured definition, up to and
including the opening brace. -/
theorem matchStep2_strseam (n r : List Char) (kw : StKw)
    (hn : tokenOk n = true) :
    matchStep2 (n ++ ' ' :: ':' :: ':' :: '=' :: ' ' ::
        (kwChars kw ++ ' ' :: '{' :: r))
      = some (n.length + (kwChars kw).length + 7) := by
  have hn0 : n ≠ [] := tokenOk_ne_nil hn
  have hnw := tokenOk_mem hn
  have hkne : kwChars kw ≠ [] := (kwChars_ok kw).1
  have hkw := (kwChars_ok kw).2
  obtain ⟨b, hb⟩ : ∃ b, (kwChars kw).head? = some b := by
    cases hkc : kwChars kw with
    | nil => exact absurd hkc hkne
    | cons x xs => exact ⟨x, by simp [hkc]⟩
  have hbw : wordChar b = true :=
    hkw b (List.mem_of_mem_head? (Option.mem_def.mpr hb))
  have hkU : (kwChars kw ++ ' ' :: '{' :: r).head? = some b := by
    rw [List.head?_append_of_ne_nil _ hkne]; exact hb
  have hw : (n ++ ' ' :: ':' :: ':' :: '=' :: ' ' ::
      (kwChars kw ++ ' ' :: '{' :: r)).takeWhile wordChar = n := by
    rw [takeWhile_append_all _ _ _ hnw,
      takeWhile_eq_nil_of_head wordChar
        (' ' :: ':' :: ':' :: '=' :: ' ' :: (kwChars kw ++ ' ' :: '{' :: r))
        ' ' rfl (by decide),
      List.append_nil]
  have hr : (n ++ ' ' :: ':' :: ':' :: '=' :: ' ' ::
      (kwChars kw ++ ' ' :: '{' :: r)).dropWhile wordChar
      = ' ' :: ':' :: ':' :: '=' :: ' ' :: (kwChars kw ++ ' ' :: '{' :: r) := by
    rw [dropWhile_append_all _ _ _ hnw]
    exact dropWhile_eq_self_of_head wordChar _ ' ' rfl (by decide)
  have h5 : (' ' :: ':' :: ':' :: '=' :: ' ' ::
      (kwChars kw ++ ' ' :: '{' :: r)).takeWhile jsSpace = [' '] := by
    rw [List.takeWhile_cons, if_pos (by decide),
      takeWhile_eq_nil_of_head jsSpace
        (':' :: ':' :: '=' :: ' ' :: (kwChars kw ++ ' ' :: '{' :: r))
        ':' rfl (by decide)]
  have h6 : (' ' :: ':' :: ':' :: '=' :: ' ' ::
      (kwChars kw ++ ' ' :: '{' :: r)).dropWhile jsSpace
      = ':' :: ':' :: '=' :: ' ' :: (kwChars kw ++ ' ' :: '{' :: r) := by
    rw [List.dropWhile_cons, if_pos (by decide)]
    exact dropWhile_eq_self_of_head jsSpace _ ':' rfl (by decide)
  have h8 : (' ' :: (kwChars kw ++ ' ' :: '{' :: r)).takeWhile jsSpace
      = [' '] := by
    rw [List.takeWhile_cons, if_pos (by decide),
      takeWhile_eq_nil_of_head jsSpace _ b hkU (wordChar_not_space b hbw)]
  have h9 : (' ' :: (kwChars kw ++ ' ' :: '{' :: r)).dropWhile jsSpace
      = kwChars kw ++ ' ' :: '{' :: r := by
    rw [List.dropWhile_cons, if_pos (by decide)]
    exact dropWhile_eq_self_of_head jsSpace _ b hkU (wordChar_not_space b hbw)
  have htk := tryKw_at_kw kw r
  simp only [matchStep2, hw, hr, h5, h6, h8, h9, htk]
  rw [if_neg hn0]
  simp only [List.length_cons, List.length_nil, List.length_singleton]
  congr 1
  omega

/-- Computation rule of the match collector on a cons cell. -/
theorem findMatchesGo_cons (f : Nat) (c : Char) (rest : List Char)
    (pos : Nat) :
    findMatchesGo (f + 1) (c :: rest) pos =
      (match matchStep2 (c :: rest) with
       | some len =>
           (pos, len) :: findMatchesGo f ((c :: rest).drop len) (pos + len)
       | none => findMatchesGo f rest (pos + 1)) := rfl

/-- The match collector on the empty text. -/
theorem findMatchesGo_empty (fuel pos : Nat) :
    findMatchesGo fuel [] pos = [] := by
  cases fuel <;> rfl

/-- The match collector crawls over a span at whose suffixes step 2 never
matches. -/
theorem findMatchesGo_crawl : ∀ (A T : List Char) (fuel pos : Nat),
    (∀ i, i < A.length → matchStep2 (A.drop i ++ T) = none) →
    A.length ≤ fuel →
    findMatchesGo fuel (A ++ T) pos
      = findMatchesGo (fuel - A.length) T (pos + A.length) := by
  intro A
  induction A with
  | nil => intro T fuel pos _ _; simp
  | cons a A' ih =>
      intro T fuel pos hnone hlen
      cases fuel with
      | zero => simp at hlen
      | succ f =>
          rw [List.cons_append, findMatchesGo_cons]
          have h0 := hnone 0 (by simp)
          rw [List.drop_zero, List.cons_append] at h0
          rw [h0]
          have := ih T f (pos + 1)
            (fun i hi => by
              have := hnone (i + 1) (by simpa using Nat.succ_lt_succ hi)
              simpa using this)
            (by simpa using hlen)
          rw [this]
          simp only [List.length_cons]
          congr 1
          · omega
          · omega

/-- The match collector takes a successful match and continues after it. -/
theorem findMatchesGo_match (fuel : Nat) (s : List Char) (pos len : Nat)
    (hs : s ≠ []) (hf : 1 ≤ fuel) (hm : matchStep2 s = some len) :
    findMatchesGo fuel s pos
      = (pos, len) :: findMatchesGo (fuel - 1) (s.drop len) (pos + len) := by
  cases s with
  | nil => exact absurd rfl hs
  | cons c rest =>
      cases fuel with
      | zero => omega
      | succ f =>
          rw [findMatchesGo_cons, hm]
          rfl

/-- The head of a non-empty rendered field is a word character. -/
theorem renderField_head (ts : List (List Char)) (hne : ts ≠ [])
    (hall : ∀ t ∈ ts, tokenOk t = true) :
    ∃ c, (renderField ts).head? = some c ∧ wordChar c = true := by
  cases ts with
  | nil => exact absurd rfl hne
  | cons t rest =>
      have ht : tokenOk t = true := hall t (List.mem_cons_self _ _)
      have htne : t ≠ [] := tokenOk_ne_nil ht
      obtain ⟨c, hc⟩ : ∃ c, t.head? = some c := by
        cases t with
        | nil => exact absurd rfl htne
        | cons x xs => exact ⟨x, rfl⟩
      refine ⟨c, ?_,
        tokenOk_mem ht c (List.mem_of_mem_head? (Option.mem_def.mpr hc))⟩
      cases rest with
      | nil => exact hc
      | cons u rest' =>
          show (t ++ ' ' :: renderField (u :: rest')).head? = some c
          rw [List.head?_append_of_ne_nil _ htne]
          exact hc

/-- A non-empty rendered field is non-empty text. -/
theorem renderField_ne_nil (ts : List (List Char)) (hne : ts ≠ [])
    (hall : ∀ t ∈ ts, tokenOk t = true) : renderField ts ≠ [] := by
  obtain ⟨c, hc, -⟩ := renderField_head ts hne hall
  intro h
  rw [h] at hc
  simp at hc

/-- The last character of a non-empty rendered field is a word character. -/
theorem renderField_getLast (ts : List (List Char)) (hne : ts ≠ [])
    (hall : ∀ t ∈ ts, tokenOk t = true) :
    ∃ c, (renderField ts).getLast? = some c ∧ wordChar c = true := by
  induction ts with
  | nil => exact absurd rfl hne
  | cons t rest ih =>
      cases rest with
      | nil =>
          have ht : tokenOk t = true := hall t (List.mem_cons_self _ _)
          have htne : t ≠ [] := tokenOk_ne_nil ht
          exact ⟨t.getLast htne, List.getLast?_eq_getLast t htne,
            tokenOk_mem ht _ (List.getLast_mem htne)⟩
      | cons u rest' =>
          have hall' : ∀ x ∈ u :: rest', tokenOk x = true :=
            fun x hx => hall x (List.mem_cons_of_mem _ hx)
          obtain ⟨c, hc, hcw⟩ := ih (by simp) hall'
          refine ⟨c, ?_, hcw⟩
          have hRFne : renderField (u :: rest') ≠ [] :=
            renderField_ne_nil _ (by simp) hall'
          show (t ++ ' ' :: renderField (u :: rest')).getLast? = some c
          rw [List.getLast?_append_of_ne_nil _ (by simp)]
          show ([' '] ++ renderField (u :: rest')).getLast? = some c
          rw [List.getLast?_append_of_ne_nil _ hRFne]
          exact hc

/-- Every character of a rendered field is a word character or a space. -/
theorem renderField_mem (ts : List (List Char))
    (hall : ∀ t ∈ ts, tokenOk t = true) :
    ∀ c ∈ renderField ts, wordChar c = true ∨ c = ' ' := by
  induction ts with
  | nil => intro c hc; simp [renderField] at hc
  | cons t rest ih =>
      intro c hc
      cases rest with
      | nil =>
          exact Or.inl (tokenOk_mem (hall t (List.mem_cons_self _ _)) c hc)
      | cons u rest' =>
          have hc' : c ∈ t ++ ' ' :: renderField (u :: rest') := hc
          rcases List.mem_append.mp hc' with h1 | h1
          · exact Or.inl (tokenOk_mem (hall t (List.mem_cons_self _ _)) c h1)
          · rcases List.mem_cons.mp h1 with rfl | h2
            · exact Or.inr rfl
            · exact ih (fun x hx => hall x (List.mem_cons_of_mem _ hx)) c h2

/-- No-match conditions compose over concatenation. -/
theorem noMatch_append (A1 A2 T : List Char)
    (h1 : ∀ i, i < A1.length → matchStep2 (A1.drop i ++ (A2 ++ T)) = none)
    (h2 : ∀ i, i < A2.length → matchStep2 (A2.drop i ++ T) = none) :
    ∀ i, i < (A1 ++ A2).length →
      matchStep2 ((A1 ++ A2).drop i ++ T) = none := by
  intro i hi
  rw [List.drop_append_eq_append_drop]
  rcases Nat.lt_or_ge i A1.length with h | h
  · rw [show i - A1.length = 0 by omega, List.drop_zero, List.append_assoc]
    exact h1 i h
  · rw [List.drop_eq_nil_of_le (by omega), List.nil_append]
    apply h2
    rw [List.length_append] at hi
    omega

/-- A word token whose continuation does not lead to `::=` has no matching
suffix. -/
theorem noMatch_token (t s : List Char) (ht : ∀ c ∈ t, wordChar c = true)
    (hs : ∀ c, s.head? = some c → wordChar c = false)
    (hcol : ∀ c, (s.dropWhile jsSpace).head? = some c → c ≠ ':') :
    ∀ i, i < t.length → matchStep2 (t.drop i ++ s) = none := by
  intro i _
  exact matchStep2_none_noColon (t.drop i) s
    (fun c hc => ht c (List.mem_of_mem_drop hc)) hs hcol

/-- A single non-word character has no matching suffix. -/
theorem noMatch_single (c : Char) (s : List Char) (hc : wordChar c = false) :
    ∀ i, i < ([c] : List Char).length →
      matchStep2 (([c] : List Char).drop i ++ s) = none := by
  intro i hi
  have hz : i = 0 := by simpa using hi
  subst hz
  exact matchStep2_none_head c s hc

/-- A rendered field whose continuation does not lead to `::=` has no
matching suffix. -/
theorem noMatch_renderField : ∀ (ts : List (List Char)) (s : List Char),
    (∀ t ∈ ts, tokenOk t = true) →
    (∀ c, s.head? = some c → wordChar c = false) →
    (∀ c, (s.dropWhile jsSpace).head? = some c → c ≠ ':') →
    ∀ i, i < (renderField ts).length →
      matchStep2 ((renderField ts).drop i ++ s) = none := by
  intro ts
  induction ts with
  | nil => intro s _ _ _ i hi; simp [renderField] at hi
  | cons t rest ih =>
      intro s hall hs hcol
      cases rest with
      | nil =>
          exact noMatch_token t s
            (tokenOk_mem (hall t (List.mem_cons_self _ _))) hs hcol
      | cons u rest' =>
          have hall' : ∀ x ∈ u :: rest', tokenOk x = true :=
            fun x hx => hall x (List.mem_cons_of_mem _ hx)
          have hRFne : renderField (u :: rest') ≠ [] :=
            renderField_ne_nil _ (by simp) hall'
          obtain ⟨b, hb, hbw⟩ := renderField_head (u :: rest') (by simp) hall'
          have hs1 : ∀ c,
              (' ' :: (renderField (u :: rest') ++ s)).head? = some c →
              wordChar c = false := by
            intro c hc
            simp only [List.head?_cons, Option.some.injEq] at hc
            subst hc; decide
          have hcol1 : ∀ c,
              ((' ' :: (renderField (u :: rest') ++ s)).dropWhile
                jsSpace).head? = some c → c ≠ ':' := by
            intro c hc
            rw [List.dropWhile_cons, if_pos (by decide)] at hc
            have hhead : (renderField (u :: rest') ++ s).head? = some b := by
              rw [List.head?_append_of_ne_nil _ hRFne]; exact hb
            rw [dropWhile_eq_self_of_head jsSpace _ b hhead
              (wordChar_not_space b hbw), hhead, Option.some.injEq] at hc
            subst hc
            intro h
            rw [h] at hbw
            exact absurd hbw (by decide)
          show ∀ i, i < ((t ++ (' ' :: renderField (u :: rest')))).length →
            matchStep2 ((t ++ (' ' :: renderField (u :: rest'))).drop i ++ s)
              = none
          apply noMatch_append
          · exact noMatch_token t (' ' :: (renderField (u :: rest') ++ s))
              (tokenOk_mem (hall t (List.mem_cons_self _ _))) hs1 hcol1
          · show ∀ i, i < (([' '] ++ renderField (u :: rest'))).length →
              matchStep2 ((([' '] ++ renderField (u :: rest'))).drop i ++ s)
                = none
            apply noMatch_append
            · intro i hi
              have hz : i = 0 := by simpa using hi
              subst hz
              exact matchStep2_none_head ' ' _ (by decide)
            · exact ih s hall' hs hcol

/-- A rendered field line whose continuation does not lead to `::=` has no
matching suffix. -/
theorem noMatch_renderFieldLine (f : Nat × List (List Char))
    (hf : fieldOk f = true) (s : List Char)
    (hs : ∀ c, s.head? = some c → wordChar c = false)
    (hcol : ∀ c, (s.dropWhile jsSpace).head? = some c → c ≠ ':') :
    ∀ i, i < (renderFieldLine f).length →
      matchStep2 ((renderFieldLine f).drop i ++ s) = none := by
  have hall : ∀ t ∈ f.2, tokenOk t = true := by
    simp only [fieldOk, Bool.and_eq_true, List.all_eq_true] at hf
    exact hf.2
  show ∀ i, i < ((List.replicate f.1 ' ' ++ renderField f.2)).length →
    matchStep2 ((List.replicate f.1 ' ' ++ renderField f.2).drop i ++ s)
      = none
  apply noMatch_append
  · intro i hi
    rw [List.length_replicate] at hi
    have hdr : (List.replicate f.1 ' ').drop i
        = List.replicate (f.1 - i) ' ' := by simp [List.drop_replicate]
    rw [hdr, show f.1 - i = (f.1 - i - 1) + 1 by omega, List.replicate_succ,
      List.cons_append]
    exact matchStep2_none_head ' ' _ (by decide)
  · exact noMatch_renderField f.2 s hall hs hcol

/-- A rendered body whose continuation does not lead to `::=` has no
matching suffix. -/
theorem noMatch_renderBody : ∀ (fs : List (Nat × List (List Char)))
    (s : List Char),
    (∀ f ∈ fs, fieldOk f = true) →
    (∀ c, s.head? = some c → wordChar c = false) →
    (∀ c, (s.dropWhile jsSpace).head? = some c → c ≠ ':') →
    ∀ i, i < (renderBody fs).length →
      matchStep2 ((renderBody fs).drop i ++ s) = none := by
  intro fs
  induction fs with
  | nil => intro s _ _ _ i hi; simp [renderBody] at hi
  | cons f rest ih =>
      intro s hall hs hcol
      cases rest with
      | nil =>
          exact noMatch_renderFieldLine f (hall f (List.mem_cons_self _ _))
            s hs hcol
      | cons g rest' =>
          have hall' : ∀ x ∈ g :: rest', fieldOk x = true :=
            fun x hx => hall x (List.mem_cons_of_mem _ hx)
          have hs1 : ∀ c,
              (',' :: ('\n' :: (renderBody (g :: rest') ++ s))).head? = some c →
              wordChar c = false := by
            intro c hc
            simp only [List.head?_cons, Option.some.injEq] at hc
            subst hc; decide
          have hcol1 : ∀ c,
              ((',' :: ('\n' :: (renderBody (g :: rest') ++ s))).dropWhile
                jsSpace).head? = some c → c ≠ ':' := by
            intro c hc
            rw [List.dropWhile_cons, if_neg (by decide)] at hc
            simp only [List.head?_cons, Option.some.injEq] at hc
            subst hc; decide
          show ∀ i,
            i < ((renderFieldLine f ++ (',' :: '\n' :: renderBody (g :: rest')))).length →
            matchStep2
              ((renderFieldLine f ++ (',' :: '\n' :: renderBody (g :: rest'))).drop i
                ++ s) = none
          apply noMatch_append
          · exact noMatch_renderFieldLine f (hall f (List.mem_cons_self _ _))
              (',' :: ('\n' :: (renderBody (g :: rest') ++ s))) hs1 hcol1
          · show ∀ i,
              i < (([','] ++ ('\n' :: renderBody (g :: rest')))).length →
              matchStep2
                ((([','] ++ ('\n' :: renderBody (g :: rest')))).drop i ++ s)
                  = none
            apply noMatch_append
            · intro i hi
              have hz : i = 0 := by simpa using hi
              subst hz
              exact matchStep2_none_head ',' _ (by decide)
            · show ∀ i,
                i < ((['\n'] ++ renderBody (g :: rest'))).length →
                matchStep2
                  ((((['\n'] ++ renderBody (g :: rest')))).drop i ++ s) = none
              apply noMatch_append
              · intro i hi
                have hz : i = 0 := by simpa using hi
                subst hz
                exact matchStep2_none_head '\n' _ (by decide)
              · exact ih s hall' hs hcol

/-- A separator-shaped continuation never leads with a colon. -/
theorem sepShape_noColon (U : List Char) (hU : SepShape U) :
    ∀ c, (U.dropWhile jsSpace).head? = some c → c ≠ ':' := by
  intro c hc h
  have hw := sepShape_dropWhile U hU c hc
  rw [h] at hw
  exact absurd hw (by decide)

/-- A run of copies of a non-word character has no matching suffix. -/
theorem noMatch_replicate (c : Char) (hc : wordChar c = false) (m : Nat)
    (s : List Char) :
    ∀ i, i < (List.replicate m c).length →
      matchStep2 ((List.replicate m c).drop i ++ s) = none := by
  intro i hi
  rw [List.length_replicate] at hi
  have hdr : (List.replicate m c).drop i = List.replicate (m - i) c := by
    simp [List.drop_replicate]
  rw [hdr, show m - i = (m - i - 1) + 1 by omega, List.replicate_succ,
    List.cons_append]
  exact matchStep2_none_head c _ hc

/-- A rendered primitive definition followed by a separator-shaped
continuation has no matching suffix. -/
theorem noMatch_renderDef_prim (n ty : List Char)
    (h : defOk (.prim n ty) = true) (U : List Char) (hU : SepShape U) :
    ∀ i, i < (renderDef (.prim n ty)).length →
      matchStep2 ((renderDef (.prim n ty)).drop i ++ U) = none := by
  obtain ⟨hn, hty⟩ := defOk_prim h
  show ∀ i, i < ((n ++ ([' ', ':', ':', '=', ' '] ++ ty))).length →
    matchStep2 ((n ++ ([' ', ':', ':', '=', ' '] ++ ty)).drop i ++ U) = none
  apply noMatch_append
  · intro i hi
    have hsh : n.drop i ++ (([' ', ':', ':', '=', ' '] ++ ty) ++ U)
        = n.drop i ++ ' ' :: ':' :: ':' :: '=' :: ' ' :: (ty ++ U) := by
      simp [List.append_assoc]
    rw [hsh]
    exact matchStep2_primseam (n.drop i) ty U
      (fun c hc => tokenOk_mem hn c (List.mem_of_mem_drop hc)) hty hU
  · show ∀ i, i < (([' ', ':', ':', '=', ' '] ++ ty)).length →
      matchStep2 (([' ', ':', ':', '=', ' '] ++ ty).drop i ++ U) = none
    apply noMatch_append
    · intro i hi
      simp only [List.length_cons, List.length_nil] at hi
      interval_cases i <;> exact matchStep2_none_head _ _ (by decide)
    · exact noMatch_token ty U (tokenOk_mem hty) (sepShape_head U hU)
        (sepShape_noColon U hU)

/-- The body of a structured definition after its opening brace, followed
by a separator-shaped continuation, has no matching suffix. -/
theorem noMatch_strBody (fs : List (Nat × List (List Char)))
    (hfs : ∀ f ∈ fs, fieldOk f = true) (U : List Char) (hU : SepShape U) :
    ∀ i, i < ('\n' :: (renderBody fs ++ ['\n', '\x7d'])).length →
      matchStep2 (('\n' :: (renderBody fs ++ ['\n', '\x7d'])).drop i ++ U)
        = none := by
  have hs2 : ∀ c, (('\n' :: ('\x7d' :: U)) : List Char).head? = some c →
      wordChar c = false := by
    intro c hc
    simp only [List.head?_cons, Option.some.injEq] at hc
    subst hc; decide
  have hcol2 : ∀ c,
      ((('\n' :: ('\x7d' :: U)) : List Char).dropWhile jsSpace).head? = some c →
      c ≠ ':' := by
    intro c hc
    rw [List.dropWhile_cons, if_pos (by decide), List.dropWhile_cons,
      if_neg (by decide)] at hc
    simp only [List.head?_cons, Option.some.injEq] at hc
    subst hc; decide
  show ∀ i, i < ((['\n'] ++ (renderBody fs ++ ['\n', '\x7d']))).length →
    matchStep2 (((['\n'] ++ (renderBody fs ++ ['\n', '\x7d']))).drop i ++ U)
      = none
  apply noMatch_append
  · intro i hi
    have hz : i = 0 := by simpa using hi
    subst hz
    exact matchStep2_none_head '\n' _ (by decide)
  · apply noMatch_append
    · exact noMatch_renderBody fs ('\n' :: ('\x7d' :: U)) hfs hs2 hcol2
    · intro i hi
      simp only [List.length_cons, List.length_nil] at hi
      interval_cases i <;> exact matchStep2_none_head _ _ (by decide)

/-- The head character of a rendered definition with any continuation. -/
theorem renderDef_head_ex (d : WfDef) (hd : defOk d = true) (X : List Char) :
    ∃ c, (renderDef d ++ X).head? = some c ∧ wordChar c = true := by
  have hne := renderDef_ne_nil hd
  obtain ⟨c, hc⟩ : ∃ c, (renderDef d).head? = some c := by
    cases h : renderDef d with
    | nil => exact absurd h hne
    | cons x xs => exact ⟨x, by simp [h]⟩
  exact ⟨c, by rw [List.head?_append_of_ne_nil _ hne]; exact hc,
    renderDef_head hd c hc⟩

/-- A separator newline run followed by a rendered definition is
separator-shaped. -/
theorem sepShape_stream (k : Nat) (hk : 1 ≤ k) (d : WfDef)
    (hd : defOk d = true) (X : List Char) :
    SepShape (List.replicate k '\n' ++ (renderDef d ++ X)) := by
  obtain ⟨c, hc, hw⟩ := renderDef_head_ex d hd X
  exact Or.inr ⟨k - 1, renderDef d ++ X, by rw [show k - 1 + 1 = k by omega],
    Or.inr ⟨c, hc, hw⟩⟩

/-- Length of a structured definition's text in terms of its match. -/
theorem renderDef_str_length (n : List Char) (kw : StKw)
    (fs : List (Nat × List (List Char))) :
    (renderDef (.str n kw fs)).length
      = matchLen (.str n kw fs) + ((renderBody fs).length + 3) := by
  simp [renderDef, matchLen, List.length_append]
  omega

/-- Splitting a structured definition's text at its opening brace. -/
theorem renderDef_str_drop (n : List Char) (kw : StKw)
    (fs : List (Nat × List (List Char))) (T : List Char) :
    (renderDef (.str n kw fs) ++ T).drop (matchLen (.str n kw fs))
      = ('\n' :: (renderBody fs ++ ['\n', '\x7d'])) ++ T := by
  have hsh : renderDef (.str n kw fs) ++ T
      = (n ++ ' ' :: ':' :: ':' :: '=' :: ' ' :: (kwChars kw ++ [' ', '\x7b']))
          ++ (('\n' :: (renderBody fs ++ ['\n', '\x7d'])) ++ T) := by
    simp [renderDef, List.append_assoc]
  rw [hsh]
  have hlen : (n ++ ' ' :: ':' :: ':' :: '=' :: ' ' ::
      (kwChars kw ++ [' ', '\x7b'])).length = matchLen (.str n kw fs) := by
    simp [matchLen, List.length_append]
    omega
  rw [← hlen, List.drop_left]

/-- Step 2 matches a structured definition at the head of its text, with
any continuation. -/
theorem matchStep2_renderDef_str (n : List Char) (kw : StKw)
    (fs : List (Nat × List (List Char))) (T : List Char)
    (hn : tokenOk n = true) :
    matchStep2 (renderDef (.str n kw fs) ++ T)
      = some (matchLen (.str n kw fs)) := by
  have hsh : renderDef (.str n kw fs) ++ T
      = n ++ ' ' :: ':' :: ':' :: '=' :: ' ' ::
          (kwChars kw ++ ' ' :: '\x7b' ::
            (('\n' :: (renderBody fs ++ ['\n', '\x7d'])) ++ T)) := by
    simp [renderDef, List.append_assoc]
  rw [hsh]
  exact matchStep2_strseam n _ kw hn

/-- Stage M3 main induction: the matches the step-2 scan collects along a
rendered stream are exactly one per structured definition. -/
theorem findMatchesGo_stream : ∀ (rest : List (Nat × WfDef)) (d : WfDef)
    (pos fuel : Nat),
    defOk d = true →
    (∀ p ∈ rest, 1 ≤ p.1 ∧ defOk p.2 = true) →
    (renderDef d ++ tailSep3 (isStr d) rest).length ≤ fuel →
    findMatchesGo fuel (renderDef d ++ tailSep3 (isStr d) rest) pos
      = expMatches pos d rest := by
  intro rest
  induction rest with
  | nil =>
      intro d pos fuel hd _ hfuel
      simp only [tailSep3, List.append_nil] at hfuel ⊢
      cases d with
      | prim n ty =>
          have hnone := noMatch_renderDef_prim n ty hd [] (Or.inl rfl)
          have hcrawl := findMatchesGo_crawl (renderDef (.prim n ty)) []
            fuel pos (fun i hi => by simpa using hnone i hi)
            (by simpa using hfuel)
          rw [List.append_nil] at hcrawl
          rw [hcrawl, findMatchesGo_empty]
          simp [expMatches, isStr]
      | str n kw fs =>
          have hone : (1 : Nat) ≤ fuel := by
            have h1 := List.length_pos.mpr (renderDef_ne_nil hd)
            omega
          have hm : matchStep2 (renderDef (.str n kw fs))
              = some (matchLen (.str n kw fs)) := by
            have := matchStep2_renderDef_str n kw fs [] (defOk_str hd).1
            simpa using this
          rw [findMatchesGo_match fuel _ pos _ (renderDef_ne_nil hd) hone hm]
          have hdrop : (renderDef (.str n kw fs)).drop (matchLen (.str n kw fs))
              = '\n' :: (renderBody fs ++ ['\n', '\x7d']) := by
            have := renderDef_str_drop n kw fs []
            simpa using this
          rw [hdrop]
          have hnone := noMatch_strBody fs (defOk_str hd).2.2 [] (Or.inl rfl)
          have hlrd := renderDef_str_length n kw fs
          have hml : 7 ≤ matchLen (.str n kw fs) := by
            simp only [matchLen]; omega
          have hA : ('\n' :: (renderBody fs ++ ['\n', '\x7d'])).length
              ≤ fuel - 1 := by
            have hfuel' := hfuel
            simp [List.length_append] at hfuel' hlrd ⊢
            omega
          have hcrawl := findMatchesGo_crawl
            ('\n' :: (renderBody fs ++ ['\n', '\x7d'])) [] (fuel - 1)
            (pos + matchLen (.str n kw fs))
            (fun i hi => by simpa using hnone i hi) hA
          rw [List.append_nil] at hcrawl
          rw [hcrawl, findMatchesGo_empty]
          simp [expMatches, isStr]
  | cons p rest' ih =>
      obtain ⟨k, d'⟩ := p
      intro d pos fuel hd hrest hfuel
      have hk : 1 ≤ k := (hrest (k, d') (List.mem_cons_self _ _)).1
      have hd' : defOk d' = true := (hrest (k, d') (List.mem_cons_self _ _)).2
      have hrest' : ∀ q ∈ rest', 1 ≤ q.1 ∧ defOk q.2 = true :=
        fun q hq => hrest q (List.mem_cons_of_mem _ hq)
      cases d with
      | prim n ty =>
          have hstream : renderDef (.prim n ty)
                ++ tailSep3 (isStr (.prim n ty)) ((k, d') :: rest')
              = (renderDef (.prim n ty) ++ List.replicate k '\n')
                  ++ (renderDef d' ++ tailSep3 (isStr d') rest') := by
            simp [tailSep3, isStr, List.append_assoc]
          rw [hstream] at hfuel ⊢
          have hsep : SepShape (List.replicate k '\n'
              ++ (renderDef d' ++ tailSep3 (isStr d') rest')) :=
            sepShape_stream k hk d' hd' _
          have hnone := noMatch_append (renderDef (.prim n ty))
            (List.replicate k '\n') (renderDef d' ++ tailSep3 (isStr d') rest')
            (fun i hi => noMatch_renderDef_prim n ty hd _ hsep i hi)
            (noMatch_replicate '\n' (by decide) k _)
          have hlenA : (renderDef (.prim n ty) ++ List.replicate k '\n').length
              ≤ fuel := by
            have hfuel' := hfuel
            simp [List.length_append] at hfuel' ⊢
            omega
          rw [findMatchesGo_crawl _ _ fuel pos hnone hlenA]
          rw [ih d' _ _ hd' hrest'
            (by
              have hfuel' := hfuel
              simp [List.length_append] at hfuel' ⊢
              omega)]
          have harg : pos
                + (renderDef (.prim n ty) ++ List.replicate k '\n').length
              = pos + (renderDef (.prim n ty)).length + k := by
            simp [List.length_append]
            omega
          rw [harg]
          simp [expMatches, isStr, sepAfter]
      | str n kw fs =>
          have hlrd := renderDef_str_length n kw fs
          have hml : 7 ≤ matchLen (.str n kw fs) := by
            simp only [matchLen]; omega
          have hone : (1 : Nat) ≤ fuel := by
            have h1 := List.length_pos.mpr (renderDef_ne_nil hd)
            simp only [List.length_append] at hfuel
            omega
          have hstream : renderDef (.str n kw fs)
                ++ tailSep3 (isStr (.str n kw fs)) ((k, d') :: rest')
              = renderDef (.str n kw fs)
                  ++ (List.replicate 3 '\n'
                    ++ (renderDef d' ++ tailSep3 (isStr d') rest')) := by
            simp [tailSep3, isStr, List.append_assoc]
          rw [hstream] at hfuel ⊢
          have hm := matchStep2_renderDef_str n kw fs
            (List.replicate 3 '\n' ++ (renderDef d' ++ tailSep3 (isStr d') rest'))
            (defOk_str hd).1
          have hne : renderDef (.str n kw fs)
              ++ (List.replicate 3 '\n'
                ++ (renderDef d' ++ tailSep3 (isStr d') rest')) ≠ [] := by
            intro hemp
            exact renderDef_ne_nil hd (List.append_eq_nil.mp hemp).1
          rw [findMatchesGo_match fuel _ pos _ hne hone hm]
          rw [renderDef_str_drop n kw fs _]
          have hsep : SepShape (List.replicate 3 '\n'
              ++ (renderDef d' ++ tailSep3 (isStr d') rest')) :=
            sepShape_stream 3 (by omega) d' hd' _
          have hnone := noMatch_append
            ('\n' :: (renderBody fs ++ ['\n', '\x7d']))
            (List.replicate 3 '\n')
            (renderDef d' ++ tailSep3 (isStr d') rest')
            (fun i hi => noMatch_strBody fs (defOk_str hd).2.2 _ hsep i hi)
            (noMatch_replicate '\n' (by decide) 3 _)
          have hAshape : ('\n' :: (renderBody fs ++ ['\n', '\x7d']))
                ++ (List.replicate 3 '\n'
                  ++ (renderDef d' ++ tailSep3 (isStr d') rest'))
              = (('\n' :: (renderBody fs ++ ['\n', '\x7d']))
                  ++ List.replicate 3 '\n')
                ++ (renderDef d' ++ tailSep3 (isStr d') rest') := by
            simp [List.append_assoc]
          rw [hAshape]
          have hlenA : (('\n' :: (renderBody fs ++ ['\n', '\x7d']))
              ++ List.replicate 3 '\n').length ≤ fuel - 1 := by
            have hfuel' := hfuel
            have hlrd' := hlrd
            simp [List.length_append] at hfuel' hlrd' ⊢
            omega
          have hnone' : ∀ i,
              i < (('\n' :: (renderBody fs ++ ['\n', '\x7d']))
                ++ List.replicate 3 '\n').length →
              matchStep2
                ((('\n' :: (renderBody fs ++ ['\n', '\x7d']))
                  ++ List.replicate 3 '\n').drop i
                  ++ (renderDef d' ++ tailSep3 (isStr d') rest')) = none := by
            intro i hi
            have := hnone i (by simpa using hi)
            simpa [List.append_assoc] using this
          rw [findMatchesGo_crawl _ _ (fuel - 1)
            (pos + matchLen (.str n kw fs)) hnone' hlenA]
          rw [ih d' _ _ hd' hrest'
            (by
              have hfuel' := hfuel
              have hlrd' := hlrd
              simp [List.length_append] at hfuel' hlrd' ⊢
              omega)]
          have harg : pos + matchLen (.str n kw fs)
                + (('\n' :: (renderBody fs ++ ['\n', '\x7d']))
                  ++ List.replicate 3 '\n').length
              = pos + (renderDef (.str n kw fs)).length + 3 := by
            have hlrd' := hlrd
            simp [List.length_append] at hlrd' ⊢
            omega
          rw [harg]
          simp [expMatches, isStr, sepAfter]

/-- Characters of a rendered body: word characters, spaces, commas and
newlines only. -/
theorem renderBody_mem : ∀ (fs : List (Nat × List (List Char))),
    (∀ f ∈ fs, fieldOk f = true) →
    ∀ c ∈ renderBody fs,
      wordChar c = true ∨ c = ' ' ∨ c = ',' ∨ c = '\n' := by
  intro fs
  induction fs with
  | nil => intro _ c hc; simp [renderBody] at hc
  | cons f rest ih =>
      intro hall c hc
      have hf : fieldOk f = true := hall f (List.mem_cons_self _ _)
      have hfall : ∀ t ∈ f.2, tokenOk t = true := by
        simp only [fieldOk, Bool.and_eq_true, List.all_eq_true] at hf
        exact hf.2
      have hline : ∀ x ∈ renderFieldLine f,
          wordChar x = true ∨ x = ' ' ∨ x = ',' ∨ x = '\n' := by
        intro x hx
        have hx' : x ∈ List.replicate f.1 ' ' ++ renderField f.2 := hx
        rcases List.mem_append.mp hx' with h1 | h1
        · exact Or.inr (Or.inl (List.eq_of_mem_replicate h1))
        · rcases renderField_mem f.2 hfall x h1 with h2 | h2
          · exact Or.inl h2
          · exact Or.inr (Or.inl h2)
      cases rest with
      | nil => exact hline c hc
      | cons g rest' =>
          have hc' : c ∈ renderFieldLine f
              ++ ',' :: '\n' :: renderBody (g :: rest') := hc
          rcases List.mem_append.mp hc' with h1 | h1
          · exact hline c h1
          · rcases List.mem_cons.mp h1 with rfl | h2
            · exact Or.inr (Or.inr (Or.inl rfl))
            · rcases List.mem_cons.mp h2 with rfl | h3
              · exact Or.inr (Or.inr (Or.inr rfl))
              · exact ih (fun x hx => hall x (List.mem_cons_of_mem _ hx)) c h3

/-- The brace scanner passes over brace- and quote-free text without
changing its depth or string state. -/
theorem findBraceGo_pass : ∀ (A B : List Char) (prev : Char) (i : Nat)
    (depth : Int),
    (∀ c ∈ A, c ≠ '\x7b' ∧ c ≠ '\x7d' ∧ c ≠ '"') →
    findBraceGo (A ++ B) prev i depth false
      = findBraceGo B (A.getLastD prev) (i + A.length) depth false := by
  intro A
  induction A with
  | nil => intro B prev i depth _; simp [List.getLastD]
  | cons a A' ih =>
      intro B prev i depth hA
      obtain ⟨h1, h2, h3⟩ := hA a (List.mem_cons_self _ _)
      have e1 : findBraceGo (a :: (A' ++ B)) prev i depth false
          = findBraceGo (A' ++ B) a (i + 1) depth false := by
        simp only [findBraceGo]
        rw [show (if a = '"' && prev ≠ '\\' then !false else false) = false from
          by simp [h3]]
        rw [if_neg (by simp), if_neg h1, if_neg h2]
      rw [List.cons_append, e1,
        ih B a (i + 1) depth (fun c hc => hA c (List.mem_cons_of_mem _ hc))]
      rw [List.getLastD_cons]
      simp only [List.length_cons]
      rw [show i + 1 + A'.length = i + (A'.length + 1) from by omega]

/-- The bracket matcher on an opening brace whose body is brace- and
quote-free finds the closing brace just after the body. -/
theorem findMatchingBrace_at (C body R : List Char)
    (hbody : ∀ c ∈ body, c ≠ '\x7b' ∧ c ≠ '\x7d' ∧ c ≠ '"') :
    findMatchingBrace (C ++ ('\x7b' :: (body ++ ('\x7d' :: R)))) C.length
      = some (C.length + body.length + 1) := by
  unfold findMatchingBrace
  rw [List.drop_left]
  have e1 : ∀ (prev : Char),
      findBraceGo ('\x7b' :: (body ++ ('\x7d' :: R))) prev C.length 0 false
        = findBraceGo (body ++ ('\x7d' :: R)) '\x7b' (C.length + 1) 1 false := by
    intro prev
    simp only [findBraceGo]
    rw [show (if '\x7b' = '"' && prev ≠ '\\' then !false else false) = false from
      by simp]
    rw [if_neg (by simp)]
    norm_num
  rw [e1]
  rw [findBraceGo_pass body ('\x7d' :: R) '\x7b' (C.length + 1) 1 hbody]
  have e2 : findBraceGo ('\x7d' :: R) (body.getLastD '\x7b')
      (C.length + 1 + body.length) 1 false
      = some (C.length + 1 + body.length) := by
    simp only [findBraceGo]
    rw [show (if '\x7d' = '"' && (body.getLastD '\x7b') ≠ '\\' then !false
        else false) = false from by simp]
    rw [if_neg (by simp)]
    norm_num
    intro h
    exact absurd h (by decide)
  rw [e2]
  congr 1
  omega

/-- The body between the braces of a structured definition is brace- and
quote-free. -/
theorem strInner_free (fs : List (Nat × List (List Char)))
    (hfs : ∀ f ∈ fs, fieldOk f = true) :
    ∀ c ∈ ('\n' :: (renderBody fs ++ ['\n'])),
      c ≠ '\x7b' ∧ c ≠ '\x7d' ∧ c ≠ '"' := by
  intro c hc
  rcases List.mem_cons.mp hc with rfl | h1
  · exact ⟨by decide, by decide, by decide⟩
  · rcases List.mem_append.mp h1 with h2 | h2
    · rcases renderBody_mem fs hfs c h2 with h3 | h3 | h3 | h3
      · refine ⟨?_, ?_, ?_⟩ <;> (intro h; rw [h] at h3; exact absurd h3 (by decide))
      · subst h3; exact ⟨by decide, by decide, by decide⟩
      · subst h3; exact ⟨by decide, by decide, by decide⟩
      · subst h3; exact ⟨by decide, by decide, by decide⟩
    · rw [List.mem_singleton.mp h2]
      exact ⟨by decide, by decide, by decide⟩

/-- The bracket matcher at the opening brace of a structured definition
embedded at a known offset finds the definition's final character. -/
theorem findMatchingBrace_str (C : List Char) (n : List Char) (kw : StKw)
    (fs : List (Nat × List (List Char))) (T : List Char)
    (hfs : ∀ f ∈ fs, fieldOk f = true) :
    findMatchingBrace (C ++ (renderDef (.str n kw fs) ++ T))
        (C.length + matchLen (.str n kw fs) - 1)
      = some (C.length + (renderDef (.str n kw fs)).length - 1) := by
  have hsh : C ++ (renderDef (.str n kw fs) ++ T)
      = (C ++ (n ++ ' ' :: ':' :: ':' :: '=' :: ' ' :: (kwChars kw ++ [' '])))
          ++ ('\x7b' :: (('\n' :: (renderBody fs ++ ['\n']))
            ++ ('\x7d' :: T))) := by
    simp [renderDef, List.append_assoc]
  have hlen : (C ++ (n ++ ' ' :: ':' :: ':' :: '=' :: ' ' ::
      (kwChars kw ++ [' ']))).length
      = C.length + matchLen (.str n kw fs) - 1 := by
    simp [matchLen, List.length_append]
    omega
  have := findMatchingBrace_at
    (C ++ (n ++ ' ' :: ':' :: ':' :: '=' :: ' ' :: (kwChars kw ++ [' '])))
    ('\n' :: (renderBody fs ++ ['\n'])) T
    (strInner_free fs hfs)
  rw [hsh, ← hlen, this]
  congr 1
  have hlrd := renderDef_str_length n kw fs
  simp only [matchLen, List.length_append, List.length_cons,
    List.length_nil] at hlen hlrd ⊢
  omega

/-- Stage M4: pairing the collected matches with their matching close
braces succeeds at every match and yields the expected positions. -/
theorem withEnds_stream : ∀ (rest : List (Nat × WfDef)) (d : WfDef)
    (C : List Char),
    defOk d = true →
    (∀ p ∈ rest, 1 ≤ p.1 ∧ defOk p.2 = true) →
    withEnds (C ++ (renderDef d ++ tailSep3 (isStr d) rest))
        (expMatches C.length d rest)
      = expWE C.length d rest := by
  intro rest
  induction rest with
  | nil =>
      intro d C hd _
      cases d with
      | prim n ty => simp [expMatches, expWE, isStr, withEnds]
      | str n kw fs =>
          have hfmb := findMatchingBrace_str C n kw fs
            (tailSep3 true []) (defOk_str hd).2.2
          simp [expMatches, expWE, isStr, withEnds, hfmb]
  | cons p rest' ih =>
      obtain ⟨k, d'⟩ := p
      intro d C hd hrest
      have hd' : defOk d' = true := (hrest (k, d') (List.mem_cons_self _ _)).2
      have hrest' : ∀ q ∈ rest', 1 ≤ q.1 ∧ defOk q.2 = true :=
        fun q hq => hrest q (List.mem_cons_of_mem _ hq)
      have hcode : C ++ (renderDef d ++ tailSep3 (isStr d) ((k, d') :: rest'))
          = (C ++ (renderDef d ++ List.replicate (sepAfter d k) '\n'))
              ++ (renderDef d' ++ tailSep3 (isStr d') rest') := by
        simp [tailSep3, sepAfter, List.append_assoc]
      have hClen : (C ++ (renderDef d
          ++ List.replicate (sepAfter d k) '\n')).length
          = C.length + (renderDef d).length + sepAfter d k := by
        simp [List.length_append]
        omega
      have hih := ih d' (C ++ (renderDef d
        ++ List.replicate (sepAfter d k) '\n')) hd' hrest'
      rw [hClen] at hih
      cases d with
      | prim n ty =>
          simp only [isStr, Bool.false_eq_true, if_false] at hcode
          simp only [expMatches, expWE, isStr, Bool.false_eq_true, if_false,
            List.nil_append]
          rw [hcode]
          exact hih
      | str n kw fs =>
          have hfmb := findMatchingBrace_str C n kw fs
            (tailSep3 true ((k, d') :: rest')) (defOk_str hd).2.2
          have hcode' : C ++ (renderDef (.str n kw fs)
                ++ tailSep3 true ((k, d') :: rest'))
              = (C ++ (renderDef (.str n kw fs)
                  ++ List.replicate (sepAfter (.str n kw fs) k) '\n'))
                  ++ (renderDef d' ++ tailSep3 (isStr d') rest') := by
            simpa [isStr] using hcode
          simp only [expMatches, expWE, isStr, if_pos, List.cons_append,
            List.nil_append]
          simp only [withEnds] at hih ⊢
          rw [List.filterMap_cons]
          dsimp only
          rw [hfmb]
          dsimp only
          rw [hcode', hih]

/-- Trim-end fixes a string whose last character is not whitespace. -/
theorem jsTrimEnd_id (y : List Char)
    (hl : ∀ c, y.getLast? = some c → jsSpace c = false) :
    jsTrimEnd y = y := by
  have h2 : y.reverse.dropWhile jsSpace = y.reverse := by
    cases hrev : y.reverse with
    | nil => rfl
    | cons d rest =>
        rw [List.dropWhile_cons, if_neg]
        have : y.getLast? = some d := by
          rw [← List.head?_reverse, hrev]; rfl
        simp [hl d this]
  unfold jsTrimEnd
  rw [h2, List.reverse_reverse]

/-- Trim-end removes a whitespace suffix. -/
theorem jsTrimEnd_append_ws (X W : List Char)
    (hW : ∀ c ∈ W, jsSpace c = true) :
    jsTrimEnd (X ++ W) = jsTrimEnd X := by
  unfold jsTrimEnd
  rw [List.reverse_append,
    dropWhile_append_all _ _ _ (fun c hc => hW c (List.mem_reverse.mp hc))]

/-- Trimming removes a whitespace prefix. -/
theorem jsTrim_append_ws (W X : List Char)
    (hW : ∀ c ∈ W, jsSpace c = true) :
    jsTrim (W ++ X) = jsTrim X := by
  rw [jsTrim_eq_trimEnd, jsTrim_eq_trimEnd,
    dropWhile_append_all _ _ _ hW]

/-- A list without whitespace has no two adjacent whitespace characters. -/
theorem chain_nospace (l : List Char)
    (h : ∀ c ∈ l, jsSpace c = false) :
    List.Chain' (fun a c => ¬(jsSpace a = true ∧ jsSpace c = true)) l := by
  induction l with
  | nil => simp
  | cons a rest ih =>
      rw [List.chain'_cons']
      refine ⟨fun y _ hc => ?_,
        ih (fun c hc => h c (List.mem_cons_of_mem _ hc))⟩
      rw [h a (List.mem_cons_self _ _)] at hc
      exact absurd hc.1 (by simp)

/-- A rendered field has no two adjacent whitespace characters. -/
theorem renderField_chain (ts : List (List Char))
    (hall : ∀ t ∈ ts, tokenOk t = true) :
    List.Chain' (fun a c => ¬(jsSpace a = true ∧ jsSpace c = true))
      (renderField ts) := by
  induction ts with
  | nil => simp [renderField]
  | cons t rest ih =>
      have ht : tokenOk t = true := hall t (List.mem_cons_self _ _)
      have htns : ∀ c ∈ t, jsSpace c = false :=
        fun c hc => wordChar_not_space c (tokenOk_mem ht c hc)
      cases rest with
      | nil => exact chain_nospace t htns
      | cons u rest' =>
          have hall' : ∀ x ∈ u :: rest', tokenOk x = true :=
            fun x hx => hall x (List.mem_cons_of_mem _ hx)
          obtain ⟨b, hb, hbw⟩ := renderField_head (u :: rest') (by simp) hall'
          show List.Chain' _ (t ++ ' ' :: renderField (u :: rest'))
          refine List.Chain'.append (chain_nospace t htns) ?_ ?_
          · rw [List.chain'_cons']
            refine ⟨fun y hy hc => ?_, ih hall'⟩
            rw [hb, Option.mem_def, Option.some.injEq] at hy
            subst hy
            rw [wordChar_not_space b hbw] at hc
            exact absurd hc.2 (by simp)
          · intro x hx y hy hc
            rw [Option.mem_def] at hx
            have hxm : x ∈ t := by
              have := List.mem_getLast?_eq_getLast (l := t) (x := x)
                (Option.mem_def.mpr hx)
              obtain ⟨hne, rfl⟩ := this
              exact List.getLast_mem hne
            rw [htns x hxm] at hc
            exact absurd hc.1 (by simp)

/-- The field normalizer fixes a rendered field behind any whitespace
prefix. -/
theorem normalField (W : List Char) (ts : List (List Char))
    (hW : ∀ c ∈ W, jsSpace c = true)
    (hts : ts ≠ []) (hall : ∀ t ∈ ts, tokenOk t = true) :
    normalizeFieldContent (W ++ renderField ts) = renderField ts := by
  obtain ⟨hhc, hh, hhw⟩ : ∃ c, (renderField ts).head? = some c ∧
      wordChar c = true := renderField_head ts hts hall
  obtain ⟨lc, hl, hlw⟩ := renderField_getLast ts hts hall
  have hhead : ∀ c, (renderField ts).head? = some c → jsSpace c = false := by
    intro c hc
    rw [hh, Option.some.injEq] at hc
    subst hc
    exact wordChar_not_space _ hhw
  have hlast : ∀ c, (renderField ts).getLast? = some c → jsSpace c = false := by
    intro c hc
    rw [hl, Option.some.injEq] at hc
    subst hc
    exact wordChar_not_space _ hlw
  unfold normalizeFieldContent
  rw [jsTrim_append_ws W _ hW, jsTrim_id _ hhead hlast,
    stripTrailComma_id _ hlast
      (by
        intro hc
        rw [hl, Option.some.injEq] at hc
        rw [hc] at hlw
        exact absurd hlw (by decide))]
  refine (collapseWsGo_id (renderField ts).length _ le_rfl ?_
    (renderField_chain ts hall)).1
  intro c hc hcs
  rcases renderField_mem ts hall c hc with h1 | h1
  · exact absurd (wordChar_not_space c h1) (by simp [hcs])
  · exact h1

/-- First occurrence of a character after a prefix free of it. -/
theorem indexOfChar_prefix (c : Char) : ∀ (A B : List Char), c ∉ A →
    indexOfChar c (A ++ c :: B) = some A.length := by
  intro A
  induction A with
  | nil => intro B _; simp [indexOfChar]
  | cons a A' ih =>
      intro B hni
      have ha : a ≠ c := fun h => hni (h ▸ List.mem_cons_self _ _)
      simp only [List.cons_append, indexOfChar, List.append_eq]
      rw [if_neg ha, ih B (fun h => hni (List.mem_cons_of_mem _ h))]
      rfl

/-- Last occurrence of a character sitting at the end of the text. -/
theorem lastIndexOfChar_last (Y : List Char) (c : Char) :
    lastIndexOfChar c (Y ++ [c]) = some Y.length := by
  unfold lastIndexOfChar
  rw [List.reverse_append]
  rw [show ([c] : List Char).reverse ++ Y.reverse = c :: Y.reverse from by simp]
  rw [show indexOfChar c (c :: Y.reverse) = some 0 from by simp [indexOfChar]]
  simp [List.length_append]

/-- A non-empty rendered body is non-empty text. -/
theorem renderBody_ne_nil (fs : List (Nat × List (List Char)))
    (hne : fs ≠ []) (hfs : ∀ f ∈ fs, fieldOk f = true) :
    renderBody fs ≠ [] := by
  cases fs with
  | nil => exact absurd rfl hne
  | cons f rest =>
      have hf := hfs f (List.mem_cons_self _ _)
      have hf2 : f.2 ≠ [] ∧ ∀ t ∈ f.2, tokenOk t = true := by
        simp only [fieldOk, Bool.and_eq_true, Bool.not_eq_true',
          List.isEmpty_eq_false, List.all_eq_true] at hf
        exact hf
      have hRFne : renderField f.2 ≠ [] :=
        renderField_ne_nil f.2 hf2.1 hf2.2
      cases rest with
      | nil =>
          show List.replicate f.1 ' ' ++ renderField f.2 ≠ []
          intro hemp
          exact hRFne (List.append_eq_nil.mp hemp).2
      | cons g rest' =>
          show renderFieldLine f ++ ',' :: '\n' :: renderBody (g :: rest') ≠ []
          intro hemp
          exact absurd (List.append_eq_nil.mp hemp).2 (by simp)

/-- The last character of a non-empty rendered body is a word character. -/
theorem renderBody_getLast : ∀ (fs : List (Nat × List (List Char))),
    fs ≠ [] → (∀ f ∈ fs, fieldOk f = true) →
    ∃ c, (renderBody fs).getLast? = some c ∧ wordChar c = true := by
  intro fs
  induction fs with
  | nil => intro h _; exact absurd rfl h
  | cons f rest ih =>
      intro _ hfs
      have hf := hfs f (List.mem_cons_self _ _)
      have hf2 : f.2 ≠ [] ∧ ∀ t ∈ f.2, tokenOk t = true := by
        simp only [fieldOk, Bool.and_eq_true, Bool.not_eq_true',
          List.isEmpty_eq_false, List.all_eq_true] at hf
        exact hf
      cases rest with
      | nil =>
          obtain ⟨c, hc, hw⟩ := renderField_getLast f.2 hf2.1 hf2.2
          refine ⟨c, ?_, hw⟩
          show (List.replicate f.1 ' ' ++ renderField f.2).getLast? = some c
          rw [List.getLast?_append_of_ne_nil _
            (renderField_ne_nil f.2 hf2.1 hf2.2)]
          exact hc
      | cons g rest' =>
          have hfs' : ∀ x ∈ g :: rest', fieldOk x = true :=
            fun x hx => hfs x (List.mem_cons_of_mem _ hx)
          obtain ⟨c, hc, hw⟩ := ih (by simp) hfs'
          refine ⟨c, ?_, hw⟩
          have hRBne : renderBody (g :: rest') ≠ [] :=
            renderBody_ne_nil _ (by simp) hfs'
          show (renderFieldLine f
            ++ ',' :: '\n' :: renderBody (g :: rest')).getLast? = some c
          rw [List.getLast?_append_of_ne_nil _ (by simp)]
          show (([',', '\n'] : List Char)
            ++ renderBody (g :: rest')).getLast? = some c
          rw [List.getLast?_append_of_ne_nil _ hRBne]
          exact hc

/-- A rendered body's indentation of its first field factors out. -/
theorem renderBody_indent (i : Nat) (ts : List (List Char))
    (rest : List (Nat × List (List Char))) :
    renderBody ((i, ts) :: rest)
      = List.replicate i ' ' ++ renderBody ((0, ts) :: rest) := by
  cases rest <;> simp [renderBody, renderFieldLine, List.append_assoc]

/-- The head of a rendered body with zero first indent, with any
continuation. -/
theorem renderBody_zero_head (ts : List (List Char))
    (rest : List (Nat × List (List Char)))
    (hts : ts ≠ []) (hall : ∀ t ∈ ts, tokenOk t = true) :
    ∃ c, (renderBody ((0, ts) :: rest)).head? = some c ∧ wordChar c = true := by
  obtain ⟨c, hc, hw⟩ := renderField_head ts hts hall
  refine ⟨c, ?_, hw⟩
  have hRFne := renderField_ne_nil ts hts hall
  cases rest with
  | nil =>
      show (List.replicate 0 ' ' ++ renderField ts).head? = some c
      simpa using hc
  | cons g rest' =>
      show ((List.replicate 0 ' ' ++ renderField ts)
        ++ ',' :: '\n' :: renderBody (g :: rest')).head? = some c
      rw [List.head?_append_of_ne_nil _ (by simpa using hRFne)]
      simpa using hc

/-- Stage M5, trimming the inner span: the brace-delimited body trims to
the body with the first field's indentation removed. -/
theorem fieldContent_eq (i1 : Nat) (ts1 : List (List Char))
    (rest : List (Nat × List (List Char)))
    (hfs : ∀ f ∈ (i1, ts1) :: rest, fieldOk f = true) :
    jsTrim ('\n' :: (renderBody ((i1, ts1) :: rest) ++ ['\n']))
      = renderBody ((0, ts1) :: rest) := by
  have hf1 := hfs (i1, ts1) (List.mem_cons_self _ _)
  have hf2 : ts1 ≠ [] ∧ ∀ t ∈ ts1, tokenOk t = true := by
    simp only [fieldOk, Bool.and_eq_true, Bool.not_eq_true',
      List.isEmpty_eq_false, List.all_eq_true] at hf1
    exact hf1
  have hsh : '\n' :: (renderBody ((i1, ts1) :: rest) ++ ['\n'])
      = ('\n' :: List.replicate i1 ' ')
          ++ (renderBody ((0, ts1) :: rest) ++ ['\n']) := by
    rw [renderBody_indent]
    simp [List.append_assoc]
  rw [hsh, jsTrim_append_ws _ _ (by
    intro c hc
    rcases List.mem_cons.mp hc with rfl | h1
    · decide
    · rw [List.eq_of_mem_replicate h1]; decide)]
  obtain ⟨b, hb, hbw⟩ := renderBody_zero_head ts1 rest hf2.1 hf2.2
  obtain ⟨lc, hl, hlw⟩ := renderBody_getLast ((0, ts1) :: rest) (by simp)
    (by
      intro f hf
      rcases List.mem_cons.mp hf with rfl | h1
      · simpa [fieldOk] using hf1
      · exact hfs f (List.mem_cons_of_mem _ h1))
  have hXne : renderBody ((0, ts1) :: rest) ≠ [] := by
    intro h
    rw [h] at hb
    simp at hb
  rw [jsTrim_eq_trimEnd,
    dropWhile_eq_self_of_head jsSpace _ b
      (by rw [List.head?_append_of_ne_nil _ hXne]; exact hb)
      (wordChar_not_space b hbw),
    jsTrimEnd_append_ws _ _ (by intro c hc; rw [List.mem_singleton.mp hc]; decide),
    jsTrimEnd_id _ (fun c hc => by
      rw [hl, Option.some.injEq] at hc
      subst hc
      exact wordChar_not_space _ hlw)]

/-- Extraction of the middle span of a concatenation by substring. -/
theorem jsSubstring_mid (H M B : List Char) :
    jsSubstring (H ++ (M ++ B)) H.length (H.length + M.length) = M := by
  unfold jsSubstring
  rw [show max H.length (H.length + M.length) = H.length + M.length by omega,
    show min H.length (H.length + M.length) = H.length by omega]
  rw [show H ++ (M ++ B) = (H ++ M) ++ B from by simp [List.append_assoc]]
  rw [List.take_left' (by simp [List.length_append]), List.drop_left]

/-- Branch facts for a plain character of a rendered body: none of the
splitter's special characters. -/
theorem plain_branches (c : Char)
    (h : wordChar c = true ∨ c = ' ' ∨ c = '\n') :
    c ≠ '"' ∧ c ≠ '\x7b' ∧ c ≠ '\x7d' ∧ c ≠ '(' ∧ c ≠ ')' ∧ c ≠ '[' ∧
      c ≠ ']' ∧ c ≠ ',' := by
  rcases h with h | rfl | rfl
  · refine ⟨?_, ?_, ?_, ?_, ?_, ?_, ?_, ?_⟩ <;>
      (intro he; rw [he] at h; exact absurd h (by decide))
  · exact ⟨by decide, by decide, by decide, by decide, by decide, by decide,
      by decide, by decide⟩
  · exact ⟨by decide, by decide, by decide, by decide, by decide, by decide,
      by decide, by decide⟩

/-- The splitter passes over plain characters at depth zero, accumulating
them into the current segment. -/
theorem splitGo_plain : ∀ (A r : List Char) (prev : Char) (cur : List Char)
    (acc : List (List Char)),
    (∀ c ∈ A, wordChar c = true ∨ c = ' ' ∨ c = '\n') →
    splitGo (A ++ r) prev splitSt0 cur acc
      = splitGo r (A.getLastD prev) splitSt0 (A.reverse ++ cur) acc := by
  intro A
  induction A with
  | nil => intro r prev cur acc _; simp [List.getLastD]
  | cons a A' ih =>
      intro r prev cur acc hA
      obtain ⟨hq, hob, hcb, hop, hcp, hosb, hcsb, hcm⟩ :=
        plain_branches a (hA a (List.mem_cons_self _ _))
      have hqt : quoteToggle a prev splitSt0 = splitSt0 := by
        simp [quoteToggle, hq]
      have e1 : splitGo (a :: (A' ++ r)) prev splitSt0 cur acc
          = splitGo (A' ++ r) a splitSt0 (a :: cur) acc := by
        simp only [splitGo, hqt]
        rw [if_neg (by decide), if_neg hob, if_neg hcb, if_neg hop,
          if_neg hcp, if_neg hosb, if_neg hcsb, if_neg (by simp [hcm])]
      rw [List.cons_append, e1,
        ih r a (a :: cur) acc (fun c hc => hA c (List.mem_cons_of_mem _ hc))]
      rw [List.getLastD_cons]
      simp [List.append_assoc]

/-- The splitter cuts at a top-level comma, emitting the normalized
current segment. -/
theorem splitGo_comma (r : List Char) (prev : Char) (cur : List Char)
    (acc : List (List Char)) :
    splitGo (',' :: r) prev splitSt0 cur acc
      = splitGo r ',' splitSt0 [] (normalizeFieldContent cur.reverse :: acc) := by
  have hqt : quoteToggle ',' prev splitSt0 = splitSt0 := by
    simp [quoteToggle]
  simp only [splitGo, hqt]
  rw [if_neg (by decide), if_neg (by decide), if_neg (by decide),
    if_neg (by decide), if_neg (by decide), if_neg (by decide),
    if_neg (by decide), if_pos (by decide)]

/-- Stage M5, splitting: the top-level splitter cuts a rendered body into
its fields, each normalized to its bare token text. -/
theorem splitGo_fields : ∀ (fs : List (Nat × List (List Char)))
    (W : List Char) (prev : Char) (acc : List (List Char)),
    fs ≠ [] → (∀ f ∈ fs, fieldOk f = true) →
    (∀ c ∈ W, c = ' ' ∨ c = '\n') →
    splitGo (W ++ renderBody fs) prev splitSt0 [] acc
      = acc.reverse ++ fs.map (fun f => renderField f.2) := by
  intro fs
  induction fs with
  | nil => intro W prev acc h _ _; exact absurd rfl h
  | cons f rest ih =>
      intro W prev acc _ hfs hW
      have hf := hfs f (List.mem_cons_self _ _)
      have hf2 : f.2 ≠ [] ∧ ∀ t ∈ f.2, tokenOk t = true := by
        simp only [fieldOk, Bool.and_eq_true, Bool.not_eq_true',
          List.isEmpty_eq_false, List.all_eq_true] at hf
        exact hf
      have hWs : ∀ c ∈ W, jsSpace c = true := by
        intro c hc
        rcases hW c hc with rfl | rfl <;> decide
      have hplainW : ∀ c ∈ W, wordChar c = true ∨ c = ' ' ∨ c = '\n' := by
        intro c hc
        rcases hW c hc with rfl | rfl
        · exact Or.inr (Or.inl rfl)
        · exact Or.inr (Or.inr rfl)
      have hplainA : ∀ c ∈ W ++ (List.replicate f.1 ' ' ++ renderField f.2),
          wordChar c = true ∨ c = ' ' ∨ c = '\n' := by
        intro c hc
        rcases List.mem_append.mp hc with h1 | h1
        · exact hplainW c h1
        · rcases List.mem_append.mp h1 with h2 | h2
          · exact Or.inr (Or.inl (List.eq_of_mem_replicate h2))
          · rcases renderField_mem f.2 hf2.2 c h2 with h3 | h3
            · exact Or.inl h3
            · exact Or.inr (Or.inl h3)
      have hWA : ∀ c ∈ W ++ List.replicate f.1 ' ', jsSpace c = true := by
        intro c hc
        rcases List.mem_append.mp hc with h1 | h1
        · exact hWs c h1
        · rw [List.eq_of_mem_replicate h1]; decide
      have hnorm : normalizeFieldContent
          (W ++ (List.replicate f.1 ' ' ++ renderField f.2))
          = renderField f.2 := by
        rw [show W ++ (List.replicate f.1 ' ' ++ renderField f.2)
            = (W ++ List.replicate f.1 ' ') ++ renderField f.2 from by
          simp [List.append_assoc]]
        exact normalField _ f.2 hWA hf2.1 hf2.2
      cases rest with
      | nil =>
          have hsh : W ++ renderBody [f]
              = (W ++ (List.replicate f.1 ' ' ++ renderField f.2)) ++ [] := by
            simp [renderBody, renderFieldLine]
          rw [hsh, splitGo_plain _ _ _ _ _ hplainA]
          simp only [splitGo, List.append_nil]
          rw [if_pos (by
            rw [List.reverse_reverse]
            rw [show W ++ (List.replicate f.1 ' ' ++ renderField f.2)
                = (W ++ List.replicate f.1 ' ') ++ renderField f.2 from by
              simp [List.append_assoc]]
            rw [jsTrim_append_ws _ _ hWA]
            obtain ⟨b, hb, hbw⟩ := renderField_head f.2 hf2.1 hf2.2
            obtain ⟨lc, hl, hlw⟩ := renderField_getLast f.2 hf2.1 hf2.2
            rw [jsTrim_id _
              (fun c hc => by
                rw [hb, Option.some.injEq] at hc
                subst hc
                exact wordChar_not_space _ hbw)
              (fun c hc => by
                rw [hl, Option.some.injEq] at hc
                subst hc
                exact wordChar_not_space _ hlw)]
            exact renderField_ne_nil f.2 hf2.1 hf2.2)]
          rw [List.reverse_reverse, hnorm]
          simp
      | cons g rest' =>
          have hfs' : ∀ x ∈ g :: rest', fieldOk x = true :=
            fun x hx => hfs x (List.mem_cons_of_mem _ hx)
          have hsh : W ++ renderBody (f :: g :: rest')
              = (W ++ (List.replicate f.1 ' ' ++ renderField f.2))
                  ++ (',' :: ('\n' :: renderBody (g :: rest'))) := by
            show W ++ (renderFieldLine f ++ ',' :: '\n' :: renderBody (g :: rest'))
              = _
            simp [renderFieldLine, List.append_assoc]
          rw [hsh, splitGo_plain _ _ _ _ _ hplainA, splitGo_comma]
          simp only [List.append_nil, List.reverse_reverse]
          rw [hnorm]
          have := ih (['\n'] : List Char) ','
            (renderField f.2 :: acc) (by simp) hfs'
            (by intro c hc; rw [List.mem_singleton.mp hc]; exact Or.inr rfl)
          rw [show (['\n'] : List Char) ++ renderBody (g :: rest')
              = '\n' :: renderBody (g :: rest') from rfl] at this
          rw [this]
          simp

/-- The field normalizer fixes a bare rendered field. -/
theorem normalField_nil (ts : List (List Char)) (hts : ts ≠ [])
    (hall : ∀ t ∈ ts, tokenOk t = true) :
    normalizeFieldContent (renderField ts) = renderField ts := by
  have := normalField [] ts (by simp) hts hall
  simpa using this

/-- Stage M5, reassembly: joining the rendered field lines and the closing
brace produces the canonical body at the fixed two-space indent. -/
theorem joinNL_fieldLines : ∀ (fs : List (Nat × List (List Char))),
    fs ≠ [] → (∀ f ∈ fs, fieldOk f = true) →
    joinNL (renderFieldLines (fs.map (fun f => renderField f.2)) ++ [['\x7d']])
      = renderBody (fs.map (fun f => (2, f.2))) ++ ['\n', '\x7d'] := by
  intro fs
  induction fs with
  | nil => intro h _; exact absurd rfl h
  | cons f rest ih =>
      intro _ hfs
      have hf := hfs f (List.mem_cons_self _ _)
      have hf2 : f.2 ≠ [] ∧ ∀ t ∈ f.2, tokenOk t = true := by
        simp only [fieldOk, Bool.and_eq_true, Bool.not_eq_true',
          List.isEmpty_eq_false, List.all_eq_true] at hf
        exact hf
      have hnorm := normalField_nil f.2 hf2.1 hf2.2
      cases rest with
      | nil =>
          show joinNL ([' ' :: ' ' :: normalizeFieldContent (renderField f.2)]
              ++ [['\x7d']]) = _
          rw [hnorm]
          show (' ' :: ' ' :: renderField f.2) ++ '\n' :: joinNL [['\x7d']]
            = (List.replicate 2 ' ' ++ renderField f.2) ++ ['\n', '\x7d']
          simp [joinNL, List.replicate]
      | cons g rest' =>
          have hfs' : ∀ x ∈ g :: rest', fieldOk x = true :=
            fun x hx => hfs x (List.mem_cons_of_mem _ hx)
          have hih := ih (by simp) hfs'
          show joinNL ((' ' :: ' ' ::
              (normalizeFieldContent (renderField f.2) ++ [',']))
              :: (renderFieldLines ((g :: rest').map (fun f => renderField f.2))
                ++ [['\x7d']])) = _
          rw [hnorm]
          have hcons : ∃ l L,
              renderFieldLines ((g :: rest').map (fun f => renderField f.2))
                ++ [['\x7d']] = l :: L := by
            cases rest' with
            | nil => exact ⟨_, _, rfl⟩
            | cons h rest'' => exact ⟨_, _, rfl⟩
          obtain ⟨l, L, hlL⟩ := hcons
          rw [hlL]
          show (' ' :: ' ' :: (renderField f.2 ++ [','])) ++ '\n' :: joinNL (l :: L)
            = _
          rw [← hlL, hih]
          show (' ' :: ' ' :: (renderField f.2 ++ [','])) ++ '\n' ::
              (renderBody ((g :: rest').map (fun f => (2, f.2))) ++ ['\n', '\x7d'])
            = (List.replicate 2 ' ' ++ renderField f.2) ++ ',' :: '\n' ::
                renderBody ((g :: rest').map (fun f => (2, f.2))) ++ ['\n', '\x7d']
          simp [List.replicate, List.append_assoc]

/-- Stage M5: on a structured definition's exact text, with the matched
header as prefix, the single-definition formatter produces the canonical
form of the definition. -/
theorem formatSingle_str (n : List Char) (kw : StKw)
    (fs : List (Nat × List (List Char)))
    (hd : defOk (.str n kw fs) = true) :
    formatSingleTypeDefinition (renderDef (.str n kw fs))
        (n ++ ' ' :: ':' :: ':' :: '=' :: ' ' :: (kwChars kw ++ [' ', '\x7b']))
      = renderDef (canonDef (.str n kw fs)) := by
  obtain ⟨hn, hfsne, hfsok'⟩ := defOk_str hd
  have hfsok : ∀ f ∈ fs, fieldOk f = true := hfsok'
  -- the opening brace
  have hop : indexOfChar '\x7b' (renderDef (.str n kw fs))
      = some (n.length + (kwChars kw).length + 6) := by
    have hsh : renderDef (.str n kw fs)
        = (n ++ ' ' :: ':' :: ':' :: '=' :: ' ' :: (kwChars kw ++ [' ']))
            ++ '\x7b' :: ('\n' :: (renderBody fs ++ ['\n', '\x7d'])) := by
      simp [renderDef, List.append_assoc]
    rw [hsh, indexOfChar_prefix '\x7b' _ _ (by
      intro hm
      rcases List.mem_append.mp hm with h1 | h1
      · exact absurd (tokenOk_mem hn _ h1) (by decide)
      · simp only [List.mem_cons] at h1
        rcases h1 with h2|h2|h2|h2|h2|h2
        · exact absurd h2 (by decide)
        · exact absurd h2 (by decide)
        · exact absurd h2 (by decide)
        · exact absurd h2 (by decide)
        · exact absurd h2 (by decide)
        · rcases List.mem_append.mp h2 with h3 | h3
          · exact absurd (((kwChars_ok kw).2) _ h3) (by decide)
          · exact absurd (List.mem_singleton.mp h3) (by decide))]
    congr 1
    simp [List.length_append]
    omega
  -- the closing brace
  have hcp : lastIndexOfChar '\x7d' (renderDef (.str n kw fs))
      = some ((renderDef (.str n kw fs)).length - 1) := by
    obtain ⟨Y, hY, -⟩ := renderDef_str_shape n kw fs hd
    rw [hY, lastIndexOfChar_last]
    congr 1
    simp [List.length_append]
  -- the inner span
  have hsub : jsSubstring (renderDef (.str n kw fs))
      (n.length + (kwChars kw).length + 6 + 1)
      ((renderDef (.str n kw fs)).length - 1)
      = '\n' :: (renderBody fs ++ ['\n']) := by
    have hsh : renderDef (.str n kw fs)
        = (n ++ ' ' :: ':' :: ':' :: '=' :: ' ' :: (kwChars kw ++ [' ', '\x7b']))
            ++ (('\n' :: (renderBody fs ++ ['\n'])) ++ ['\x7d']) := by
      simp [renderDef, List.append_assoc]
    have hH : (n ++ ' ' :: ':' :: ':' :: '=' :: ' ' ::
        (kwChars kw ++ [' ', '\x7b'])).length
        = n.length + (kwChars kw).length + 6 + 1 := by
      simp [List.length_append]
      omega
    have hHM : (n ++ ' ' :: ':' :: ':' :: '=' :: ' ' ::
        (kwChars kw ++ [' ', '\x7b'])).length
        + ('\n' :: (renderBody fs ++ ['\n'])).length
        = (renderDef (.str n kw fs)).length - 1 := by
      have hlrd := renderDef_str_length n kw fs
      simp only [matchLen] at hlrd
      simp [List.length_append] at hlrd ⊢
      omega
    rw [← hH, ← hHM, hsh]
    exact jsSubstring_mid _ _ _
  cases fs with
  | nil => exact absurd rfl hfsne
  | cons f1 rest =>
      obtain ⟨i1, ts1⟩ := f1
      have hf1 := hfsok (i1, ts1) (List.mem_cons_self _ _)
      have hf2 : ts1 ≠ [] ∧ ∀ t ∈ ts1, tokenOk t = true := by
        simp only [fieldOk, Bool.and_eq_true, Bool.not_eq_true',
          List.isEmpty_eq_false, List.all_eq_true] at hf1
        exact hf1
      have hfc : jsTrim (jsSubstring (renderDef (.str n kw ((i1, ts1) :: rest)))
          (n.length + (kwChars kw).length + 6 + 1)
          ((renderDef (.str n kw ((i1, ts1) :: rest))).length - 1))
          = renderBody ((0, ts1) :: rest) := by
        rw [hsub]
        exact fieldContent_eq i1 ts1 rest hfsok
      have hfcne : renderBody ((0, ts1) :: rest) ≠ [] := by
        apply renderBody_ne_nil _ (by simp)
        intro f hf
        rcases List.mem_cons.mp hf with rfl | h1
        · simpa [fieldOk] using hf1
        · exact hfsok f (List.mem_cons_of_mem _ h1)
      have hsegs : splitTopLevelByComma (renderBody ((0, ts1) :: rest))
          = ((i1, ts1) :: rest).map (fun f => renderField f.2) := by
        unfold splitTopLevelByComma
        have := splitGo_fields ((0, ts1) :: rest) [] '\x00' [] (by simp)
          (by
            intro f hf
            rcases List.mem_cons.mp hf with rfl | h1
            · simpa [fieldOk] using hf1
            · exact hfsok f (List.mem_cons_of_mem _ h1))
          (by simp)
        simp only [List.nil_append, List.reverse_nil] at this
        rw [this]
        simp
      -- prefix trim
      have hpfx : jsTrimEnd (n ++ ' ' :: ':' :: ':' :: '=' :: ' ' ::
          (kwChars kw ++ [' ', '\x7b']))
          = n ++ ' ' :: ':' :: ':' :: '=' :: ' ' ::
              (kwChars kw ++ [' ', '\x7b']) := by
        apply jsTrimEnd_id
        intro c hc
        have hsh : n ++ ' ' :: ':' :: ':' :: '=' :: ' ' ::
            (kwChars kw ++ [' ', '\x7b'])
            = (n ++ ' ' :: ':' :: ':' :: '=' :: ' ' ::
                (kwChars kw ++ [' '])) ++ ['\x7b'] := by
          simp [List.append_assoc]
        rw [hsh, List.getLast?_append_of_ne_nil _ (by simp)] at hc
        simp only [List.getLast?_singleton, Option.some.injEq] at hc
        subst hc
        decide
      -- unfold the formatter
      unfold formatSingleTypeDefinition
      rw [hop, hcp]
      dsimp only
      rw [hfc]
      rw [if_neg hfcne]
      rw [hsegs]
      cases rest with
      | nil =>
          rw [if_pos (by simp)]
          rw [hpfx]
          have hnorm : normalizeFieldContent (renderBody [(0, ts1)])
              = renderField ts1 := by
            rw [show renderBody [(0, ts1)] = renderField ts1 from by
              simp [renderBody, renderFieldLine]]
            exact normalField_nil ts1 hf2.1 hf2.2
          rw [hnorm]
          simp [renderDef, canonDef, renderBody, renderFieldLine,
            List.replicate, List.append_assoc]
      | cons g rest' =>
          rw [if_neg (by simp)]
          rw [hpfx]
          have hjoin := joinNL_fieldLines ((i1, ts1) :: g :: rest')
            (by simp) hfsok
          show joinNL ((n ++ ' ' :: ':' :: ':' :: '=' :: ' ' ::
              (kwChars kw ++ [' ', '\x7b'])) ::
              (renderFieldLines (((i1, ts1) :: g :: rest').map
                (fun f => renderField f.2)) ++ [['\x7d']])) = _
          have hcons : ∃ l L,
              renderFieldLines (((i1, ts1) :: g :: rest').map
                (fun f => renderField f.2)) ++ [['\x7d']] = l :: L :=
            ⟨_, _, rfl⟩
          obtain ⟨l, L, hlL⟩ := hcons
          rw [hlL]
          show (n ++ ' ' :: ':' :: ':' :: '=' :: ' ' ::
              (kwChars kw ++ [' ', '\x7b'])) ++ '\n' :: joinNL (l :: L) = _
          rw [← hlL, hjoin]
          simp [renderDef, canonDef, List.append_assoc]

/-- Stage M3, top level: the matches collected on the step-1 output. -/
theorem findMatches_stream (d : WfDef) (rest : List (Nat × WfDef))
    (hd : defOk d = true)
    (hrest : ∀ p ∈ rest, 1 ≤ p.1 ∧ defOk p.2 = true) :
    findMatches (renderDef d ++ tailSep3 (isStr d) rest)
      = expMatches 0 d rest := by
  unfold findMatches
  exact findMatchesGo_stream rest d 0 _ hd hrest (le_refl _)

/-- Stage M6 main induction: splicing the formatted definitions back to
front replaces every structured definition by its canonical form and
leaves every separator unchanged. -/
theorem stitch : ∀ (rest : List (Nat × WfDef)) (d : WfDef) (C : List Char)
    (code : List Char),
    defOk d = true →
    (∀ p ∈ rest, 1 ≤ p.1 ∧ defOk p.2 = true) →
    code = C ++ (renderDef d ++ tailSep3 (isStr d) rest) →
    (expWE C.length d rest).foldr (fun m acc => applyOne code acc m) code
      = C ++ (renderDef (canonDef d) ++ tailRender (canonRest d rest)) := by
  intro rest
  induction rest with
  | nil =>
      intro d C code hd _ hcode
      cases d with
      | prim n ty =>
          simp only [isStr] at hcode
          simp only [expWE, isStr, Bool.false_eq_true, if_false,
            List.foldr_nil]
          rw [hcode]
          simp [canonDef, canonRest, tailRender, tailSep3]
      | str n kw fs =>
          simp only [isStr] at hcode
          simp only [expWE, isStr, eq_self_iff_true, if_true,
            List.foldr_cons, List.foldr_nil]
          unfold applyOne
          dsimp only
          have hrd1 : 1 ≤ (renderDef (.str n kw fs)).length :=
            List.length_pos.mpr (renderDef_ne_nil hd)
          have horig : jsSubstring code C.length
              (C.length + (renderDef (.str n kw fs)).length - 1 + 1)
              = renderDef (.str n kw fs) := by
            rw [show C.length + (renderDef (.str n kw fs)).length - 1 + 1
                = C.length + (renderDef (.str n kw fs)).length from by omega]
            rw [hcode]
            exact jsSubstring_mid C _ _
          have hpfx : jsSubstring code C.length
              (C.length + matchLen (.str n kw fs))
              = n ++ ' ' :: ':' :: ':' :: '=' :: ' ' ::
                  (kwChars kw ++ [' ', '\x7b']) := by
            have hsh : code = C ++ ((n ++ ' ' :: ':' :: ':' :: '=' :: ' ' ::
                (kwChars kw ++ [' ', '\x7b']))
                ++ (('\n' :: (renderBody fs ++ ['\n', '\x7d']))
                  ++ tailSep3 true [])) := by
              rw [hcode]
              simp [renderDef, List.append_assoc]
            have hH : (n ++ ' ' :: ':' :: ':' :: '=' :: ' ' ::
                (kwChars kw ++ [' ', '\x7b'])).length
                = matchLen (.str n kw fs) := by
              simp [matchLen, List.length_append]
              omega
            rw [hsh, ← hH]
            exact jsSubstring_mid C _ _
          rw [horig, hpfx, formatSingle_str n kw fs hd]
          have htake : code.take C.length = C := by
            rw [hcode]
            exact List.take_left' rfl
          have hdrop : code.drop
              (C.length + (renderDef (.str n kw fs)).length - 1 + 1)
              = tailSep3 true [] := by
            rw [show C.length + (renderDef (.str n kw fs)).length - 1 + 1
                = C.length + (renderDef (.str n kw fs)).length from by omega]
            rw [hcode, show C ++ (renderDef (.str n kw fs) ++ tailSep3 true [])
                = (C ++ renderDef (.str n kw fs)) ++ tailSep3 true [] from by
              simp [List.append_assoc]]
            rw [show C.length + (renderDef (.str n kw fs)).length
                = (C ++ renderDef (.str n kw fs)).length from by
              simp [List.length_append]]
            exact List.drop_left _ _
          rw [htake, hdrop]
          simp [canonRest, tailRender, tailSep3, List.append_assoc]
  | cons p rest' ih =>
      obtain ⟨k, d'⟩ := p
      intro d C code hd hrest hcode
      have hd' : defOk d' = true := (hrest (k, d') (List.mem_cons_self _ _)).2
      have hrest' : ∀ q ∈ rest', 1 ≤ q.1 ∧ defOk q.2 = true :=
        fun q hq => hrest q (List.mem_cons_of_mem _ hq)
      have hcode' : code = (C ++ (renderDef d
          ++ List.replicate (sepAfter d k) '\n'))
          ++ (renderDef d' ++ tailSep3 (isStr d') rest') := by
        rw [hcode]
        simp [tailSep3, sepAfter, List.append_assoc]
      have hClen : (C ++ (renderDef d
          ++ List.replicate (sepAfter d k) '\n')).length
          = C.length + (renderDef d).length + sepAfter d k := by
        simp [List.length_append]
        omega
      have hih := ih d' (C ++ (renderDef d
        ++ List.replicate (sepAfter d k) '\n')) code hd' hrest' hcode'
      rw [hClen] at hih
      cases d with
      | prim n ty =>
          simp only [isStr] at hcode
          rw [show sepAfter (WfDef.prim n ty) k = k from by
            simp [sepAfter, isStr]] at hih
          simp only [expWE, isStr, Bool.false_eq_true, if_false,
            List.nil_append]
          rw [show sepAfter (WfDef.prim n ty) k = k from by
            simp [sepAfter, isStr]]
          rw [hih]
          simp [canonDef, canonRest, tailRender, sepAfter, isStr,
            List.append_assoc]
      | str n kw fs =>
          simp only [isStr] at hcode
          rw [show sepAfter (WfDef.str n kw fs) k = 3 from by
            simp [sepAfter, isStr]] at hih
          simp only [expWE, isStr, eq_self_iff_true, if_true,
            List.cons_append, List.nil_append, List.foldr_cons]
          rw [show sepAfter (WfDef.str n kw fs) k = 3 from by
            simp [sepAfter, isStr]]
          rw [hih]
          unfold applyOne
          dsimp only
          have hrd1 : 1 ≤ (renderDef (.str n kw fs)).length :=
            List.length_pos.mpr (renderDef_ne_nil hd)
          have horig : jsSubstring code C.length
              (C.length + (renderDef (.str n kw fs)).length - 1 + 1)
              = renderDef (.str n kw fs) := by
            rw [show C.length + (renderDef (.str n kw fs)).length - 1 + 1
                = C.length + (renderDef (.str n kw fs)).length from by omega]
            rw [hcode]
            exact jsSubstring_mid C _ _
          have hpfx : jsSubstring code C.length
              (C.length + matchLen (.str n kw fs))
              = n ++ ' ' :: ':' :: ':' :: '=' :: ' ' ::
                  (kwChars kw ++ [' ', '\x7b']) := by
            have hsh : code = C ++ ((n ++ ' ' :: ':' :: ':' :: '=' :: ' ' ::
                (kwChars kw ++ [' ', '\x7b']))
                ++ (('\n' :: (renderBody fs ++ ['\n', '\x7d']))
                  ++ tailSep3 true ((k, d') :: rest'))) := by
              rw [hcode]
              simp [renderDef, List.append_assoc]
            have hH : (n ++ ' ' :: ':' :: ':' :: '=' :: ' ' ::
                (kwChars kw ++ [' ', '\x7b'])).length
                = matchLen (.str n kw fs) := by
              simp [matchLen, List.length_append]
              omega
            rw [hsh, ← hH]
            exact jsSubstring_mid C _ _
          rw [horig, hpfx, formatSingle_str n kw fs hd]
          have htake : ((C ++ (renderDef (.str n kw fs)
              ++ List.replicate 3 '\n'))
              ++ (renderDef (canonDef d')
                ++ tailRender (canonRest d' rest'))).take C.length = C := by
            rw [show (C ++ (renderDef (.str n kw fs) ++ List.replicate 3 '\n'))
                ++ (renderDef (canonDef d') ++ tailRender (canonRest d' rest'))
                = C ++ ((renderDef (.str n kw fs) ++ List.replicate 3 '\n')
                  ++ (renderDef (canonDef d')
                    ++ tailRender (canonRest d' rest'))) from by
              simp [List.append_assoc]]
            exact List.take_left' rfl
          have hdrop : ((C ++ (renderDef (.str n kw fs)
              ++ List.replicate 3 '\n'))
              ++ (renderDef (canonDef d')
                ++ tailRender (canonRest d' rest'))).drop
              (C.length + (renderDef (.str n kw fs)).length - 1 + 1)
              = List.replicate 3 '\n'
                ++ (renderDef (canonDef d')
                  ++ tailRender (canonRest d' rest')) := by
            rw [show C.length + (renderDef (.str n kw fs)).length - 1 + 1
                = C.length + (renderDef (.str n kw fs)).length from by omega]
            rw [show (C ++ (renderDef (.str n kw fs) ++ List.replicate 3 '\n'))
                ++ (renderDef (canonDef d') ++ tailRender (canonRest d' rest'))
                = (C ++ renderDef (.str n kw fs))
                  ++ (List.replicate 3 '\n'
                    ++ (renderDef (canonDef d')
                      ++ tailRender (canonRest d' rest'))) from by
              simp [List.append_assoc]]
            rw [show C.length + (renderDef (.str n kw fs)).length
                = (C ++ renderDef (.str n kw fs)).length from by
              simp [List.length_append]]
            exact List.drop_left _ _
          rw [htake, hdrop]
          simp [canonRest, tailRender, sepAfter, isStr, List.append_assoc]

/-- Computation rule of the run bound at a newline. -/
theorem nlOk_cons_nl (r : Nat) (rest : List Char) :
    nlOk r ('\n' :: rest) = (decide (r + 1 ≤ 3) && nlOk (r + 1) rest) := rfl

/-- Computation rule of the run bound at a non-newline character. -/
theorem nlOk_cons_other (r : Nat) (c : Char) (rest : List Char)
    (hc : c ≠ '\n') : nlOk r (c :: rest) = nlOk 0 rest := by
  simp only [nlOk, if_neg hc]

/-- A newline-free non-empty span resets the run counter. -/
theorem nlOk_nonNL_append : ∀ (A B : List Char) (r : Nat), A ≠ [] →
    (∀ c ∈ A, c ≠ '\n') → nlOk 0 B = true → nlOk r (A ++ B) = true := by
  intro A
  induction A with
  | nil => intro B r h _ _; exact absurd rfl h
  | cons a t ih =>
      intro B r _ hA hB
      have ha : a ≠ '\n' := hA a (List.mem_cons_self _ _)
      show nlOk r (a :: (t ++ B)) = true
      simp only [nlOk, if_neg ha]
      cases t with
      | nil => simpa using hB
      | cons b t' =>
          exact ih B 0 (by simp)
            (fun c hc => hA c (List.mem_cons_of_mem _ hc)) hB

/-- A newline-free list satisfies every run bound. -/
theorem nlOk_noNL (l : List Char) (h : ∀ c ∈ l, c ≠ '\n') (r : Nat) :
    nlOk r l = true := by
  cases l with
  | nil => rfl
  | cons a t =>
      have := nlOk_nonNL_append (a :: t) [] r (by simp) h rfl
      simpa using this

/-- Run bounds compose across a span ending in a non-newline character. -/
theorem nlOk_append_lastNonNL : ∀ (A B : List Char) (r : Nat),
    nlOk r A = true → (∀ c, A.getLast? = some c → c ≠ '\n') → A ≠ [] →
    nlOk 0 B = true → nlOk r (A ++ B) = true := by
  intro A
  induction A with
  | nil => intro B r _ _ h _; exact absurd rfl h
  | cons a t ih =>
      intro B r hA hl _ hB
      cases t with
      | nil =>
          have ha : a ≠ '\n' := hl a rfl
          show nlOk r (a :: B) = true
          simp only [nlOk, if_neg ha]
          exact hB
      | cons b t' =>
          have hl' : ∀ c, (b :: t').getLast? = some c → c ≠ '\n' := by
            intro c hc
            apply hl
            rw [List.getLast?_cons_cons]
            exact hc
          by_cases ha : a = '\n'
          · subst ha
            rw [nlOk_cons_nl, Bool.and_eq_true, decide_eq_true_eq] at hA
            show nlOk r ('\n' :: ((b :: t') ++ B)) = true
            rw [nlOk_cons_nl, Bool.and_eq_true, decide_eq_true_eq]
            exact ⟨hA.1, ih B (r + 1) hA.2 hl' (by simp) hB⟩
          · rw [nlOk_cons_other _ _ _ ha] at hA
            show nlOk r (a :: ((b :: t') ++ B)) = true
            rw [nlOk_cons_other _ _ _ ha]
            exact ih B 0 hA hl' (by simp) hB

/-- A rendered field line contains no newline. -/
theorem renderFieldLine_noNL (f : Nat × List (List Char))
    (hf : fieldOk f = true) : ∀ c ∈ renderFieldLine f, c ≠ '\n' := by
  have hall : ∀ t ∈ f.2, tokenOk t = true := by
    simp only [fieldOk, Bool.and_eq_true, List.all_eq_true] at hf
    exact hf.2
  intro c hc
  have hc' : c ∈ List.replicate f.1 ' ' ++ renderField f.2 := hc
  rcases List.mem_append.mp hc' with h1 | h1
  · rw [List.eq_of_mem_replicate h1]; decide
  · rcases renderField_mem f.2 hall c h1 with h2 | h2
    · intro he; rw [he] at h2; exact absurd h2 (by decide)
    · rw [h2]; decide

/-- A rendered body keeps every newline run at length one. -/
theorem renderBody_nlOk : ∀ (fs : List (Nat × List (List Char))),
    (∀ f ∈ fs, fieldOk f = true) → ∀ r, nlOk r (renderBody fs) = true := by
  intro fs
  induction fs with
  | nil => intro _ r; rfl
  | cons f rest ih =>
      intro hfs r
      have hf := hfs f (List.mem_cons_self _ _)
      have hf2 : f.2 ≠ [] ∧ ∀ t ∈ f.2, tokenOk t = true := by
        simp only [fieldOk, Bool.and_eq_true, Bool.not_eq_true',
          List.isEmpty_eq_false, List.all_eq_true] at hf
        exact hf
      have hlineNe : renderFieldLine f ≠ [] := by
        intro hemp
        exact renderField_ne_nil f.2 hf2.1 hf2.2
          (List.append_eq_nil.mp hemp).2
      cases rest with
      | nil => exact nlOk_noNL _ (renderFieldLine_noNL f hf) r
      | cons g rest' =>
          have hfs' : ∀ x ∈ g :: rest', fieldOk x = true :=
            fun x hx => hfs x (List.mem_cons_of_mem _ hx)
          have hsh : renderBody (f :: g :: rest')
              = (renderFieldLine f ++ [','])
                ++ ('\n' :: renderBody (g :: rest')) := by
            simp [renderBody, List.append_assoc]
          rw [hsh]
          apply nlOk_nonNL_append _ _ r (by simp [hlineNe])
          · intro c hc
            rcases List.mem_append.mp hc with h1 | h1
            · exact renderFieldLine_noNL f hf c h1
            · rw [List.mem_singleton.mp h1]; decide
          · simp only [nlOk, if_pos rfl]
            rw [show (decide (0 + 1 ≤ 3) : Bool) = true from rfl,
              Bool.true_and]
            exact ih hfs' 1

/-- A rendered definition keeps every newline run at length one. -/
theorem renderDef_nlOk (d : WfDef) (hd : defOk d = true) (r : Nat) :
    nlOk r (renderDef d) = true := by
  cases d with
  | prim n ty =>
      apply nlOk_noNL
      intro c hc
      have hc' : c ∈ n ++ ([' ', ':', ':', '=', ' '] ++ ty) := hc
      rcases List.mem_append.mp hc' with h1 | h1
      · intro he
        rw [he] at h1
        exact absurd (tokenOk_mem (defOk_prim hd).1 _ h1) (by decide)
      · rcases List.mem_append.mp h1 with h2 | h2
        · intro he; rw [he] at h2; exact absurd h2 (by decide)
        · intro he
          rw [he] at h2
          exact absurd (tokenOk_mem (defOk_prim hd).2 _ h2) (by decide)
  | str n kw fs =>
      obtain ⟨hn, hne, hfs⟩ := defOk_str hd
      have hsh : renderDef (.str n kw fs)
          = (n ++ ' ' :: ':' :: ':' :: '=' :: ' ' ::
              (kwChars kw ++ [' ', '\x7b']))
            ++ ('\n' :: (renderBody fs ++ ['\n', '\x7d'])) := by
        simp [renderDef, List.append_assoc]
      rw [hsh]
      apply nlOk_nonNL_append _ _ r
      · intro hemp
        exact tokenOk_ne_nil hn (List.append_eq_nil.mp hemp).1
      · intro c hc
        rcases List.mem_append.mp hc with h1 | h1
        · intro he
          rw [he] at h1
          exact absurd (tokenOk_mem hn _ h1) (by decide)
        · simp only [List.mem_cons] at h1
          rcases h1 with h2|h2|h2|h2|h2|h2
          · rw [h2]; decide
          · rw [h2]; decide
          · rw [h2]; decide
          · rw [h2]; decide
          · rw [h2]; decide
          · rcases List.mem_append.mp h2 with h3 | h3
            · intro he
              rw [he] at h3
              exact absurd ((kwChars_ok kw).2 _ h3) (by decide)
            · simp only [List.mem_cons, List.not_mem_nil, or_false] at h3
              rcases h3 with h4 | h4 <;> (rw [h4]; decide)
      · simp only [nlOk, if_pos rfl]
        rw [show (decide (0 + 1 ≤ 3) : Bool) = true from rfl, Bool.true_and]
        obtain ⟨lc, hl, hlw⟩ := renderBody_getLast fs hne hfs
        apply nlOk_append_lastNonNL _ _ 1 (renderBody_nlOk fs hfs 1)
        · intro c hc he
          rw [hl, Option.some.injEq] at hc
          subst hc
          rw [he] at hlw
          exact absurd hlw (by decide)
        · exact renderBody_ne_nil fs hne hfs
        · decide

/-- The newline collapse fixes a text whose runs are already bounded. -/
theorem collapseNLGo_id : ∀ (s : List Char) (k : Nat), k ≤ 3 →
    nlOk k s = true → collapseNLGo k s = List.replicate k '\n' ++ s := by
  intro s
  induction s with
  | nil =>
      intro k hk _
      show List.replicate (min k 3) '\n' = _
      rw [show min k 3 = k from by omega]
      simp
  | cons c rest ih =>
      intro k hk h
      by_cases hc : c = '\n'
      · subst hc
        rw [nlOk_cons_nl, Bool.and_eq_true, decide_eq_true_eq] at h
        show collapseNLGo (k + 1) rest = _
        rw [ih (k + 1) h.1 h.2, List.replicate_succ']
        simp [List.append_assoc]
      · rw [nlOk_cons_other _ _ _ hc] at h
        simp only [collapseNLGo, if_neg hc]
        rw [show min k 3 = k from by omega, ih 0 (by omega) h]
        simp

/-- The leading-newline strip fixes a text not starting with a newline. -/
theorem dropLeadNL_id (s : List Char)
    (h : ∀ c, s.head? = some c → c ≠ '\n') : dropLeadNL s = s := by
  cases s with
  | nil => rfl
  | cons a t =>
      show (a :: t).dropWhile (· = '\n') = a :: t
      rw [List.dropWhile_cons, if_neg (by simp [h a rfl])]

/-- The trailing-newline collapse fixes a text not ending in a newline. -/
theorem collapseTrailNL_id (s : List Char)
    (h : ∀ c, s.getLast? = some c → c ≠ '\n') : collapseTrailNL s = s := by
  have hr : s.reverse.dropWhile (· = '\n') = s.reverse := by
    cases hrev : s.reverse with
    | nil => rfl
    | cons a t =>
        rw [List.dropWhile_cons, if_neg]
        have ha : s.getLast? = some a := by
          rw [← List.head?_reverse, hrev]; rfl
        simp [h a ha]
  simp only [collapseTrailNL]
  rw [hr]
  simp

/-- A valid program rendering keeps every newline run at length at most
three. -/
theorem renderProg_nlOk : ∀ (rest : List (Nat × WfDef)) (d : WfDef) (r : Nat),
    defOk d = true →
    (∀ p ∈ rest, (1 ≤ p.1 ∧ p.1 ≤ 3) ∧ defOk p.2 = true) →
    nlOk r (renderDef d ++ tailRender rest) = true := by
  intro rest
  induction rest with
  | nil =>
      intro d r hd _
      simpa [tailRender] using renderDef_nlOk d hd r
  | cons p rest' ih =>
      obtain ⟨k, d'⟩ := p
      intro d r hd hrest
      have hk := (hrest (k, d') (List.mem_cons_self _ _)).1
      have hd' := (hrest (k, d') (List.mem_cons_self _ _)).2
      have hrest' : ∀ q ∈ rest', (1 ≤ q.1 ∧ q.1 ≤ 3) ∧ defOk q.2 = true :=
        fun q hq => hrest q (List.mem_cons_of_mem _ hq)
      have hsh : renderDef d ++ tailRender ((k, d') :: rest')
          = renderDef d ++ (List.replicate k '\n'
              ++ (renderDef d' ++ tailRender rest')) := by
        simp [tailRender]
      rw [hsh]
      apply nlOk_append_lastNonNL _ _ r (renderDef_nlOk d hd r)
      · intro c hc he
        rcases renderDef_getLast hd c hc with h1 | h1
        · rw [he] at h1; exact absurd h1 (by decide)
        · rw [he] at h1; exact absurd h1 (by decide)
      · exact renderDef_ne_nil hd
      · obtain ⟨x, xs, hx⟩ : ∃ x xs, renderDef d' = x :: xs := by
          cases hq : renderDef d' with
          | nil => exact absurd hq (renderDef_ne_nil hd')
          | cons x xs => exact ⟨x, xs, rfl⟩
        have hxw : wordChar x = true :=
          renderDef_head hd' x (by rw [hx]; rfl)
        have hshx : renderDef d' ++ tailRender rest'
            = x :: (xs ++ tailRender rest') := by
          rw [hx]; rfl
        rw [hshx]
        apply nlOk_replicate_cons k x _ hk.2
        · intro he; rw [he] at hxw; exact absurd hxw (by decide)
        · rw [← hshx]
          exact ih d' 0 hd' hrest'

/-- The canonical form of a valid definition is valid. -/
theorem canonDef_defOk (d : WfDef) (hd : defOk d = true) :
    defOk (canonDef d) = true := by
  cases d with
  | prim n ty => exact hd
  | str n kw fs =>
      obtain ⟨hn, hne, hfs⟩ := defOk_str hd
      simp only [canonDef, defOk, Bool.and_eq_true, Bool.not_eq_true',
        List.isEmpty_eq_false, List.all_eq_true]
      refine ⟨⟨hn, by simpa using hne⟩, ?_⟩
      intro x hx
      obtain ⟨f, hf, rfl⟩ := List.mem_map.mp hx
      have := hfs f hf
      simpa [fieldOk] using this

/-- Canonicalization does not change whether a definition is structured. -/
theorem canonDef_isStr (d : WfDef) : isStr (canonDef d) = isStr d := by
  cases d <;> rfl

/-- Canonicalization of one definition is idempotent. -/
theorem canonDef_idem (d : WfDef) : canonDef (canonDef d) = canonDef d := by
  cases d <;> simp [canonDef, List.map_map, Function.comp]

/-- The separator after a canonical definition is the canonical
separator. -/
theorem sepAfter_canon (d : WfDef) (k : Nat) :
    sepAfter (canonDef d) (sepAfter d k) = sepAfter d k := by
  cases d <;> simp [sepAfter, canonDef, isStr]

/-- Canonicalization of the tail is idempotent. -/
theorem canonRest_idem : ∀ (rest : List (Nat × WfDef)) (d : WfDef),
    canonRest (canonDef d) (canonRest d rest) = canonRest d rest := by
  intro rest
  induction rest with
  | nil => intro d; rfl
  | cons p rest' ih =>
      obtain ⟨k, d'⟩ := p
      intro d
      show (sepAfter (canonDef d) (sepAfter d k), canonDef (canonDef d'))
          :: canonRest (canonDef d') (canonRest d' rest')
          = (sepAfter d k, canonDef d') :: canonRest d' rest'
      rw [sepAfter_canon, canonDef_idem, ih d']

/-- Bounds and validity of the canonical tail. -/
theorem canonRest_bounds : ∀ (rest : List (Nat × WfDef)) (d : WfDef),
    (∀ p ∈ rest, (1 ≤ p.1 ∧ p.1 ≤ 3) ∧ defOk p.2 = true) →
    ∀ p ∈ canonRest d rest, (1 ≤ p.1 ∧ p.1 ≤ 3) ∧ defOk p.2 = true := by
  intro rest
  induction rest with
  | nil => intro d _ p hp; simp [canonRest] at hp
  | cons q rest' ih =>
      obtain ⟨k, d'⟩ := q
      intro d hrest p hp
      have hk := (hrest (k, d') (List.mem_cons_self _ _)).1
      have hd' := (hrest (k, d') (List.mem_cons_self _ _)).2
      have hrest' : ∀ q ∈ rest', (1 ≤ q.1 ∧ q.1 ≤ 3) ∧ defOk q.2 = true :=
        fun q hq => hrest q (List.mem_cons_of_mem _ hq)
      rcases List.mem_cons.mp hp with rfl | hp'
      · constructor
        · cases d <;> simp [sepAfter, isStr] <;> omega
        · exact canonDef_defOk d' hd'
      · exact ih d' hrest' p hp'

/-- Unpacking the validity of a rendered program. -/
theorem progOk_parts (d : WfDef) (rest : List (Nat × WfDef))
    (h : progOk d rest = true) :
    defOk d = true ∧
      ∀ p ∈ rest, (1 ≤ p.1 ∧ p.1 ≤ 3) ∧ defOk p.2 = true := by
  simp only [progOk, Bool.and_eq_true, List.all_eq_true] at h
  refine ⟨h.1, ?_⟩
  intro p hp
  have := h.2 p hp
  simp only [Bool.and_eq_true, decide_eq_true_eq] at this
  exact ⟨⟨this.1.1, this.1.2⟩, this.2⟩

/-- The canonical program of a valid program is valid. -/
theorem progOk_canon (d : WfDef) (rest : List (Nat × WfDef))
    (h : progOk d rest = true) :
    progOk (canonDef d) (canonRest d rest) = true := by
  obtain ⟨hd, hrest⟩ := progOk_parts d rest h
  simp only [progOk, Bool.and_eq_true, List.all_eq_true]
  refine ⟨canonDef_defOk d hd, ?_⟩
  intro p hp
  have := canonRest_bounds rest d hrest p hp
  simp only [Bool.and_eq_true, decide_eq_true_eq]
  exact ⟨⟨this.1.1, this.1.2⟩, this.2⟩

/-- Stage M7: the blank-line cleanup fixes a valid program rendering. -/
theorem cleanupSpacing_id_prog (d : WfDef) (rest : List (Nat × WfDef))
    (hd : defOk d = true)
    (hrest : ∀ p ∈ rest, (1 ≤ p.1 ∧ p.1 ≤ 3) ∧ defOk p.2 = true) :
    cleanupSpacing (renderProg d rest) = renderProg d rest := by
  have hok : ∀ p ∈ rest, defOk p.2 = true := fun p hp => (hrest p hp).2
  have hnl : nlOk 0 (renderProg d rest) = true :=
    renderProg_nlOk rest d 0 hd hrest
  have hcol : collapseNL (renderProg d rest) = renderProg d rest := by
    have := collapseNLGo_id (renderProg d rest) 0 (by omega) hnl
    simpa [collapseNL] using this
  have hhead : ∀ c, (renderProg d rest).head? = some c → c ≠ '\n' := by
    intro c hc he
    have := renderProg_head d rest hd c hc
    rw [he] at this
    exact absurd this (by decide)
  have hlast : ∀ c, (renderProg d rest).getLast? = some c → c ≠ '\n' := by
    intro c hc he
    rcases renderProg_getLast d rest hd hok c hc with h1 | h1
    · rw [he] at h1; exact absurd h1 (by decide)
    · rw [he] at h1; exact absurd h1 (by decide)
  unfold cleanupSpacing
  rw [hcol, dropLeadNL_id _ hhead, collapseTrailNL_id _ hlast]

/-- Stage M6, top level: the nested-brace formatter canonicalizes the
step-1 output. -/
theorem formatTypeDefs_canon (d : WfDef) (rest : List (Nat × WfDef))
    (hd : defOk d = true)
    (hrest : ∀ p ∈ rest, 1 ≤ p.1 ∧ defOk p.2 = true) :
    formatTypeDefinitionsWithNestedBraces
        (renderDef d ++ tailSep3 (isStr d) rest)
      = renderProg (canonDef d) (canonRest d rest) := by
  unfold formatTypeDefinitionsWithNestedBraces
  rw [findMatches_stream d rest hd hrest]
  have hwe : withEnds (renderDef d ++ tailSep3 (isStr d) rest)
      (expMatches 0 d rest) = expWE 0 d rest := by
    have := withEnds_stream rest d [] hd hrest
    simpa using this
  rw [hwe, List.foldl_reverse]
  have := stitch rest d [] (renderDef d ++ tailSep3 (isStr d) rest) hd hrest
    (by simp)
  simpa [renderProg] using this

/-- Stage M8: the formatter maps every valid program rendering to the
rendering of its canonical form. -/
theorem format_canon (w : Nat) (d : WfDef) (rest : List (Nat × WfDef))
    (h : progOk d rest = true) :
    formatASN1Code w (renderProg d rest)
      = renderProg (canonDef d) (canonRest d rest) := by
  obtain ⟨hd, hrest⟩ := progOk_parts d rest h
  have hok : ∀ p ∈ rest, defOk p.2 = true := fun p hp => (hrest p hp).2
  have hr1 : ∀ p ∈ rest, 1 ≤ p.1 ∧ defOk p.2 = true :=
    fun p hp => ⟨(hrest p hp).1.1, (hrest p hp).2⟩
  have hne : renderProg d rest ≠ [] := by
    intro hemp
    exact renderDef_ne_nil hd (List.append_eq_nil.mp hemp).1
  unfold formatASN1Code
  rw [jsTrim_renderProg d rest hd hok, if_neg hne]
  unfold simpleFormatASN1
  rw [jsTrim_renderProg d rest hd hok]
  rw [show replaceStep1 (renderProg d rest)
      = renderDef d ++ tailSep3 (isStr d) rest from
    replaceStep1_renderProg d rest hd hok]
  rw [formatTypeDefs_canon d rest hd hr1]
  exact cleanupSpacing_id_prog (canonDef d) (canonRest d rest)
    (canonDef_defOk d hd) (canonRest_bounds rest d hrest)

end Step2Lemmas

/-- Claim C2, confirmed: formatting is idempotent on well-formed input.
Well-formed input is modeled by `WellFormed`: the text is the rendering of
a valid program, a sequence of primitive aliases and structured
definitions with non-empty word-character names, types, keywords and
fields, separated by one to three newlines.  On such input the formatter
produces the canonical rendering (fields at the fixed two-space indent,
three separator newlines after every structured definition), and the
canonical rendering is itself well-formed and a fixed point of the
formatter, so a second application changes nothing. -/
theorem c2_format_idempotent_on_wellformed (w : Nat) (s : List Char)
    (h : WellFormed s) :
    formatASN1Code w (formatASN1Code w s) = formatASN1Code w s := by
  obtain ⟨d, rest, hok, rfl⟩ := h
  rw [format_canon w d rest hok,
    format_canon w (canonDef d) (canonRest d rest) (progOk_canon d rest hok),
    canonDef_idem, canonRest_idem]

/-- Witness for claim C2 at a concrete two-definition program. -/
theorem c2_format_idempotent_on_wellformed_witness :
    WellFormed (renderProg
        (.str "Person".data .seq
          [(0, ["name".data, "UTF8String".data]),
           (5, ["age".data, "INTEGER".data])])
        [(1, .prim "Alias".data "INTEGER".data)]) ∧
    formatASN1Code 2 (formatASN1Code 2 (renderProg
        (.str "Person".data .seq
          [(0, ["name".data, "UTF8String".data]),
           (5, ["age".data, "INTEGER".data])])
        [(1, .prim "Alias".data "INTEGER".data)]))
      = formatASN1Code 2 (renderProg
        (.str "Person".data .seq
          [(0, ["name".data, "UTF8String".data]),
           (5, ["age".data, "INTEGER".data])])
        [(1, .prim "Alias".data "INTEGER".data)]) :=
  ⟨⟨_, _, by decide, rfl⟩,
    c2_format_idempotent_on_wellformed 2 _ ⟨_, _, by decide, rfl⟩⟩

end ASN1
